import Mathlib

/-!
# LRU-K replacer (`src/buffer/lru_k_replacer.cpp`)

A shallow embedding of the frame replacer of the buffer pool and a verification
of its specification.

Conventions of the embedding.

* `frame_id_t` is a signed machine integer; frame ids are `Int`.
* `size_t` values (`replacer_size_`, `k_`, the access counter) are `Nat`; the
  conversion `(int)replacer_size_` is the two's-complement wrap `toInt`.
* `std::list<std::unique_ptr<FrameInfo>>` is a `List FrameInfo`, front of the
  list first.
* `std::unordered_map<frame_id_t, iterator>` is represented by its key set, a
  `Finset Int`; the iterator stored under a key designates the node of the
  list carrying that frame id (`findNode`).  The predicate `WF` states that
  the key sets agree with the lists; it is shown to hold initially and to be
  kept by every operation.
* `BUSTUB_ASSERT` failing is the outcome `fatal`, which carries the state at
  the moment the assertion fired.
* The latch is not part of the state.
-/

namespace bustub

/-! ## Frame records -/

/-- Modelled from the spec: the class `FrameInfo` is declared in the header
`buffer/lru_k_replacer.h`, which is not part of the sources at hand; its three
fields are the frame id, the access counter and the evictable flag. -/
structure FrameInfo where
  frame_id_ : Int
  times_ : Nat
  evictable_ : Bool
  deriving DecidableEq, Repr

namespace FrameInfo

/-- The constructor `FrameInfo::FrameInfo(frame_id)`: counter 0, evictable. -/
def new (frame_id : Int) : FrameInfo :=
  { frame_id_ := frame_id, times_ := 0, evictable_ := true }

/-- Modelled from the spec: accessor `IsEvictable` of the absent header, the
evictable flag of the record. -/
def IsEvictable (x : FrameInfo) : Bool := x.evictable_

/-- Modelled from the spec: accessor `GetId` of the absent header, the frame id
of the record. -/
def GetId (x : FrameInfo) : Int := x.frame_id_

/-- Modelled from the spec: accessor `GetTimes` of the absent header, the access
counter of the record. -/
def GetTimes (x : FrameInfo) : Nat := x.times_

/-- Modelled from the spec: `IncreaseTimes` of the absent header increments the
access counter by one. -/
def IncreaseTimes (x : FrameInfo) : FrameInfo := { x with times_ := x.times_ + 1 }

/-- Modelled from the spec: `SetEvictable` of the absent header stores the
flag. -/
def SetEvictable (x : FrameInfo) (set_evictable : Bool) : FrameInfo :=
  { x with evictable_ := set_evictable }

end FrameInfo

/-! ## Replacer state -/

/-- The data members of `LRUKReplacer`. -/
structure LRUKReplacer where
  replacer_size_ : Nat
  k_ : Nat
  history_list_ : List FrameInfo
  cache_list_ : List FrameInfo
  history_map_ : Finset Int
  cache_map_ : Finset Int
  deriving DecidableEq

/-- Result of an operation that contains a `BUSTUB_ASSERT`. -/
inductive Outcome where
  | ok (s : LRUKReplacer)
  | fatal (s : LRUKReplacer)
  deriving DecidableEq

/-- The conversion `(int)n` of a `size_t` to a 32-bit signed integer. -/
def toInt (n : Nat) : Int := ((n : Int) + 2147483648) % 4294967296 - 2147483648

/-- The node designated by the iterator stored under `frame_id`. -/
def findNode (frame_id : Int) : List FrameInfo → Option FrameInfo
  | [] => none
  | x :: xs => if x.GetId = frame_id then some x else findNode frame_id xs

/-- The list after `erase(it)`, `it` being the iterator stored under `frame_id`. -/
def eraseNode (frame_id : Int) : List FrameInfo → List FrameInfo
  | [] => []
  | x :: xs => if x.GetId = frame_id then xs else x :: eraseNode frame_id xs

/-- The list after the record behind the iterator stored under `frame_id` has
been updated in place by `g`. -/
def updateNode (frame_id : Int) (g : FrameInfo → FrameInfo) : List FrameInfo → List FrameInfo
  | [] => []
  | x :: xs => if x.GetId = frame_id then g x :: xs else x :: updateNode frame_id g xs

namespace LRUKReplacer

/-- The constructor `LRUKReplacer(num_frames, k)`. -/
def new (num_frames k : Nat) : LRUKReplacer :=
  { replacer_size_ := num_frames, k_ := k, history_list_ := [], cache_list_ := [],
    history_map_ := ∅, cache_map_ := ∅ }

/-- One scanning loop of `Evict`: walk the list from the front, stop at the
first evictable record, erase it and report its id. -/
def evictScan : List FrameInfo → Option (Int × List FrameInfo)
  | [] => none
  | x :: xs =>
    if x.IsEvictable then some (x.GetId, xs)
    else
      match evictScan xs with
      | some (id, rest) => some (id, x :: rest)
      | none => none

/-- The operation `Evict(frame_id*)`: `some id` stands for `true` with
`*frame_id = id`, `none` for `false`. -/
def Evict (r : LRUKReplacer) : Option Int × LRUKReplacer :=
  match evictScan r.history_list_ with
  | some (id, rest) =>
    (some id, { r with history_list_ := rest, history_map_ := r.history_map_.erase id })
  | none =>
    match evictScan r.cache_list_ with
    | some (id, rest) =>
      (some id, { r with cache_list_ := rest, cache_map_ := r.cache_map_.erase id })
    | none => (none, r)

/-- The operation `RecordAccess(frame_id)`.  The branches `none` stand for an
index entry without a record in the queue, which no well-formed state has; the
call is then taken to leave the state. -/
def RecordAccess (r : LRUKReplacer) (frame_id : Int) : Outcome :=
  if ¬ frame_id ≤ toInt r.replacer_size_ then Outcome.fatal r
  else if frame_id ∈ r.cache_map_ then
    match findNode frame_id r.cache_list_ with
    | some x =>
      Outcome.ok { r with cache_list_ := eraseNode frame_id r.cache_list_ ++ [x],
                          cache_map_ := insert frame_id r.cache_map_ }
    | none => Outcome.ok r
  else if frame_id ∈ r.history_map_ then
    match findNode frame_id r.history_list_ with
    | some x =>
      if (x.IncreaseTimes).GetTimes ≥ r.k_ then
        Outcome.ok { r with cache_list_ := r.cache_list_ ++ [x.IncreaseTimes],
                            cache_map_ := insert frame_id r.cache_map_,
                            history_map_ := r.history_map_.erase frame_id,
                            history_list_ := eraseNode frame_id r.history_list_ }
      else
        Outcome.ok { r with history_list_ :=
                              updateNode frame_id FrameInfo.IncreaseTimes r.history_list_ }
    | none => Outcome.ok r
  else
    Outcome.ok { r with history_list_ := r.history_list_ ++ [(FrameInfo.new frame_id).IncreaseTimes],
                        history_map_ := insert frame_id r.history_map_ }

/-- The operation `SetEvictable(frame_id, set_evictable)`. -/
def SetEvictable (r : LRUKReplacer) (frame_id : Int) (set_evictable : Bool) : LRUKReplacer :=
  if frame_id ∈ r.history_map_ then
    { r with history_list_ :=
               updateNode frame_id (fun x => x.SetEvictable set_evictable) r.history_list_ }
  else if frame_id ∈ r.cache_map_ then
    { r with cache_list_ :=
               updateNode frame_id (fun x => x.SetEvictable set_evictable) r.cache_list_ }
  else r

/-- The operation `Remove(frame_id)`.  The branches `none` stand for an index
entry without a record in the queue, which no well-formed state has; the call
is then taken to leave the state. -/
def Remove (r : LRUKReplacer) (frame_id : Int) : Outcome :=
  if frame_id ∈ r.history_map_ then
    match findNode frame_id r.history_list_ with
    | some x =>
      if x.IsEvictable then
        Outcome.ok { r with history_list_ := eraseNode frame_id r.history_list_,
                            history_map_ := r.history_map_.erase frame_id }
      else Outcome.fatal r
    | none => Outcome.ok r
  else if frame_id ∈ r.cache_map_ then
    match findNode frame_id r.cache_list_ with
    | some x =>
      if x.IsEvictable then
        Outcome.ok { r with cache_list_ := eraseNode frame_id r.cache_list_,
                            cache_map_ := r.cache_map_.erase frame_id }
      else Outcome.fatal r
    | none => Outcome.ok r
  else Outcome.ok r

/-- One counting loop of `Size`: `num` is incremented for every evictable
record of the list. -/
def countLoop (l : List FrameInfo) (num : Nat) : Nat :=
  l.foldl (fun n ele => if ele.IsEvictable then n + 1 else n) num

/-- The operation `Size()`: the cache list is counted first, then the history
list. -/
def Size (r : LRUKReplacer) : Nat :=
  countLoop r.history_list_ (countLoop r.cache_list_ 0)

/-! ## Well-formed states: the definition -/

/-- The well-formedness of a replacer state: no frame id occurs twice in the
two queues together, and each index holds the ids of its own queue. -/
def WF (r : LRUKReplacer) : Prop :=
  (r.history_list_.map FrameInfo.GetId ++ r.cache_list_.map FrameInfo.GetId).Nodup ∧
  r.history_map_ = (r.history_list_.map FrameInfo.GetId).toFinset ∧
  r.cache_map_ = (r.cache_list_.map FrameInfo.GetId).toFinset

instance (r : LRUKReplacer) : Decidable (WF r) := by
  unfold WF; infer_instance

end LRUKReplacer

/-! ## The public interface as a transition system -/

/-- A call of one public operation. -/
inductive Call where
  | RecordAccess (frame_id : Int)
  | SetEvictable (frame_id : Int) (set_evictable : Bool)
  | Evict
  | Remove (frame_id : Int)
  | Size
  deriving DecidableEq

/-- What a call hands back: nothing, the result of `Evict`, or the result of
`Size`. -/
inductive Ret where
  | done
  | victim (v : Option Int)
  | size (n : Nat)
  deriving DecidableEq

/-- What a call with an assertion hands back: nothing when it completes, and no
result at all when the assertion fails. -/
def Outcome.result : Outcome → Option (Ret × LRUKReplacer)
  | Outcome.ok s => some (Ret.done, s)
  | Outcome.fatal _ => none

/-- One call on a state: the returned value and the state afterwards, or `none`
when the call ends in a fatal assertion. -/
def call (r : LRUKReplacer) : Call → Option (Ret × LRUKReplacer)
  | Call.RecordAccess f => (r.RecordAccess f).result
  | Call.SetEvictable f b => some (Ret.done, r.SetEvictable f b)
  | Call.Evict => some (Ret.victim r.Evict.1, r.Evict.2)
  | Call.Remove f => (r.Remove f).result
  | Call.Size => some (Ret.size r.Size, r)

/-- A sequence of calls, stopping at the first fatal one: the returned values in
order and the final state. -/
def run (r : LRUKReplacer) : List Call → Option (List Ret × LRUKReplacer)
  | [] => some ([], r)
  | c :: cs =>
    match call r c with
    | none => none
    | some (v, s) =>
      match run s cs with
      | none => none
      | some (vs, t) => some (v :: vs, t)

/-- The calls after which a frame `f` that was made non-evictable is still so:
every call but `SetEvictable(f, true)` and `Remove(f)`. -/
def keepsPinned (f : Int) : Call → Bool
  | Call.RecordAccess _ => true
  | Call.SetEvictable g b => decide (g ≠ f) || !b
  | Call.Evict => true
  | Call.Remove g => decide (g ≠ f)
  | Call.Size => true

/-- Frame `f` is tracked by a well-formed state and its record is not
evictable. -/
def Pinned (f : Int) (r : LRUKReplacer) : Prop :=
  r.WF ∧ ∃ x ∈ r.history_list_ ++ r.cache_list_, x.GetId = f ∧ x.IsEvictable = false

/-- The outcome of `n` successive calls `RecordAccess(frame_id)`. -/
def accessN (r : LRUKReplacer) (frame_id : Int) : Nat → Outcome
  | 0 => Outcome.ok r
  | n + 1 =>
    match accessN r frame_id n with
    | Outcome.ok s => s.RecordAccess frame_id
    | Outcome.fatal s => Outcome.fatal s

/-- The results of `n` successive calls of `Evict`, in order, and the state
afterwards. -/
def evictN (r : LRUKReplacer) : Nat → List (Option Int) × LRUKReplacer
  | 0 => ([], r)
  | n + 1 => (r.Evict.1 :: (evictN r.Evict.2 n).1, (evictN r.Evict.2 n).2)

/-- A sample state with K = 3 and capacity 7: frames 1, 2, 3 in the history
queue and frames 4, 5, 6 in the cache queue; frames 2 and 5 are not evictable. -/
def sampleState : LRUKReplacer :=
  { replacer_size_ := 7, k_ := 3,
    history_list_ := [{ frame_id_ := 1, times_ := 1, evictable_ := true },
                      { frame_id_ := 2, times_ := 2, evictable_ := false },
                      { frame_id_ := 3, times_ := 1, evictable_ := true }],
    cache_list_ := [{ frame_id_ := 4, times_ := 3, evictable_ := true },
                    { frame_id_ := 5, times_ := 4, evictable_ := false },
                    { frame_id_ := 6, times_ := 3, evictable_ := true }],
    history_map_ := {1, 2, 3}, cache_map_ := {4, 5, 6} }

/-- A sample state with K = 2 and capacity 7 whose history queue holds only the
non-evictable frame 2; frames 4, 5, 6 are in the cache queue, 5 not
evictable. -/
def warmState : LRUKReplacer :=
  { replacer_size_ := 7, k_ := 2,
    history_list_ := [{ frame_id_ := 2, times_ := 1, evictable_ := false }],
    cache_list_ := [{ frame_id_ := 4, times_ := 2, evictable_ := true },
                    { frame_id_ := 5, times_ := 3, evictable_ := false },
                    { frame_id_ := 6, times_ := 2, evictable_ := true }],
    history_map_ := {2}, cache_map_ := {4, 5, 6} }

/-- A run of calls on the sample state after `SetEvictable(3, false)`: frame 3
is accessed twice, which moves it to the cache queue, and three evictions
follow. -/
def pinnedCalls : List Call :=
  [Call.RecordAccess 3, Call.RecordAccess 3, Call.Evict, Call.Evict,
   Call.SetEvictable 1 false, Call.Evict, Call.Size]

/-- The state that `pinnedCalls` ends in. -/
def pinnedEnd : LRUKReplacer :=
  { replacer_size_ := 7, k_ := 3,
    history_list_ := [{ frame_id_ := 2, times_ := 2, evictable_ := false }],
    cache_list_ := [{ frame_id_ := 5, times_ := 4, evictable_ := false },
                    { frame_id_ := 3, times_ := 3, evictable_ := false }],
    history_map_ := {2}, cache_map_ := {3, 5} }

/-- The transitions of a well-formed state, one rule for each path through each
operation: what the call returns and the state it leaves.  `call_step` shows
that every completed call on a well-formed state follows one of the rules. -/
inductive Step (r : LRUKReplacer) : Call → Ret → LRUKReplacer → Prop where
  | accessUnseen (f : Int) (hcap : f ≤ toInt r.replacer_size_)
      (hh : f ∉ r.history_map_) (hc : f ∉ r.cache_map_) :
      Step r (Call.RecordAccess f) Ret.done
        { r with history_list_ := r.history_list_ ++
                   [{ frame_id_ := f, times_ := 1, evictable_ := true }],
                 history_map_ := insert f r.history_map_ }
  | accessStay (pre post : List FrameInfo) (x : FrameInfo)
      (hl : r.history_list_ = pre ++ x :: post)
      (hcap : x.GetId ≤ toInt r.replacer_size_) (hk : x.times_ + 1 < r.k_) :
      Step r (Call.RecordAccess x.GetId) Ret.done
        { r with history_list_ := pre ++ x.IncreaseTimes :: post }
  | accessPromote (pre post : List FrameInfo) (x : FrameInfo)
      (hl : r.history_list_ = pre ++ x :: post)
      (hcap : x.GetId ≤ toInt r.replacer_size_) (hk : r.k_ ≤ x.times_ + 1) :
      Step r (Call.RecordAccess x.GetId) Ret.done
        { r with cache_list_ := r.cache_list_ ++ [x.IncreaseTimes],
                 cache_map_ := insert x.GetId r.cache_map_,
                 history_map_ := r.history_map_.erase x.GetId,
                 history_list_ := pre ++ post }
  | accessCache (pre post : List FrameInfo) (x : FrameInfo)
      (hl : r.cache_list_ = pre ++ x :: post)
      (hcap : x.GetId ≤ toInt r.replacer_size_) :
      Step r (Call.RecordAccess x.GetId) Ret.done
        { r with cache_list_ := pre ++ post ++ [x] }
  | setUntracked (f : Int) (b : Bool)
      (hh : f ∉ r.history_map_) (hc : f ∉ r.cache_map_) :
      Step r (Call.SetEvictable f b) Ret.done r
  | setHistory (pre post : List FrameInfo) (x : FrameInfo) (b : Bool)
      (hl : r.history_list_ = pre ++ x :: post) :
      Step r (Call.SetEvictable x.GetId b) Ret.done
        { r with history_list_ := pre ++ x.SetEvictable b :: post }
  | setCache (pre post : List FrameInfo) (x : FrameInfo) (b : Bool)
      (hl : r.cache_list_ = pre ++ x :: post) :
      Step r (Call.SetEvictable x.GetId b) Ret.done
        { r with cache_list_ := pre ++ x.SetEvictable b :: post }
  | evictHistory (pre post : List FrameInfo) (x : FrameInfo)
      (hl : r.history_list_ = pre ++ x :: post)
      (hpre : ∀ y ∈ pre, y.IsEvictable = false) (hx : x.IsEvictable = true) :
      Step r Call.Evict (Ret.victim (some x.GetId))
        { r with history_list_ := pre ++ post,
                 history_map_ := r.history_map_.erase x.GetId }
  | evictCache (pre post : List FrameInfo) (x : FrameInfo)
      (hh : ∀ y ∈ r.history_list_, y.IsEvictable = false)
      (hl : r.cache_list_ = pre ++ x :: post)
      (hpre : ∀ y ∈ pre, y.IsEvictable = false) (hx : x.IsEvictable = true) :
      Step r Call.Evict (Ret.victim (some x.GetId))
        { r with cache_list_ := pre ++ post,
                 cache_map_ := r.cache_map_.erase x.GetId }
  | evictNone (hh : ∀ y ∈ r.history_list_, y.IsEvictable = false)
      (hc : ∀ y ∈ r.cache_list_, y.IsEvictable = false) :
      Step r Call.Evict (Ret.victim none) r
  | removeUntracked (f : Int) (hh : f ∉ r.history_map_) (hc : f ∉ r.cache_map_) :
      Step r (Call.Remove f) Ret.done r
  | removeHistory (pre post : List FrameInfo) (x : FrameInfo)
      (hl : r.history_list_ = pre ++ x :: post) (hx : x.IsEvictable = true) :
      Step r (Call.Remove x.GetId) Ret.done
        { r with history_list_ := pre ++ post,
                 history_map_ := r.history_map_.erase x.GetId }
  | removeCache (pre post : List FrameInfo) (x : FrameInfo)
      (hl : r.cache_list_ = pre ++ x :: post) (hx : x.IsEvictable = true) :
      Step r (Call.Remove x.GetId) Ret.done
        { r with cache_list_ := pre ++ post,
                 cache_map_ := r.cache_map_.erase x.GetId }
  | size : Step r Call.Size (Ret.size r.Size) r

/-- Every tracked frame id passed the bounds assertion of `RecordAccess`. -/
def Bounded (r : LRUKReplacer) : Prop :=
  ∀ x ∈ r.history_list_ ++ r.cache_list_, x.GetId ≤ toInt r.replacer_size_

/-- The counters of the history queue are below K and those of the cache queue
are at least K. -/
def CountInv (r : LRUKReplacer) : Prop :=
  (∀ x ∈ r.history_list_, x.times_ < r.k_) ∧ (∀ x ∈ r.cache_list_, r.k_ ≤ x.times_)

/-- A run of calls on a fresh replacer with K = 2 and capacity 5. -/
def reachedCalls : List Call :=
  [Call.RecordAccess 1, Call.RecordAccess 2, Call.RecordAccess 3, Call.RecordAccess 1,
   Call.SetEvictable 2 false, Call.Evict]

/-- The state that `reachedCalls` ends in: frame 2, pinned, in the history
queue and frame 1 in the cache queue. -/
def reachedState : LRUKReplacer :=
  { replacer_size_ := 5, k_ := 2,
    history_list_ := [{ frame_id_ := 2, times_ := 1, evictable_ := false }],
    cache_list_ := [{ frame_id_ := 1, times_ := 2, evictable_ := true }],
    history_map_ := {2}, cache_map_ := {1} }

/-- A run of calls on `reachedState` that neither removes nor evicts frame 1:
frame 2 is promoted, frame 1 is pinned, nothing can be evicted, frame 1 is
accessed again, and the untracked frame 4 is removed. -/
def movedCalls : List Call :=
  [Call.RecordAccess 2, Call.SetEvictable 1 false, Call.Evict, Call.RecordAccess 1,
   Call.Remove 4]

/-- The state that `movedCalls` ends in. -/
def movedState : LRUKReplacer :=
  { replacer_size_ := 5, k_ := 2, history_list_ := [],
    cache_list_ := [{ frame_id_ := 2, times_ := 2, evictable_ := false },
                    { frame_id_ := 1, times_ := 2, evictable_ := false }],
    history_map_ := ∅, cache_map_ := {2, 1} }

/-- In the list of ids `L` the id `a` stands before the id `b`. -/
def Before (a b : Int) (L : List Int) : Prop :=
  ∃ l1 l2, L = l1 ++ a :: l2 ∧ b ∈ l2

/-- The ids of the history queue, front first. -/
def hids (r : LRUKReplacer) : List Int := r.history_list_.map FrameInfo.GetId

/-- The ids of the cache queue, front first. -/
def cids (r : LRUKReplacer) : List Int := r.cache_list_.map FrameInfo.GetId

/-- The order that first recording gives: `a` has moved on to the cache queue,
or it is in the history queue and `b` is untracked, or in the cache queue, or
behind `a` in the history queue. -/
def Fifo (a b : Int) (r : LRUKReplacer) : Prop :=
  a ∈ cids r ∨
  (a ∈ hids r ∧ ((b ∉ hids r ∧ b ∉ cids r) ∨ b ∈ cids r ∨ Before a b (hids r)))

/-- The order that the latest access gives: `c` is in the cache queue and `d`,
accessed after it, is still in the history queue or behind `c` in the cache
queue. -/
def Lru (c d : Int) (r : LRUKReplacer) : Prop :=
  c ∈ cids r ∧ (d ∈ hids r ∨ Before c d (cids r))

/-- A state with K = 3 and capacity 7 in which frame 1 has been recorded once
and nothing else is tracked. -/
def fifoStart : LRUKReplacer :=
  { replacer_size_ := 7, k_ := 3,
    history_list_ := [{ frame_id_ := 1, times_ := 1, evictable_ := true }],
    cache_list_ := [], history_map_ := {1}, cache_map_ := ∅ }

/-- A run on `fifoStart`: frame 2 is recorded, frame 1 is accessed again, and
frame 3 is recorded and accessed until it moves to the cache queue. -/
def fifoCalls : List Call :=
  [Call.RecordAccess 2, Call.RecordAccess 1, Call.RecordAccess 3, Call.RecordAccess 3,
   Call.RecordAccess 3, Call.SetEvictable 9 false]

/-- The state that `fifoCalls` ends in. -/
def fifoEnd : LRUKReplacer :=
  { replacer_size_ := 7, k_ := 3,
    history_list_ := [{ frame_id_ := 1, times_ := 2, evictable_ := true },
                      { frame_id_ := 2, times_ := 1, evictable_ := true }],
    cache_list_ := [{ frame_id_ := 3, times_ := 3, evictable_ := true }],
    history_map_ := {2, 1}, cache_map_ := {3} }

/-- A run on `warmState` that follows the access of frame 6: frame 5 is
accessed, frame 2 is accessed and thereby moves to the cache queue, and frame 2
is made evictable; frame 4 is not accessed. -/
def lruCalls : List Call :=
  [Call.RecordAccess 5, Call.RecordAccess 2, Call.SetEvictable 2 true]

/-- The state that `RecordAccess(6)` followed by `lruCalls` ends in. -/
def lruEnd : LRUKReplacer :=
  { replacer_size_ := 7, k_ := 2, history_list_ := [],
    cache_list_ := [{ frame_id_ := 4, times_ := 2, evictable_ := true },
                    { frame_id_ := 6, times_ := 2, evictable_ := true },
                    { frame_id_ := 5, times_ := 3, evictable_ := false },
                    { frame_id_ := 2, times_ := 2, evictable_ := true }],
    history_map_ := ∅, cache_map_ := {2, 4, 5, 6} }

/-- The counter of frame `f` after `m` accesses since it was untracked: `f` is
untracked when `m` is 0; otherwise its record carries the counter `m` capped at
`max K 2`, in the history queue below the cap and in the cache queue from the
cap on. -/
def CountIs (f : Int) (m : Nat) (r : LRUKReplacer) : Prop :=
  (m = 0 ∧ f ∉ r.history_map_ ∧ f ∉ r.cache_map_) ∨
  (1 ≤ m ∧ ∃ x : FrameInfo, x.GetId = f ∧ x.times_ = min m (max r.k_ 2) ∧
    ((m < max r.k_ 2 ∧ x ∈ r.history_list_) ∨ (max r.k_ 2 ≤ m ∧ x ∈ r.cache_list_)))

/-- A run on a fresh replacer with K = 2 and capacity 5: frame 1 is accessed
three times, then frame 2 once. -/
def countedCalls : List Call :=
  [Call.RecordAccess 1, Call.RecordAccess 1, Call.RecordAccess 1, Call.RecordAccess 2]

/-- The state that `countedCalls` ends in. -/
def countedEnd : LRUKReplacer :=
  { replacer_size_ := 5, k_ := 2,
    history_list_ := [{ frame_id_ := 2, times_ := 1, evictable_ := true }],
    cache_list_ := [{ frame_id_ := 1, times_ := 2, evictable_ := true }],
    history_map_ := {2}, cache_map_ := {1} }

/-- The state that `RecordAccess(2)` leaves `reachedState` in: frame 2 has
moved to the back of the cache queue with counter 2. -/
def promotedState : LRUKReplacer :=
  { replacer_size_ := 5, k_ := 2, history_list_ := [],
    cache_list_ := [{ frame_id_ := 1, times_ := 2, evictable_ := true },
                    { frame_id_ := 2, times_ := 2, evictable_ := false }],
    history_map_ := ∅, cache_map_ := {2, 1} }

/-! ## Facts about the list primitives -/

theorem findNode_split (f : Int) (pre post : List FrameInfo) (x : FrameInfo)
    (hpre : ∀ y ∈ pre, y.GetId ≠ f) (hx : x.GetId = f) :
    findNode f (pre ++ x :: post) = some x := by
  induction pre with
  | nil => simp [findNode, hx]
  | cons y ys ih =>
    have hy : y.GetId ≠ f := hpre y (by simp)
    simp [findNode, hy, ih (fun z hz => hpre z (by simp [hz]))]

theorem eraseNode_split (f : Int) (pre post : List FrameInfo) (x : FrameInfo)
    (hpre : ∀ y ∈ pre, y.GetId ≠ f) (hx : x.GetId = f) :
    eraseNode f (pre ++ x :: post) = pre ++ post := by
  induction pre with
  | nil => simp [eraseNode, hx]
  | cons y ys ih =>
    have hy : y.GetId ≠ f := hpre y (by simp)
    simp [eraseNode, hy, ih (fun z hz => hpre z (by simp [hz]))]

theorem updateNode_split (f : Int) (g : FrameInfo → FrameInfo) (pre post : List FrameInfo)
    (x : FrameInfo) (hpre : ∀ y ∈ pre, y.GetId ≠ f) (hx : x.GetId = f) :
    updateNode f g (pre ++ x :: post) = pre ++ g x :: post := by
  induction pre with
  | nil => simp [updateNode, hx]
  | cons y ys ih =>
    have hy : y.GetId ≠ f := hpre y (by simp)
    simp [updateNode, hy, ih (fun z hz => hpre z (by simp [hz]))]

theorem findNode_absent (f : Int) (l : List FrameInfo) (h : ∀ y ∈ l, y.GetId ≠ f) :
    findNode f l = none := by
  induction l with
  | nil => rfl
  | cons y ys ih =>
    have hy : y.GetId ≠ f := h y (by simp)
    simp [findNode, hy, ih (fun z hz => h z (by simp [hz]))]

/-- A list holding a record with id `f` splits at the first such record. -/
theorem split_at_id (f : Int) (l : List FrameInfo) (h : ∃ x ∈ l, x.GetId = f) :
    ∃ pre x post, l = pre ++ x :: post ∧ x.GetId = f ∧ ∀ y ∈ pre, y.GetId ≠ f := by
  induction l with
  | nil => simp at h
  | cons y ys ih =>
    by_cases hy : y.GetId = f
    · exact ⟨[], y, ys, rfl, hy, by simp⟩
    · obtain ⟨x, hx, hxf⟩ := h
      have hx2 : x ∈ ys := by
        rcases List.mem_cons.1 hx with rfl | hx
        · exact absurd hxf hy
        · exact hx
      obtain ⟨pre, z, post, hl, hz, hpre⟩ := ih ⟨x, hx2, hxf⟩
      refine ⟨y :: pre, z, post, by simp [hl], hz, ?_⟩
      intro w hw
      rcases List.mem_cons.1 hw with rfl | hw
      · exact hy
      · exact hpre w hw

/-- In a list without repeated ids the records before a record differ from it
in their id. -/
theorem ids_before_ne (pre post : List FrameInfo) (x : FrameInfo)
    (h : ((pre ++ x :: post).map FrameInfo.GetId).Nodup) : ∀ y ∈ pre, y.GetId ≠ x.GetId := by
  intro y hy hyx
  rw [List.map_append, List.map_cons, List.nodup_append] at h
  exact h.2.2 (List.mem_map_of_mem _ hy) (by simp [hyx])

namespace LRUKReplacer

theorem evictScan_split (pre post : List FrameInfo) (x : FrameInfo)
    (hpre : ∀ y ∈ pre, y.IsEvictable = false) (hx : x.IsEvictable = true) :
    evictScan (pre ++ x :: post) = some (x.GetId, pre ++ post) := by
  induction pre with
  | nil => simp [evictScan, hx]
  | cons y ys ih =>
    have hy : y.IsEvictable = false := hpre y (by simp)
    have hys := ih (fun z hz => hpre z (by simp [hz]))
    simp [evictScan, hy, hys]

theorem evictScan_none (l : List FrameInfo) (h : ∀ y ∈ l, y.IsEvictable = false) :
    evictScan l = none := by
  induction l with
  | nil => rfl
  | cons y ys ih =>
    have hy : y.IsEvictable = false := h y (by simp)
    have hys := ih (fun z hz => h z (by simp [hz]))
    simp [evictScan, hy, hys]

/-- A list either has no evictable record or splits at its first evictable
record. -/
theorem first_evictable (l : List FrameInfo) :
    (∀ y ∈ l, y.IsEvictable = false) ∨
    ∃ pre x post, l = pre ++ x :: post ∧ (∀ y ∈ pre, y.IsEvictable = false) ∧
      x.IsEvictable = true := by
  induction l with
  | nil => left; simp
  | cons y ys ih =>
    by_cases hy : y.IsEvictable = true
    · right; exact ⟨[], y, ys, rfl, by simp, hy⟩
    · have hy2 : y.IsEvictable = false := by simpa using hy
      rcases ih with h | ⟨pre, x, post, hl, hpre, hx⟩
      · left
        intro z hz
        rcases List.mem_cons.1 hz with rfl | hz
        · exact hy2
        · exact h z hz
      · right
        refine ⟨y :: pre, x, post, by simp [hl], ?_, hx⟩
        intro z hz
        rcases List.mem_cons.1 hz with rfl | hz
        · exact hy2
        · exact hpre z hz

theorem Evict_history (r : LRUKReplacer) (pre post : List FrameInfo) (x : FrameInfo)
    (hl : r.history_list_ = pre ++ x :: post)
    (hpre : ∀ y ∈ pre, y.IsEvictable = false) (hx : x.IsEvictable = true) :
    r.Evict = (some x.GetId, { r with history_list_ := pre ++ post,
                                      history_map_ := r.history_map_.erase x.GetId }) := by
  simp [Evict, hl, evictScan_split pre post x hpre hx]

theorem Evict_cache (r : LRUKReplacer) (pre post : List FrameInfo) (x : FrameInfo)
    (hh : ∀ y ∈ r.history_list_, y.IsEvictable = false)
    (hl : r.cache_list_ = pre ++ x :: post)
    (hpre : ∀ y ∈ pre, y.IsEvictable = false) (hx : x.IsEvictable = true) :
    r.Evict = (some x.GetId, { r with cache_list_ := pre ++ post,
                                      cache_map_ := r.cache_map_.erase x.GetId }) := by
  simp [Evict, hl, evictScan_none _ hh, evictScan_split pre post x hpre hx]

theorem Evict_none (r : LRUKReplacer)
    (hh : ∀ y ∈ r.history_list_, y.IsEvictable = false)
    (hc : ∀ y ∈ r.cache_list_, y.IsEvictable = false) :
    r.Evict = (none, r) := by
  simp [Evict, evictScan_none _ hh, evictScan_none _ hc]

end LRUKReplacer

/-! ## Facts about lists of frame ids -/

theorem toFinset_erase_mid (p q : List Int) (a : Int) (h : (p ++ a :: q).Nodup) :
    (p ++ a :: q).toFinset.erase a = (p ++ q).toFinset := by
  have h2 := List.nodup_middle.1 h
  have ha : a ∉ (p ++ q).toFinset := by simpa using (List.nodup_cons.1 h2).1
  rw [List.toFinset_eq_of_perm _ _ (List.perm_middle), List.toFinset_cons, Finset.erase_insert ha]

theorem nodup_drop_mid (p q c : List Int) (a : Int) (h : (p ++ a :: q ++ c).Nodup) :
    (p ++ q ++ c).Nodup := by
  refine h.sublist ?_
  exact List.Sublist.append_right (List.Sublist.append_left (List.sublist_cons_self a q) p) c

theorem nodup_drop_mid_right (c p q : List Int) (a : Int) (h : (c ++ (p ++ a :: q)).Nodup) :
    (c ++ (p ++ q)).Nodup := by
  refine h.sublist ?_
  exact List.Sublist.append_left (List.Sublist.append_left (List.sublist_cons_self a q) p) c

theorem nodup_move_back (c p q : List Int) (a : Int) (h : (c ++ (p ++ a :: q)).Nodup) :
    (c ++ (p ++ q ++ [a])).Nodup := by
  refine (List.Perm.nodup_iff ?_).1 h
  refine List.Perm.append_left c ?_
  exact List.perm_middle.trans (List.perm_append_singleton a (p ++ q)).symm

theorem nodup_promote (p q c : List Int) (a : Int) (h : (p ++ a :: q ++ c).Nodup) :
    (p ++ q ++ (c ++ [a])).Nodup := by
  refine (List.Perm.nodup_iff ?_).1 h
  have h1 : List.Perm (p ++ a :: q ++ c) (a :: (p ++ q) ++ c) :=
    List.Perm.append_right c List.perm_middle
  have h2 : List.Perm (a :: (p ++ q ++ c)) (p ++ q ++ c ++ [a]) :=
    (List.perm_append_singleton a _).symm
  have h3 : p ++ q ++ c ++ [a] = p ++ q ++ (c ++ [a]) := by simp
  rw [← h3]
  exact h1.trans h2

theorem toFinset_snoc (c : List Int) (a : Int) :
    (c ++ [a]).toFinset = insert a c.toFinset := by
  ext b
  simp only [List.mem_toFinset, List.mem_append, List.mem_singleton, Finset.mem_insert]
  tauto

theorem toFinset_move_back (p q : List Int) (a : Int) :
    (p ++ q ++ [a]).toFinset = (p ++ a :: q).toFinset := by
  ext b; simp; tauto

/-! ## Well-formed states -/

namespace LRUKReplacer

theorem WF_new (num_frames k : Nat) : WF (LRUKReplacer.new num_frames k) := by
  simp [WF, LRUKReplacer.new]

theorem WF.mem_history {r : LRUKReplacer} (h : WF r) (f : Int) :
    f ∈ r.history_map_ ↔ ∃ x ∈ r.history_list_, x.GetId = f := by
  rw [h.2.1]; simp

theorem WF.mem_cache {r : LRUKReplacer} (h : WF r) (f : Int) :
    f ∈ r.cache_map_ ↔ ∃ x ∈ r.cache_list_, x.GetId = f := by
  rw [h.2.2]; simp

theorem WF.nodup_history {r : LRUKReplacer} (h : WF r) :
    (r.history_list_.map FrameInfo.GetId).Nodup := (List.nodup_append.1 h.1).1

theorem WF.nodup_cache {r : LRUKReplacer} (h : WF r) :
    (r.cache_list_.map FrameInfo.GetId).Nodup := (List.nodup_append.1 h.1).2.1

theorem WF.disjoint {r : LRUKReplacer} (h : WF r) {x y : FrameInfo}
    (hx : x ∈ r.history_list_) (hy : y ∈ r.cache_list_) : x.GetId ≠ y.GetId := by
  intro e
  exact (List.nodup_append.1 h.1).2.2 (List.mem_map_of_mem _ hx) (e ▸ List.mem_map_of_mem _ hy)

/-- A frame is in at most one index. -/
theorem WF.not_both {r : LRUKReplacer} (h : WF r) (f : Int)
    (hh : f ∈ r.history_map_) : f ∉ r.cache_map_ := by
  intro hc
  obtain ⟨x, hx, hxf⟩ := (h.mem_history f).1 hh
  obtain ⟨y, hy, hyf⟩ := (h.mem_cache f).1 hc
  exact h.disjoint hx hy (hxf.trans hyf.symm)

theorem WF_erase_history (r : LRUKReplacer) (pre post : List FrameInfo) (x : FrameInfo)
    (h : WF r) (hl : r.history_list_ = pre ++ x :: post) :
    WF { r with history_list_ := pre ++ post,
                history_map_ := r.history_map_.erase x.GetId } := by
  have hn := h.nodup_history
  obtain ⟨h1, h2, h3⟩ := h
  rw [hl] at h1 h2 hn
  simp only [List.map_append, List.map_cons] at h1 h2 hn
  refine ⟨?_, ?_, h3⟩
  · simp only [List.map_append]
    exact nodup_drop_mid _ _ _ _ h1
  · simp only [List.map_append]
    rw [h2]
    exact toFinset_erase_mid _ _ _ hn

theorem WF_erase_cache (r : LRUKReplacer) (pre post : List FrameInfo) (x : FrameInfo)
    (h : WF r) (hl : r.cache_list_ = pre ++ x :: post) :
    WF { r with cache_list_ := pre ++ post,
                cache_map_ := r.cache_map_.erase x.GetId } := by
  have hn := h.nodup_cache
  obtain ⟨h1, h2, h3⟩ := h
  rw [hl] at h1 h3 hn
  simp only [List.map_append, List.map_cons] at h1 h3 hn
  refine ⟨?_, h2, ?_⟩
  · simp only [List.map_append]
    exact nodup_drop_mid_right _ _ _ _ h1
  · simp only [List.map_append]
    rw [h3]
    exact toFinset_erase_mid _ _ _ hn

theorem WF_update_history (r : LRUKReplacer) (pre post : List FrameInfo) (x y : FrameInfo)
    (h : WF r) (hl : r.history_list_ = pre ++ x :: post) (hid : y.GetId = x.GetId) :
    WF { r with history_list_ := pre ++ y :: post } := by
  obtain ⟨h1, h2, h3⟩ := h
  rw [hl] at h1 h2
  refine ⟨?_, ?_, h3⟩
  · simpa [hid] using h1
  · simpa [hid] using h2

theorem WF_update_cache (r : LRUKReplacer) (pre post : List FrameInfo) (x y : FrameInfo)
    (h : WF r) (hl : r.cache_list_ = pre ++ x :: post) (hid : y.GetId = x.GetId) :
    WF { r with cache_list_ := pre ++ y :: post } := by
  obtain ⟨h1, h2, h3⟩ := h
  rw [hl] at h1 h3
  refine ⟨?_, h2, ?_⟩
  · simpa [hid] using h1
  · simpa [hid] using h3

theorem WF_move_back (r : LRUKReplacer) (pre post : List FrameInfo) (x : FrameInfo)
    (h : WF r) (hl : r.cache_list_ = pre ++ x :: post) :
    WF { r with cache_list_ := pre ++ post ++ [x] } := by
  obtain ⟨h1, h2, h3⟩ := h
  rw [hl] at h1 h3
  simp only [List.map_append, List.map_cons] at h1 h3
  refine ⟨?_, h2, ?_⟩
  · simp only [List.map_append, List.map_cons, List.map_nil]
    exact nodup_move_back _ _ _ _ h1
  · simp only [List.map_append, List.map_cons, List.map_nil]
    rw [h3]
    exact (toFinset_move_back _ _ _).symm

theorem WF_promote (r : LRUKReplacer) (pre post : List FrameInfo) (x y : FrameInfo)
    (h : WF r) (hl : r.history_list_ = pre ++ x :: post) (hid : y.GetId = x.GetId) :
    WF { r with cache_list_ := r.cache_list_ ++ [y],
                cache_map_ := insert x.GetId r.cache_map_,
                history_map_ := r.history_map_.erase x.GetId,
                history_list_ := pre ++ post } := by
  have hn := h.nodup_history
  obtain ⟨h1, h2, h3⟩ := h
  rw [hl] at h1 h2 hn
  simp only [List.map_append, List.map_cons] at h1 h2 hn
  refine ⟨?_, ?_, ?_⟩
  · simp only [List.map_append, List.map_cons, List.map_nil, hid]
    exact nodup_promote _ _ _ _ h1
  · simp only [List.map_append]
    rw [h2]
    exact toFinset_erase_mid _ _ _ hn
  · simp only [List.map_append, List.map_cons, List.map_nil, hid]
    rw [h3]
    exact (toFinset_snoc _ _).symm

theorem WF_insert (r : LRUKReplacer) (x : FrameInfo) (h : WF r)
    (hh : x.GetId ∉ r.history_map_) (hc : x.GetId ∉ r.cache_map_) :
    WF { r with history_list_ := r.history_list_ ++ [x],
                history_map_ := insert x.GetId r.history_map_ } := by
  obtain ⟨h1, h2, h3⟩ := h
  rw [h2] at hh
  rw [h3] at hc
  simp only [List.mem_toFinset] at hh hc
  refine ⟨?_, ?_, h3⟩
  · simp only [List.map_append, List.map_cons, List.map_nil]
    have hp : List.Perm (List.map FrameInfo.GetId r.history_list_ ++ [x.GetId] ++
        List.map FrameInfo.GetId r.cache_list_)
        (x.GetId :: (List.map FrameInfo.GetId r.history_list_ ++
        List.map FrameInfo.GetId r.cache_list_)) := by
      simp
    rw [List.Perm.nodup_iff hp, List.nodup_cons]
    exact ⟨by simp [hh, hc], h1⟩
  · simp only [List.map_append, List.map_cons, List.map_nil]
    rw [h2]
    exact (toFinset_snoc _ _).symm

end LRUKReplacer

/-! ## The operations, case by case -/

namespace LRUKReplacer

theorem WF.history_split {r : LRUKReplacer} (h : WF r) {pre post : List FrameInfo}
    {x : FrameInfo} (hl : r.history_list_ = pre ++ x :: post) :
    x.GetId ∈ r.history_map_ ∧ x.GetId ∉ r.cache_map_ ∧ ∀ y ∈ pre, y.GetId ≠ x.GetId := by
  have hm : x.GetId ∈ r.history_map_ := (h.mem_history _).2 ⟨x, by simp [hl], rfl⟩
  refine ⟨hm, h.not_both _ hm, ?_⟩
  have hn := h.nodup_history
  rw [hl] at hn
  exact ids_before_ne pre post x hn

theorem WF.cache_split {r : LRUKReplacer} (h : WF r) {pre post : List FrameInfo}
    {x : FrameInfo} (hl : r.cache_list_ = pre ++ x :: post) :
    x.GetId ∈ r.cache_map_ ∧ x.GetId ∉ r.history_map_ ∧ ∀ y ∈ pre, y.GetId ≠ x.GetId := by
  have hm : x.GetId ∈ r.cache_map_ := (h.mem_cache _).2 ⟨x, by simp [hl], rfl⟩
  refine ⟨hm, fun hh => h.not_both _ hh hm, ?_⟩
  have hn := h.nodup_cache
  rw [hl] at hn
  exact ids_before_ne pre post x hn

theorem RecordAccess_fatal (r : LRUKReplacer) (f : Int) (hcap : ¬ f ≤ toInt r.replacer_size_) :
    r.RecordAccess f = Outcome.fatal r := by
  simp [RecordAccess, hcap]

theorem RecordAccess_unseen (r : LRUKReplacer) (f : Int) (hcap : f ≤ toInt r.replacer_size_)
    (hh : f ∉ r.history_map_) (hc : f ∉ r.cache_map_) :
    r.RecordAccess f =
      Outcome.ok { r with history_list_ := r.history_list_ ++
                            [{ frame_id_ := f, times_ := 1, evictable_ := true }],
                          history_map_ := insert f r.history_map_ } := by
  simp [RecordAccess, hcap, hh, hc, FrameInfo.new, FrameInfo.IncreaseTimes]

theorem RecordAccess_cache (r : LRUKReplacer) (pre post : List FrameInfo) (x : FrameInfo)
    (h : WF r) (hcap : x.GetId ≤ toInt r.replacer_size_)
    (hl : r.cache_list_ = pre ++ x :: post) :
    r.RecordAccess x.GetId = Outcome.ok { r with cache_list_ := pre ++ post ++ [x] } := by
  obtain ⟨hm, _, hpre⟩ := h.cache_split hl
  simp [RecordAccess, hcap, hm, hl, findNode_split _ pre post x hpre rfl,
    eraseNode_split _ pre post x hpre rfl]

theorem RecordAccess_history_stay (r : LRUKReplacer) (pre post : List FrameInfo)
    (x : FrameInfo) (h : WF r) (hcap : x.GetId ≤ toInt r.replacer_size_)
    (hl : r.history_list_ = pre ++ x :: post) (hk : x.times_ + 1 < r.k_) :
    r.RecordAccess x.GetId =
      Outcome.ok { r with history_list_ := pre ++ x.IncreaseTimes :: post } := by
  obtain ⟨hm, hnc, hpre⟩ := h.history_split hl
  have hk2 : ¬ r.k_ ≤ x.times_ + 1 := by omega
  simp [RecordAccess, hcap, hm, hnc, hl, findNode_split _ pre post x hpre rfl,
    updateNode_split _ _ pre post x hpre rfl, FrameInfo.IncreaseTimes, FrameInfo.GetTimes, hk2]

theorem RecordAccess_history_promote (r : LRUKReplacer) (pre post : List FrameInfo)
    (x : FrameInfo) (h : WF r) (hcap : x.GetId ≤ toInt r.replacer_size_)
    (hl : r.history_list_ = pre ++ x :: post) (hk : r.k_ ≤ x.times_ + 1) :
    r.RecordAccess x.GetId =
      Outcome.ok { r with cache_list_ := r.cache_list_ ++ [x.IncreaseTimes],
                          cache_map_ := insert x.GetId r.cache_map_,
                          history_map_ := r.history_map_.erase x.GetId,
                          history_list_ := pre ++ post } := by
  obtain ⟨hm, hnc, hpre⟩ := h.history_split hl
  simp [RecordAccess, hcap, hm, hnc, hl, findNode_split _ pre post x hpre rfl,
    eraseNode_split _ pre post x hpre rfl, FrameInfo.IncreaseTimes, FrameInfo.GetTimes, hk]

theorem SetEvictable_untracked (r : LRUKReplacer) (f : Int) (b : Bool)
    (hh : f ∉ r.history_map_) (hc : f ∉ r.cache_map_) : r.SetEvictable f b = r := by
  simp [SetEvictable, hh, hc]

theorem SetEvictable_history (r : LRUKReplacer) (pre post : List FrameInfo) (x : FrameInfo)
    (b : Bool) (h : WF r) (hl : r.history_list_ = pre ++ x :: post) :
    r.SetEvictable x.GetId b =
      { r with history_list_ := pre ++ x.SetEvictable b :: post } := by
  obtain ⟨hm, _, hpre⟩ := h.history_split hl
  simp [SetEvictable, hm, hl, updateNode_split _ _ pre post x hpre rfl]

theorem SetEvictable_cache (r : LRUKReplacer) (pre post : List FrameInfo) (x : FrameInfo)
    (b : Bool) (h : WF r) (hl : r.cache_list_ = pre ++ x :: post) :
    r.SetEvictable x.GetId b =
      { r with cache_list_ := pre ++ x.SetEvictable b :: post } := by
  obtain ⟨hm, hnh, hpre⟩ := h.cache_split hl
  simp [SetEvictable, hm, hnh, hl, updateNode_split _ _ pre post x hpre rfl]

theorem Remove_untracked (r : LRUKReplacer) (f : Int)
    (hh : f ∉ r.history_map_) (hc : f ∉ r.cache_map_) : r.Remove f = Outcome.ok r := by
  simp [Remove, hh, hc]

theorem Remove_history (r : LRUKReplacer) (pre post : List FrameInfo) (x : FrameInfo)
    (h : WF r) (hl : r.history_list_ = pre ++ x :: post) :
    r.Remove x.GetId =
      if x.IsEvictable then
        Outcome.ok { r with history_list_ := pre ++ post,
                            history_map_ := r.history_map_.erase x.GetId }
      else Outcome.fatal r := by
  obtain ⟨hm, _, hpre⟩ := h.history_split hl
  simp [Remove, hm, hl, findNode_split _ pre post x hpre rfl,
    eraseNode_split _ pre post x hpre rfl]

theorem Remove_cache (r : LRUKReplacer) (pre post : List FrameInfo) (x : FrameInfo)
    (h : WF r) (hl : r.cache_list_ = pre ++ x :: post) :
    r.Remove x.GetId =
      if x.IsEvictable then
        Outcome.ok { r with cache_list_ := pre ++ post,
                            cache_map_ := r.cache_map_.erase x.GetId }
      else Outcome.fatal r := by
  obtain ⟨hm, hnh, hpre⟩ := h.cache_split hl
  simp [Remove, hm, hnh, hl, findNode_split _ pre post x hpre rfl,
    eraseNode_split _ pre post x hpre rfl]

end LRUKReplacer

/-! ## Every operation keeps the state well formed -/

namespace LRUKReplacer

/-- A tracked frame of a well-formed state: its index entry leads to a split of
the history queue at its record. -/
theorem WF.split_history {r : LRUKReplacer} (h : WF r) {f : Int} (hf : f ∈ r.history_map_) :
    ∃ pre x post, r.history_list_ = pre ++ x :: post ∧ x.GetId = f :=
  let ⟨pre, x, post, hl, hx, _⟩ := split_at_id f r.history_list_ ((h.mem_history f).1 hf)
  ⟨pre, x, post, hl, hx⟩

theorem WF.split_cache {r : LRUKReplacer} (h : WF r) {f : Int} (hf : f ∈ r.cache_map_) :
    ∃ pre x post, r.cache_list_ = pre ++ x :: post ∧ x.GetId = f :=
  let ⟨pre, x, post, hl, hx, _⟩ := split_at_id f r.cache_list_ ((h.mem_cache f).1 hf)
  ⟨pre, x, post, hl, hx⟩

/-- In a well-formed state a record is determined by its id. -/
theorem WF.record_unique {r : LRUKReplacer} (h : WF r) {x y : FrameInfo}
    (hx : x ∈ r.history_list_ ++ r.cache_list_) (hy : y ∈ r.history_list_ ++ r.cache_list_)
    (hid : x.GetId = y.GetId) : x = y := by
  have hn : ((r.history_list_ ++ r.cache_list_).map FrameInfo.GetId).Nodup := by
    simpa using h.1
  exact List.inj_on_of_nodup_map hn hx hy hid

theorem WF_Evict (r : LRUKReplacer) (h : WF r) : WF r.Evict.2 := by
  rcases first_evictable r.history_list_ with hh | ⟨pre, x, post, hl, hpre, hx⟩
  · rcases first_evictable r.cache_list_ with hc | ⟨pre, x, post, hl, hpre, hx⟩
    · rw [Evict_none r hh hc]; exact h
    · rw [Evict_cache r pre post x hh hl hpre hx]; exact WF_erase_cache r pre post x h hl
  · rw [Evict_history r pre post x hl hpre hx]; exact WF_erase_history r pre post x h hl

theorem WF_SetEvictable (r : LRUKReplacer) (f : Int) (b : Bool) (h : WF r) :
    WF (r.SetEvictable f b) := by
  by_cases hh : f ∈ r.history_map_
  · obtain ⟨pre, x, post, hl, rfl⟩ := h.split_history hh
    rw [SetEvictable_history r pre post x b h hl]
    exact WF_update_history r pre post x _ h hl rfl
  · by_cases hc : f ∈ r.cache_map_
    · obtain ⟨pre, x, post, hl, rfl⟩ := h.split_cache hc
      rw [SetEvictable_cache r pre post x b h hl]
      exact WF_update_cache r pre post x _ h hl rfl
    · rw [SetEvictable_untracked r f b hh hc]; exact h

/-- A completed `RecordAccess` keeps the state well formed, and every record
tracked before is tracked afterwards with the same evictable flag. -/
theorem RecordAccess_ok_facts (r s : LRUKReplacer) (f : Int) (h : WF r)
    (hs : r.RecordAccess f = Outcome.ok s) :
    WF s ∧ ∀ y ∈ r.history_list_ ++ r.cache_list_,
      ∃ z ∈ s.history_list_ ++ s.cache_list_,
        z.GetId = y.GetId ∧ z.IsEvictable = y.IsEvictable := by
  by_cases hcap : f ≤ toInt r.replacer_size_
  · by_cases hc : f ∈ r.cache_map_
    · obtain ⟨pre, x, post, hl, rfl⟩ := h.split_cache hc
      rw [RecordAccess_cache r pre post x h hcap hl] at hs
      have hs2 := Outcome.ok.inj hs
      clear hs hcap
      subst hs2
      refine ⟨WF_move_back r pre post x h hl, ?_⟩
      intro y hy
      refine ⟨y, ?_, rfl, rfl⟩
      simp only [hl, List.mem_append, List.mem_cons, List.mem_singleton] at hy ⊢
      tauto
    · by_cases hh : f ∈ r.history_map_
      · obtain ⟨pre, x, post, hl, rfl⟩ := h.split_history hh
        by_cases hk : x.times_ + 1 < r.k_
        · rw [RecordAccess_history_stay r pre post x h hcap hl hk] at hs
          have hs2 := Outcome.ok.inj hs
          clear hs hcap hk
          subst hs2
          refine ⟨WF_update_history r pre post x _ h hl rfl, ?_⟩
          intro y hy
          by_cases hyx : y = x
          · subst hyx
            exact ⟨y.IncreaseTimes, by simp, rfl, rfl⟩
          · refine ⟨y, ?_, rfl, rfl⟩
            simp only [hl, List.mem_append, List.mem_cons] at hy ⊢
            tauto
        · rw [RecordAccess_history_promote r pre post x h hcap hl (by omega)] at hs
          have hs2 := Outcome.ok.inj hs
          clear hs hcap hk
          subst hs2
          refine ⟨WF_promote r pre post x _ h hl rfl, ?_⟩
          intro y hy
          by_cases hyx : y = x
          · subst hyx
            exact ⟨y.IncreaseTimes, by simp, rfl, rfl⟩
          · refine ⟨y, ?_, rfl, rfl⟩
            simp only [hl, List.mem_append, List.mem_cons, List.mem_singleton] at hy ⊢
            tauto
      · rw [RecordAccess_unseen r f hcap hh hc] at hs
        have hs2 := Outcome.ok.inj hs
        clear hs hcap
        subst hs2
        refine ⟨WF_insert r { frame_id_ := f, times_ := 1, evictable_ := true } h hh hc, ?_⟩
        intro y hy
        refine ⟨y, ?_, rfl, rfl⟩
        simp only [List.mem_append, List.mem_singleton] at hy ⊢
        tauto
  · rw [RecordAccess_fatal r f hcap] at hs
    exact Outcome.noConfusion hs

/-- A completed `Remove` keeps the state well formed, and every record of
another frame stays. -/
theorem Remove_ok_facts (r s : LRUKReplacer) (f : Int) (h : WF r)
    (hs : r.Remove f = Outcome.ok s) :
    WF s ∧ ∀ y ∈ r.history_list_ ++ r.cache_list_, y.GetId ≠ f →
      y ∈ s.history_list_ ++ s.cache_list_ := by
  by_cases hh : f ∈ r.history_map_
  · obtain ⟨pre, x, post, hl, rfl⟩ := h.split_history hh
    rw [Remove_history r pre post x h hl] at hs
    by_cases hx : x.IsEvictable = true
    · rw [if_pos hx] at hs
      have hs2 := Outcome.ok.inj hs
      clear hs
      subst hs2
      refine ⟨WF_erase_history r pre post x h hl, ?_⟩
      intro y hy hne
      have hyx : y ≠ x := fun e => hne (e ▸ rfl)
      simp only [hl, List.mem_append, List.mem_cons] at hy ⊢
      tauto
    · rw [if_neg hx] at hs
      exact Outcome.noConfusion hs
  · by_cases hc : f ∈ r.cache_map_
    · obtain ⟨pre, x, post, hl, rfl⟩ := h.split_cache hc
      rw [Remove_cache r pre post x h hl] at hs
      by_cases hx : x.IsEvictable = true
      · rw [if_pos hx] at hs
        have hs2 := Outcome.ok.inj hs
        clear hs
        subst hs2
        refine ⟨WF_erase_cache r pre post x h hl, ?_⟩
        intro y hy hne
        have hyx : y ≠ x := fun e => hne (e ▸ rfl)
        simp only [hl, List.mem_append, List.mem_cons] at hy ⊢
        tauto
      · rw [if_neg hx] at hs
        exact Outcome.noConfusion hs
    · rw [Remove_untracked r f hh hc] at hs
      have hs2 := Outcome.ok.inj hs
      clear hs
      subst hs2
      exact ⟨h, fun y hy _ => hy⟩

/-- The records that `SetEvictable` on frame `f` leaves alone: all those of
other frames. -/
theorem SetEvictable_others (r : LRUKReplacer) (f : Int) (b : Bool) (h : WF r) :
    ∀ y ∈ r.history_list_ ++ r.cache_list_, y.GetId ≠ f →
      y ∈ (r.SetEvictable f b).history_list_ ++ (r.SetEvictable f b).cache_list_ := by
  intro y hy hne
  by_cases hh : f ∈ r.history_map_
  · obtain ⟨pre, x, post, hl, rfl⟩ := h.split_history hh
    rw [SetEvictable_history r pre post x b h hl]
    have hyx : y ≠ x := fun e => hne (e ▸ rfl)
    simp only [hl, List.mem_append, List.mem_cons] at hy ⊢
    tauto
  · by_cases hc : f ∈ r.cache_map_
    · obtain ⟨pre, x, post, hl, rfl⟩ := h.split_cache hc
      rw [SetEvictable_cache r pre post x b h hl]
      have hyx : y ≠ x := fun e => hne (e ▸ rfl)
      simp only [hl, List.mem_append, List.mem_cons] at hy ⊢
      tauto
    · rw [SetEvictable_untracked r f b hh hc]; exact hy

/-- The record that `SetEvictable` on a tracked frame writes. -/
theorem SetEvictable_self (r : LRUKReplacer) (f : Int) (b : Bool) (h : WF r)
    (hf : f ∈ r.history_map_ ∨ f ∈ r.cache_map_) :
    ∃ z ∈ (r.SetEvictable f b).history_list_ ++ (r.SetEvictable f b).cache_list_,
      z.GetId = f ∧ z.IsEvictable = b := by
  by_cases hh : f ∈ r.history_map_
  · obtain ⟨pre, x, post, hl, rfl⟩ := h.split_history hh
    rw [SetEvictable_history r pre post x b h hl]
    exact ⟨x.SetEvictable b, by simp, rfl, rfl⟩
  · have hc : f ∈ r.cache_map_ := hf.resolve_left hh
    obtain ⟨pre, x, post, hl, rfl⟩ := h.split_cache hc
    rw [SetEvictable_cache r pre post x b h hl]
    exact ⟨x.SetEvictable b, by simp, rfl, rfl⟩

/-- What `Evict` returns is the id of an evictable record, and the records that
are not evictable stay. -/
theorem Evict_facts (r : LRUKReplacer) :
    (∀ v, r.Evict.1 = some v →
      ∃ x ∈ r.history_list_ ++ r.cache_list_, x.GetId = v ∧ x.IsEvictable = true) ∧
    (∀ y ∈ r.history_list_ ++ r.cache_list_, y.IsEvictable = false →
      y ∈ r.Evict.2.history_list_ ++ r.Evict.2.cache_list_) := by
  rcases first_evictable r.history_list_ with hh | ⟨pre, x, post, hl, hpre, hx⟩
  · rcases first_evictable r.cache_list_ with hc | ⟨pre, x, post, hl, hpre, hx⟩
    · rw [Evict_none r hh hc]
      exact ⟨fun v hv => (by cases hv), fun y hy _ => hy⟩
    · rw [Evict_cache r pre post x hh hl hpre hx]
      refine ⟨?_, ?_⟩
      · intro v hv
        cases hv
        exact ⟨x, by simp [hl], rfl, hx⟩
      · intro y hy hne
        have hyx : y ≠ x := by
          intro e; rw [e, hx] at hne; cases hne
        simp only [hl, List.mem_append, List.mem_cons] at hy ⊢
        tauto
  · rw [Evict_history r pre post x hl hpre hx]
    refine ⟨?_, ?_⟩
    · intro v hv
      cases hv
      exact ⟨x, by simp [hl], rfl, hx⟩
    · intro y hy hne
      have hyx : y ≠ x := by
        intro e; rw [e, hx] at hne; cases hne
      simp only [hl, List.mem_append, List.mem_cons] at hy ⊢
      tauto

end LRUKReplacer

/-! ## Size -/

namespace LRUKReplacer

theorem countLoop_eq (l : List FrameInfo) (n : Nat) :
    countLoop l n = n + l.countP FrameInfo.IsEvictable := by
  induction l generalizing n with
  | nil => simp [countLoop]
  | cons x xs ih =>
    simp only [countLoop, List.foldl_cons] at ih ⊢
    rw [ih]
    by_cases hx : x.IsEvictable = true
    · simp [hx, List.countP_cons]; omega
    · simp [hx, List.countP_cons]

/-- `Size` is the number of evictable records of the two queues. -/
theorem Size_eq (r : LRUKReplacer) :
    r.Size = (r.history_list_ ++ r.cache_list_).countP FrameInfo.IsEvictable := by
  simp [Size, countLoop_eq, List.countP_append]; omega

/-- Records that are not evictable can be left out of the count. -/
theorem countP_skip (f : Int) (l : List FrameInfo)
    (h : ∀ y ∈ l, y.GetId = f → y.IsEvictable = false) :
    l.countP FrameInfo.IsEvictable =
      (l.filter (fun y => decide (y.GetId ≠ f))).countP FrameInfo.IsEvictable := by
  induction l with
  | nil => rfl
  | cons x xs ih =>
    have ih2 := ih (fun y hy => h y (by simp [hy]))
    by_cases hx : x.GetId = f
    · have hxe := h x (by simp) hx
      simp [List.filter_cons, hx, List.countP_cons, hxe, ih2]
    · simp [List.filter_cons, hx, List.countP_cons, ih2]

end LRUKReplacer

/-! ## Runs of calls; a frame that was made non-evictable -/

open LRUKReplacer

theorem call_RecordAccess (r : LRUKReplacer) (g : Int) :
    call r (Call.RecordAccess g) = (r.RecordAccess g).result := rfl

theorem call_SetEvictable (r : LRUKReplacer) (g : Int) (b : Bool) :
    call r (Call.SetEvictable g b) = some (Ret.done, r.SetEvictable g b) := rfl

theorem call_Evict (r : LRUKReplacer) :
    call r Call.Evict = some (Ret.victim r.Evict.1, r.Evict.2) := rfl

theorem call_Remove (r : LRUKReplacer) (g : Int) :
    call r (Call.Remove g) = (r.Remove g).result := rfl

theorem call_Size (r : LRUKReplacer) : call r Call.Size = some (Ret.size r.Size, r) := rfl

theorem result_eq_some (o : Outcome) (v : Ret) (t : LRUKReplacer)
    (h : o.result = some (v, t)) : o = Outcome.ok t ∧ v = Ret.done := by
  cases o with
  | ok s =>
    simp only [Outcome.result, Option.some.injEq, Prod.mk.injEq] at h
    exact ⟨by rw [h.2], h.1.symm⟩
  | fatal s => simp [Outcome.result] at h

theorem run_cons (r s : LRUKReplacer) (c : Call) (cs : List Call) (vs : List Ret)
    (h : run r (c :: cs) = some (vs, s)) :
    ∃ v t ws, call r c = some (v, t) ∧ run t cs = some (ws, s) ∧ vs = v :: ws := by
  simp only [run] at h
  cases hc : call r c with
  | none => simp [hc] at h
  | some p =>
    obtain ⟨v, t⟩ := p
    simp only [hc] at h
    cases hr : run t cs with
    | none => simp [hr] at h
    | some q =>
      obtain ⟨ws, u⟩ := q
      simp only [hr, Option.some.injEq, Prod.mk.injEq] at h
      exact ⟨v, t, ws, rfl, by rw [hr, h.2], h.1.symm⟩

theorem Pinned.tracked {f : Int} {r : LRUKReplacer} (h : Pinned f r) :
    f ∈ r.history_map_ ∨ f ∈ r.cache_map_ := by
  obtain ⟨hwf, x, hx, hxf, _⟩ := h
  rcases List.mem_append.1 hx with hx | hx
  · exact Or.inl ((hwf.mem_history f).2 ⟨x, hx, hxf⟩)
  · exact Or.inr ((hwf.mem_cache f).2 ⟨x, hx, hxf⟩)

theorem Pinned.all_false {f : Int} {r : LRUKReplacer} (h : Pinned f r) :
    ∀ y ∈ r.history_list_ ++ r.cache_list_, y.GetId = f → y.IsEvictable = false := by
  obtain ⟨hwf, x, hx, hxf, hxe⟩ := h
  intro y hy hyf
  rw [hwf.record_unique hy hx (hyf.trans hxf.symm)]
  exact hxe

/-- Every call that completes keeps the state well formed. -/
theorem WF_call (r t : LRUKReplacer) (c : Call) (v : Ret) (h : WF r)
    (hcall : call r c = some (v, t)) : WF t := by
  cases c with
  | RecordAccess g =>
    rw [call_RecordAccess] at hcall
    exact (RecordAccess_ok_facts r t g h (result_eq_some _ _ _ hcall).1).1
  | SetEvictable g b =>
    simp only [call_SetEvictable, Option.some.injEq, Prod.mk.injEq] at hcall
    rw [← hcall.2]
    exact WF_SetEvictable r g b h
  | Evict =>
    simp only [call_Evict, Option.some.injEq, Prod.mk.injEq] at hcall
    rw [← hcall.2]
    exact WF_Evict r h
  | Remove g =>
    rw [call_Remove] at hcall
    exact (Remove_ok_facts r t g h (result_eq_some _ _ _ hcall).1).1
  | Size =>
    simp only [call_Size, Option.some.injEq, Prod.mk.injEq] at hcall
    rw [← hcall.2]
    exact h

/-- Every state reached from a well-formed state by a run of calls is well
formed; in particular every state reached from a fresh replacer. -/
theorem WF_run (cs : List Call) : ∀ (r s : LRUKReplacer) (vs : List Ret),
    WF r → run r cs = some (vs, s) → WF s := by
  induction cs with
  | nil =>
    intro r s vs h hrun
    simp only [run, Option.some.injEq, Prod.mk.injEq] at hrun
    rw [← hrun.2]
    exact h
  | cons c cs ih =>
    intro r s vs h hrun
    obtain ⟨v, t, ws, hcall, hrest, _⟩ := run_cons r s c cs vs hrun
    exact ih t s ws (WF_call r t c v h hcall) hrest

/-- One call that is neither `SetEvictable(f, true)` nor `Remove(f)` keeps frame
`f` pinned, and does not return `f` as a victim. -/
theorem Pinned.step {f : Int} {r t : LRUKReplacer} (h : Pinned f r) (c : Call) (v : Ret)
    (hc : keepsPinned f c = true) (hcall : call r c = some (v, t)) :
    Pinned f t ∧ v ≠ Ret.victim (some f) := by
  have hall := h.all_false
  obtain ⟨hwf, x, hx, hxf, hxe⟩ := h
  cases c with
  | RecordAccess g =>
    rw [call_RecordAccess] at hcall
    obtain ⟨ho, hv⟩ := result_eq_some _ _ _ hcall
    subst hv
    obtain ⟨hwf2, hkeep⟩ := RecordAccess_ok_facts r t g hwf ho
    obtain ⟨z, hz, hzid, hze⟩ := hkeep x hx
    exact ⟨⟨hwf2, z, hz, hzid.trans hxf, hze.trans hxe⟩, by simp⟩
  | SetEvictable g b =>
    simp only [call_SetEvictable, Option.some.injEq, Prod.mk.injEq] at hcall
    obtain ⟨hv, hu⟩ := hcall
    subst hv hu
    refine ⟨⟨WF_SetEvictable r g b hwf, ?_⟩, by simp⟩
    by_cases hg : g = f
    · subst hg
      have hb : b = false := by simpa [keepsPinned] using hc
      subst hb
      have htr : g ∈ r.history_map_ ∨ g ∈ r.cache_map_ :=
        Pinned.tracked ⟨hwf, x, hx, hxf, hxe⟩
      exact SetEvictable_self r g false hwf htr
    · exact ⟨x, SetEvictable_others r g b hwf x hx (fun e => hg (e.symm.trans hxf)), hxf, hxe⟩
  | Evict =>
    simp only [call_Evict, Option.some.injEq, Prod.mk.injEq] at hcall
    obtain ⟨hv, hu⟩ := hcall
    subst hv hu
    obtain ⟨hret, hkeep⟩ := Evict_facts r
    refine ⟨⟨WF_Evict r hwf, x, hkeep x hx hxe, hxf, hxe⟩, ?_⟩
    intro hv
    have hv2 : r.Evict.1 = some f := by simpa using hv
    obtain ⟨y, hy, hyf, hye⟩ := hret f hv2
    rw [hall y hy hyf] at hye
    cases hye
  | Remove g =>
    have hg : g ≠ f := by simpa [keepsPinned] using hc
    rw [call_Remove] at hcall
    obtain ⟨ho, hv⟩ := result_eq_some _ _ _ hcall
    subst hv
    obtain ⟨hwf2, hkeep⟩ := Remove_ok_facts r t g hwf ho
    exact ⟨⟨hwf2, x, hkeep x hx (fun e => hg (e.symm.trans hxf)), hxf, hxe⟩, by simp⟩
  | Size =>
    simp only [call_Size, Option.some.injEq, Prod.mk.injEq] at hcall
    obtain ⟨hv, hu⟩ := hcall
    subst hv hu
    exact ⟨⟨hwf, x, hx, hxf, hxe⟩, by simp⟩

/-- A run of calls none of which is `SetEvictable(f, true)` or `Remove(f)` keeps
frame `f` pinned and never returns it as a victim. -/
theorem Pinned.run {f : Int} (cs : List Call) : ∀ (r s : LRUKReplacer) (vs : List Ret),
    Pinned f r → (∀ c ∈ cs, keepsPinned f c = true) → run r cs = some (vs, s) →
    Pinned f s ∧ Ret.victim (some f) ∉ vs := by
  induction cs with
  | nil =>
    intro r s vs h _ hrun
    simp only [bustub.run, Option.some.injEq, Prod.mk.injEq] at hrun
    obtain ⟨hv, hs⟩ := hrun
    subst hv hs
    exact ⟨h, by simp⟩
  | cons c cs ih =>
    intro r s vs h hcs hrun
    obtain ⟨v, t, ws, hcall, hrest, hvs⟩ := run_cons r s c cs vs hrun
    obtain ⟨hp, hv⟩ := h.step c v (hcs c (by simp)) hcall
    obtain ⟨hps, hws⟩ := ih t s ws hp (fun d hd => hcs d (by simp [hd])) hrest
    refine ⟨hps, ?_⟩
    rw [hvs]
    intro hmem
    rcases List.mem_cons.1 hmem with e | e
    · exact hv e.symm
    · exact hws e

/-! ## Eviction order -/

namespace LRUKReplacer

/-- `Evict` takes the first evictable record of the history queue followed by
the cache queue. -/
theorem Evict_concat (r : LRUKReplacer) (pre post : List FrameInfo) (x : FrameInfo)
    (hl : r.history_list_ ++ r.cache_list_ = pre ++ x :: post)
    (hpre : ∀ y ∈ pre, y.IsEvictable = false) (hx : x.IsEvictable = true) :
    r.Evict.1 = some x.GetId ∧
    r.Evict.2.history_list_ ++ r.Evict.2.cache_list_ = pre ++ post := by
  rcases List.append_eq_append_iff.1 hl with ⟨a, hp, hc⟩ | ⟨c, hh, hc⟩
  · have hhist : ∀ y ∈ r.history_list_, y.IsEvictable = false :=
      fun y hy => hpre y (by simp [hp, hy])
    have ha : ∀ y ∈ a, y.IsEvictable = false := fun y hy => hpre y (by simp [hp, hy])
    rw [Evict_cache r a post x hhist hc ha hx]
    simp [hp]
  · cases c with
    | nil =>
      have hhist : ∀ y ∈ r.history_list_, y.IsEvictable = false :=
        fun y hy => hpre y (by simpa [hh] using hy)
      have hc2 : r.cache_list_ = [] ++ x :: post := by simpa using hc.symm
      rw [Evict_cache r [] post x hhist hc2 (by simp) hx]
      simp [hh]
    | cons z zs =>
      simp only [List.cons_append, List.cons.injEq] at hc
      obtain ⟨hz, hpost⟩ := hc
      subst hz
      rw [Evict_history r pre zs x hh hpre hx]
      simp [hpost]

/-- Of two records, the one nearer to the front of the scan order (history
queue, then cache queue) is evicted first when it is evictable. -/
theorem evictN_before (n : Nat) : ∀ (r : LRUKReplacer) (l1 rest : List FrameInfo)
    (a : FrameInfo) (b : Int),
    r.history_list_ ++ r.cache_list_ = l1 ++ a :: rest → a.IsEvictable = true →
    (∀ y ∈ l1, y.GetId ≠ b) → a.GetId ≠ b →
    ∀ j : Nat, (evictN r n).1[j]? = some (some b) →
      ∃ i : Nat, i < j ∧ (evictN r n).1[i]? = some (some a.GetId) := by
  induction n with
  | zero => intro r l1 rest a b _ _ _ _ j hj; simp [evictN] at hj
  | succ n ih =>
    intro r l1 rest a b hl ha hl1 hab j hj
    rcases first_evictable l1 with hnone | ⟨p, y, q, hsplit, hp, hy⟩
    · obtain ⟨hres, _⟩ := Evict_concat r l1 rest a hl hnone ha
      cases j with
      | zero =>
        simp [evictN, hres] at hj
        exact absurd hj hab
      | succ j => exact ⟨0, Nat.succ_pos j, by simp [evictN, hres]⟩
    · have hl2 : r.history_list_ ++ r.cache_list_ = p ++ y :: (q ++ a :: rest) := by
        simp [hl, hsplit]
      obtain ⟨hres, hnext⟩ := Evict_concat r p (q ++ a :: rest) y hl2 hp hy
      have hyb : y.GetId ≠ b := hl1 y (by simp [hsplit])
      cases j with
      | zero =>
        simp [evictN, hres] at hj
        exact absurd hj hyb
      | succ j =>
        have hj2 : (evictN r.Evict.2 n).1[j]? = some (some b) := by
          simpa [evictN] using hj
        have hnext2 : r.Evict.2.history_list_ ++ r.Evict.2.cache_list_
            = (p ++ q) ++ a :: rest := by simp [hnext]
        have hl3 : ∀ z ∈ p ++ q, z.GetId ≠ b := by
          intro z hz
          refine hl1 z ?_
          rcases List.mem_append.1 hz with hz | hz
          · simp [hsplit, hz]
          · simp [hsplit, hz]
        obtain ⟨i, hi, hres2⟩ := ih r.Evict.2 (p ++ q) rest a b hnext2 ha hl3 hab j hj2
        exact ⟨i + 1, Nat.succ_lt_succ hi, by simpa [evictN] using hres2⟩

/-! ## Repeated access of one frame -/

/-- Below the threshold the accesses of a frame that was untracked only count:
after `j` of them, `1 ≤ j < K`, its record sits at the back of the history queue
with counter `j`. -/
theorem accessN_below (r : LRUKReplacer) (f : Int) (h : WF r)
    (hcap : f ≤ toInt r.replacer_size_) (hh : f ∉ r.history_map_) (hc : f ∉ r.cache_map_)
    (j : Nat) (hj : j + 1 < r.k_) :
    accessN r f (j + 1) =
      Outcome.ok { r with history_list_ := r.history_list_ ++
                            [{ frame_id_ := f, times_ := j + 1, evictable_ := true }],
                          history_map_ := insert f r.history_map_ } := by
  induction j with
  | zero => simp [accessN, RecordAccess_unseen r f hcap hh hc]
  | succ j ih =>
    rw [accessN, ih (by omega)]
    have hwf := WF_insert r { frame_id_ := f, times_ := j + 1, evictable_ := true } h hh hc
    have := RecordAccess_history_stay _ r.history_list_ []
      { frame_id_ := f, times_ := j + 1, evictable_ := true } hwf hcap rfl (by simpa using hj)
    simpa [FrameInfo.GetId, FrameInfo.IncreaseTimes] using this

/-- For `K ≥ 2` the `K`-th access of a frame that was untracked moves its record
to the back of the cache queue; the history queue and its index are then as
they were before the first access. -/
theorem accessN_threshold (r : LRUKReplacer) (f : Int) (h : WF r)
    (hcap : f ≤ toInt r.replacer_size_) (hh : f ∉ r.history_map_) (hc : f ∉ r.cache_map_)
    (hk : 2 ≤ r.k_) :
    accessN r f r.k_ =
      Outcome.ok { r with cache_list_ := r.cache_list_ ++
                            [{ frame_id_ := f, times_ := r.k_, evictable_ := true }],
                          cache_map_ := insert f r.cache_map_ } := by
  obtain ⟨j, hj⟩ : ∃ j, r.k_ = j + 2 := ⟨r.k_ - 2, by omega⟩
  have e : accessN r f r.k_ = accessN r f (j + 1 + 1) := by rw [hj]
  rw [e, accessN, accessN_below r f h hcap hh hc j (by omega)]
  have hwf := WF_insert r { frame_id_ := f, times_ := j + 1, evictable_ := true } h hh hc
  have := RecordAccess_history_promote _ r.history_list_ []
    { frame_id_ := f, times_ := j + 1, evictable_ := true } hwf hcap rfl (by simp [hj])
  simpa [FrameInfo.GetId, FrameInfo.IncreaseTimes, Finset.erase_insert hh, hj] using this

end LRUKReplacer

/-! ## Effects on `Size`, failure cases -/

namespace LRUKReplacer

theorem Size_Evict (r : LRUKReplacer) (v : Int) (hv : r.Evict.1 = some v) :
    r.Evict.2.Size + 1 = r.Size := by
  rcases first_evictable r.history_list_ with hh | ⟨pre, x, post, hl, hpre, hx⟩
  · rcases first_evictable r.cache_list_ with hc | ⟨pre, x, post, hl, hpre, hx⟩
    · rw [Evict_none r hh hc] at hv
      cases hv
    · rw [Evict_cache r pre post x hh hl hpre hx]
      simp only [Size_eq, hl, List.countP_append, List.countP_cons, hx]
      simp; omega
  · rw [Evict_history r pre post x hl hpre hx]
    simp only [Size_eq, hl, List.countP_append, List.countP_cons, hx]
    simp; omega

theorem Size_Remove (r s : LRUKReplacer) (f : Int) (h : WF r)
    (hf : f ∈ r.history_map_ ∨ f ∈ r.cache_map_) (hs : r.Remove f = Outcome.ok s) :
    s.Size + 1 = r.Size := by
  by_cases hh : f ∈ r.history_map_
  · obtain ⟨pre, x, post, hl, rfl⟩ := h.split_history hh
    rw [Remove_history r pre post x h hl] at hs
    by_cases hx : x.IsEvictable = true
    · rw [if_pos hx] at hs
      have hs2 := Outcome.ok.inj hs
      clear hs
      subst hs2
      simp only [Size_eq, hl, List.countP_append, List.countP_cons, hx]
      simp; omega
    · rw [if_neg hx] at hs
      exact Outcome.noConfusion hs
  · have hc : f ∈ r.cache_map_ := hf.resolve_left hh
    obtain ⟨pre, x, post, hl, rfl⟩ := h.split_cache hc
    rw [Remove_cache r pre post x h hl] at hs
    by_cases hx : x.IsEvictable = true
    · rw [if_pos hx] at hs
      have hs2 := Outcome.ok.inj hs
      clear hs
      subst hs2
      simp only [Size_eq, hl, List.countP_append, List.countP_cons, hx]
      simp; omega
    · rw [if_neg hx] at hs
      exact Outcome.noConfusion hs

/-- The size after `SetEvictable`: the old flag of the record is taken out of
the count and the new one put in. -/
theorem Size_SetEvictable (r : LRUKReplacer) (b : Bool) (x : FrameInfo) (h : WF r)
    (hx : x ∈ r.history_list_ ++ r.cache_list_) :
    (r.SetEvictable x.GetId b).Size + (if x.IsEvictable = true then 1 else 0) =
      r.Size + (if b = true then 1 else 0) := by
  rcases List.mem_append.1 hx with hx | hx
  · obtain ⟨pre, post, hl⟩ := List.append_of_mem hx
    rw [SetEvictable_history r pre post x b h hl]
    simp only [Size_eq, hl, List.countP_append, List.countP_cons, FrameInfo.SetEvictable,
      FrameInfo.IsEvictable]
    omega
  · obtain ⟨pre, post, hl⟩ := List.append_of_mem hx
    rw [SetEvictable_cache r pre post x b h hl]
    simp only [Size_eq, hl, List.countP_append, List.countP_cons, FrameInfo.SetEvictable,
      FrameInfo.IsEvictable]
    omega

theorem Size_zero_iff (r : LRUKReplacer) :
    r.Size = 0 ↔ (∀ y ∈ r.history_list_, y.IsEvictable = false) ∧
      (∀ y ∈ r.cache_list_, y.IsEvictable = false) := by
  rw [Size_eq, List.countP_eq_zero]
  simp only [List.mem_append, Bool.not_eq_true]
  constructor
  · intro h
    exact ⟨fun y hy => h y (Or.inl hy), fun y hy => h y (Or.inr hy)⟩
  · rintro ⟨h1, h2⟩ y (hy | hy)
    · exact h1 y hy
    · exact h2 y hy

theorem Remove_fatal_state (r s : LRUKReplacer) (f : Int)
    (hs : r.Remove f = Outcome.fatal s) : s = r := by
  unfold Remove at hs
  split_ifs at hs with h1 h2
  · split at hs
    · split_ifs at hs
      exact (Outcome.fatal.inj hs).symm
    · exact Outcome.noConfusion hs
  · split at hs
    · split_ifs at hs
      exact (Outcome.fatal.inj hs).symm
    · exact Outcome.noConfusion hs

theorem RecordAccess_completes (r : LRUKReplacer) (f : Int)
    (hcap : f ≤ toInt r.replacer_size_) : ∃ s, r.RecordAccess f = Outcome.ok s := by
  unfold RecordAccess
  rw [if_neg (not_not.2 hcap)]
  clear hcap
  split_ifs
  · split
    · exact ⟨_, rfl⟩
    · exact ⟨_, rfl⟩
  · split
    · split_ifs
      · exact ⟨_, rfl⟩
      · exact ⟨_, rfl⟩
    · exact ⟨_, rfl⟩
  · exact ⟨_, rfl⟩

theorem toInt_small (n : Nat) (h : n < 2147483648) : toInt n = (n : Int) := by
  unfold toInt
  omega

end LRUKReplacer

/-! ## The transitions of well-formed states -/

/-- Every completed call on a well-formed state follows one of the rules of
`Step`. -/
theorem call_step (r t : LRUKReplacer) (c : Call) (v : Ret) (h : r.WF)
    (hcall : call r c = some (v, t)) : Step r c v t := by
  cases c with
  | RecordAccess g =>
    rw [call_RecordAccess] at hcall
    obtain ⟨ho, hv⟩ := result_eq_some _ _ _ hcall
    subst hv
    clear hcall
    by_cases hcap : g ≤ toInt r.replacer_size_
    · by_cases hc : g ∈ r.cache_map_
      · obtain ⟨pre, x, post, hl, rfl⟩ := h.split_cache hc
        rw [RecordAccess_cache r pre post x h hcap hl] at ho
        have e := Outcome.ok.inj ho
        clear ho
        subst e
        exact Step.accessCache pre post x hl hcap
      · by_cases hh : g ∈ r.history_map_
        · obtain ⟨pre, x, post, hl, rfl⟩ := h.split_history hh
          by_cases hk : x.times_ + 1 < r.k_
          · rw [RecordAccess_history_stay r pre post x h hcap hl hk] at ho
            have e := Outcome.ok.inj ho
            clear ho
            subst e
            exact Step.accessStay pre post x hl hcap hk
          · rw [RecordAccess_history_promote r pre post x h hcap hl (by omega)] at ho
            have e := Outcome.ok.inj ho
            clear ho
            subst e
            exact Step.accessPromote pre post x hl hcap (by omega)
        · rw [RecordAccess_unseen r g hcap hh hc] at ho
          have e := Outcome.ok.inj ho
          clear ho
          subst e
          exact Step.accessUnseen g hcap hh hc
    · rw [RecordAccess_fatal r g hcap] at ho
      exact Outcome.noConfusion ho
  | SetEvictable g b =>
    simp only [call_SetEvictable, Option.some.injEq, Prod.mk.injEq] at hcall
    obtain ⟨hv, ht⟩ := hcall
    subst hv ht
    by_cases hh : g ∈ r.history_map_
    · obtain ⟨pre, x, post, hl, rfl⟩ := h.split_history hh
      rw [SetEvictable_history r pre post x b h hl]
      exact Step.setHistory pre post x b hl
    · by_cases hc : g ∈ r.cache_map_
      · obtain ⟨pre, x, post, hl, rfl⟩ := h.split_cache hc
        rw [SetEvictable_cache r pre post x b h hl]
        exact Step.setCache pre post x b hl
      · rw [SetEvictable_untracked r g b hh hc]
        exact Step.setUntracked g b hh hc
  | Evict =>
    simp only [call_Evict, Option.some.injEq, Prod.mk.injEq] at hcall
    obtain ⟨hv, ht⟩ := hcall
    subst hv ht
    rcases first_evictable r.history_list_ with hh | ⟨pre, x, post, hl, hpre, hx⟩
    · rcases first_evictable r.cache_list_ with hc | ⟨pre, x, post, hl, hpre, hx⟩
      · rw [Evict_none r hh hc]
        exact Step.evictNone hh hc
      · rw [Evict_cache r pre post x hh hl hpre hx]
        exact Step.evictCache pre post x hh hl hpre hx
    · rw [Evict_history r pre post x hl hpre hx]
      exact Step.evictHistory pre post x hl hpre hx
  | Remove g =>
    rw [call_Remove] at hcall
    obtain ⟨ho, hv⟩ := result_eq_some _ _ _ hcall
    subst hv
    clear hcall
    by_cases hh : g ∈ r.history_map_
    · obtain ⟨pre, x, post, hl, rfl⟩ := h.split_history hh
      rw [Remove_history r pre post x h hl] at ho
      by_cases hx : x.IsEvictable = true
      · rw [if_pos hx] at ho
        have e := Outcome.ok.inj ho
        clear ho
        subst e
        exact Step.removeHistory pre post x hl hx
      · rw [if_neg hx] at ho
        exact Outcome.noConfusion ho
    · by_cases hc : g ∈ r.cache_map_
      · obtain ⟨pre, x, post, hl, rfl⟩ := h.split_cache hc
        rw [Remove_cache r pre post x h hl] at ho
        by_cases hx : x.IsEvictable = true
        · rw [if_pos hx] at ho
          have e := Outcome.ok.inj ho
          clear ho
          subst e
          exact Step.removeCache pre post x hl hx
        · rw [if_neg hx] at ho
          exact Outcome.noConfusion ho
      · rw [Remove_untracked r g hh hc] at ho
        have e := Outcome.ok.inj ho
        clear ho
        subst e
        exact Step.removeUntracked g hh hc
  | Size =>
    simp only [call_Size, Option.some.injEq, Prod.mk.injEq] at hcall
    obtain ⟨hv, ht⟩ := hcall
    subst hv ht
    exact Step.size

/-- A transition keeps the configuration, and every record it leaves either
carries the id of a record that was there before or is the fresh record of an
accepted access. -/
theorem Step.records {r t : LRUKReplacer} {c : Call} {v : Ret} (hs : Step r c v t) :
    t.replacer_size_ = r.replacer_size_ ∧ t.k_ = r.k_ ∧
    ∀ y ∈ t.history_list_ ++ t.cache_list_,
      (∃ x ∈ r.history_list_ ++ r.cache_list_, x.GetId = y.GetId) ∨
      (c = Call.RecordAccess y.GetId ∧ y.GetId ≤ toInt r.replacer_size_) := by
  cases hs with
  | accessUnseen f hcap hh hc =>
    refine ⟨rfl, rfl, ?_⟩
    intro y hy
    simp only [List.mem_append, List.mem_singleton] at hy
    rcases hy with (hy | rfl) | hy
    · exact Or.inl ⟨y, by simp [hy], rfl⟩
    · exact Or.inr ⟨rfl, hcap⟩
    · exact Or.inl ⟨y, by simp [hy], rfl⟩
  | accessStay pre post x hl hcap hk =>
    refine ⟨rfl, rfl, ?_⟩
    intro y hy
    simp only [List.mem_append, List.mem_cons] at hy
    rcases hy with (hy | rfl | hy) | hy
    · exact Or.inl ⟨y, by simp [hl, hy], rfl⟩
    · exact Or.inl ⟨x, by simp [hl], rfl⟩
    · exact Or.inl ⟨y, by simp [hl, hy], rfl⟩
    · exact Or.inl ⟨y, by simp [hy], rfl⟩
  | accessPromote pre post x hl hcap hk =>
    refine ⟨rfl, rfl, ?_⟩
    intro y hy
    simp only [List.mem_append, List.mem_singleton] at hy
    rcases hy with (hy | hy) | (hy | rfl)
    · exact Or.inl ⟨y, by simp [hl, hy], rfl⟩
    · exact Or.inl ⟨y, by simp [hl, hy], rfl⟩
    · exact Or.inl ⟨y, by simp [hy], rfl⟩
    · exact Or.inl ⟨x, by simp [hl], rfl⟩
  | accessCache pre post x hl hcap =>
    refine ⟨rfl, rfl, ?_⟩
    intro y hy
    simp only [List.mem_append, List.mem_singleton] at hy
    rcases hy with hy | ((hy | hy) | rfl)
    · exact Or.inl ⟨y, by simp [hy], rfl⟩
    · exact Or.inl ⟨y, by simp [hl, hy], rfl⟩
    · exact Or.inl ⟨y, by simp [hl, hy], rfl⟩
    · exact Or.inl ⟨y, by simp [hl], rfl⟩
  | setUntracked f b hh hc => exact ⟨rfl, rfl, fun y hy => Or.inl ⟨y, hy, rfl⟩⟩
  | setHistory pre post x b hl =>
    refine ⟨rfl, rfl, ?_⟩
    intro y hy
    simp only [List.mem_append, List.mem_cons] at hy
    rcases hy with (hy | rfl | hy) | hy
    · exact Or.inl ⟨y, by simp [hl, hy], rfl⟩
    · exact Or.inl ⟨x, by simp [hl], rfl⟩
    · exact Or.inl ⟨y, by simp [hl, hy], rfl⟩
    · exact Or.inl ⟨y, by simp [hy], rfl⟩
  | setCache pre post x b hl =>
    refine ⟨rfl, rfl, ?_⟩
    intro y hy
    simp only [List.mem_append, List.mem_cons] at hy
    rcases hy with hy | (hy | rfl | hy)
    · exact Or.inl ⟨y, by simp [hy], rfl⟩
    · exact Or.inl ⟨y, by simp [hl, hy], rfl⟩
    · exact Or.inl ⟨x, by simp [hl], rfl⟩
    · exact Or.inl ⟨y, by simp [hl, hy], rfl⟩
  | evictHistory pre post x hl hpre hx =>
    refine ⟨rfl, rfl, ?_⟩
    intro y hy
    simp only [List.mem_append] at hy
    rcases hy with (hy | hy) | hy
    · exact Or.inl ⟨y, by simp [hl, hy], rfl⟩
    · exact Or.inl ⟨y, by simp [hl, hy], rfl⟩
    · exact Or.inl ⟨y, by simp [hy], rfl⟩
  | evictCache pre post x hh hl hpre hx =>
    refine ⟨rfl, rfl, ?_⟩
    intro y hy
    simp only [List.mem_append] at hy
    rcases hy with hy | (hy | hy)
    · exact Or.inl ⟨y, by simp [hy], rfl⟩
    · exact Or.inl ⟨y, by simp [hl, hy], rfl⟩
    · exact Or.inl ⟨y, by simp [hl, hy], rfl⟩
  | evictNone hh hc => exact ⟨rfl, rfl, fun y hy => Or.inl ⟨y, hy, rfl⟩⟩
  | removeUntracked f hh hc => exact ⟨rfl, rfl, fun y hy => Or.inl ⟨y, hy, rfl⟩⟩
  | removeHistory pre post x hl hx =>
    refine ⟨rfl, rfl, ?_⟩
    intro y hy
    simp only [List.mem_append] at hy
    rcases hy with (hy | hy) | hy
    · exact Or.inl ⟨y, by simp [hl, hy], rfl⟩
    · exact Or.inl ⟨y, by simp [hl, hy], rfl⟩
    · exact Or.inl ⟨y, by simp [hy], rfl⟩
  | removeCache pre post x hl hx =>
    refine ⟨rfl, rfl, ?_⟩
    intro y hy
    simp only [List.mem_append] at hy
    rcases hy with hy | (hy | hy)
    · exact Or.inl ⟨y, by simp [hy], rfl⟩
    · exact Or.inl ⟨y, by simp [hl, hy], rfl⟩
    · exact Or.inl ⟨y, by simp [hl, hy], rfl⟩
  | size => exact ⟨rfl, rfl, fun y hy => Or.inl ⟨y, hy, rfl⟩⟩

/-- A transition keeps every tracked id within the bound of the assertion. -/
theorem Step.bounded {r t : LRUKReplacer} {c : Call} {v : Ret} (hs : Step r c v t)
    (hb : Bounded r) : Bounded t := by
  obtain ⟨hsize, _, hrec⟩ := hs.records
  intro y hy
  rw [hsize]
  rcases hrec y hy with ⟨x, hx, hxy⟩ | ⟨_, hcap⟩
  · rw [← hxy]
    exact hb x hx
  · exact hcap

/-- For K ≥ 2 a transition keeps the counters of the history queue below K and
those of the cache queue at least K. -/
theorem Step.countInv {r t : LRUKReplacer} {c : Call} {v : Ret} (hs : Step r c v t)
    (hk2 : 2 ≤ r.k_) (hinv : CountInv r) : CountInv t := by
  obtain ⟨h1, h2⟩ := hinv
  cases hs with
  | accessUnseen f hcap hh hc =>
    clear hcap
    refine ⟨?_, h2⟩
    intro y hy
    simp only [List.mem_append, List.mem_singleton] at hy
    rcases hy with hy | rfl
    · exact h1 y hy
    · exact hk2
  | accessStay pre post x hl hcap hk =>
    clear hcap
    refine ⟨?_, h2⟩
    intro y hy
    simp only [List.mem_append, List.mem_cons] at hy
    rcases hy with hy | rfl | hy
    · exact h1 y (by simp [hl, hy])
    · exact hk
    · exact h1 y (by simp [hl, hy])
  | accessPromote pre post x hl hcap hk =>
    clear hcap
    refine ⟨?_, ?_⟩
    · intro y hy
      simp only [List.mem_append] at hy
      rcases hy with hy | hy
      · exact h1 y (by simp [hl, hy])
      · exact h1 y (by simp [hl, hy])
    · intro y hy
      simp only [List.mem_append, List.mem_singleton] at hy
      rcases hy with hy | rfl
      · exact h2 y hy
      · exact hk
  | accessCache pre post x hl hcap =>
    clear hcap
    refine ⟨h1, ?_⟩
    intro y hy
    simp only [List.mem_append, List.mem_singleton] at hy
    rcases hy with (hy | hy) | rfl
    · exact h2 y (by simp [hl, hy])
    · exact h2 y (by simp [hl, hy])
    · exact h2 y (by simp [hl])
  | setUntracked f b hh hc => exact ⟨h1, h2⟩
  | setHistory pre post x b hl =>
    refine ⟨?_, h2⟩
    intro y hy
    simp only [List.mem_append, List.mem_cons] at hy
    rcases hy with hy | rfl | hy
    · exact h1 y (by simp [hl, hy])
    · exact h1 x (by simp [hl])
    · exact h1 y (by simp [hl, hy])
  | setCache pre post x b hl =>
    refine ⟨h1, ?_⟩
    intro y hy
    simp only [List.mem_append, List.mem_cons] at hy
    rcases hy with hy | rfl | hy
    · exact h2 y (by simp [hl, hy])
    · exact h2 x (by simp [hl])
    · exact h2 y (by simp [hl, hy])
  | evictHistory pre post x hl hpre hx =>
    refine ⟨?_, h2⟩
    intro y hy
    simp only [List.mem_append] at hy
    rcases hy with hy | hy
    · exact h1 y (by simp [hl, hy])
    · exact h1 y (by simp [hl, hy])
  | evictCache pre post x hh hl hpre hx =>
    refine ⟨h1, ?_⟩
    intro y hy
    simp only [List.mem_append] at hy
    rcases hy with hy | hy
    · exact h2 y (by simp [hl, hy])
    · exact h2 y (by simp [hl, hy])
  | evictNone hh hc => exact ⟨h1, h2⟩
  | removeUntracked f hh hc => exact ⟨h1, h2⟩
  | removeHistory pre post x hl hx =>
    refine ⟨?_, h2⟩
    intro y hy
    simp only [List.mem_append] at hy
    rcases hy with hy | hy
    · exact h1 y (by simp [hl, hy])
    · exact h1 y (by simp [hl, hy])
  | removeCache pre post x hl hx =>
    refine ⟨h1, ?_⟩
    intro y hy
    simp only [List.mem_append] at hy
    rcases hy with hy | hy
    · exact h2 y (by simp [hl, hy])
    · exact h2 y (by simp [hl, hy])
  | size => exact ⟨h1, h2⟩

/-- A property of states that every transition of a well-formed state keeps
holds after every completed run of calls. -/
theorem run_invariant (P : LRUKReplacer → Prop)
    (hstep : ∀ (r t : LRUKReplacer) (c : Call) (v : Ret), r.WF → P r → Step r c v t → P t)
    (cs : List Call) : ∀ (r s : LRUKReplacer) (vs : List Ret),
    r.WF → P r → run r cs = some (vs, s) → P s := by
  induction cs with
  | nil =>
    intro r s vs _ hp hrun
    simp only [run, Option.some.injEq, Prod.mk.injEq] at hrun
    rw [← hrun.2]
    exact hp
  | cons c cs ih =>
    intro r s vs h hp hrun
    obtain ⟨v, t, ws, hcall, hrest, _⟩ := run_cons r s c cs vs hrun
    exact ih t s ws (WF_call r t c v h hcall) (hstep r t c v h hp (call_step r t c v h hcall))
      hrest

/-- The states reached from a fresh replacer keep every tracked id within the
bound of the assertion. -/
theorem Bounded_run (n k : Nat) (cs : List Call) (vs : List Ret) (s : LRUKReplacer)
    (hrun : run (LRUKReplacer.new n k) cs = some (vs, s)) : Bounded s := by
  refine run_invariant Bounded (fun r t c v _ hb hs => hs.bounded hb) cs _ s vs
    (WF_new n k) ?_ hrun
  intro x hx
  simp [LRUKReplacer.new] at hx

/-- For K ≥ 2 the states reached from a fresh replacer keep the counters of the
history queue below K and those of the cache queue at least K. -/
theorem CountInv_run (n k : Nat) (hk : 2 ≤ k) (cs : List Call) (vs : List Ret)
    (s : LRUKReplacer) (hrun : run (LRUKReplacer.new n k) cs = some (vs, s)) :
    s.k_ = k ∧ CountInv s := by
  refine run_invariant (fun r => r.k_ = k ∧ CountInv r) ?_ cs _ s vs (WF_new n k) ?_ hrun
  · intro r t c v _ hp hs
    exact ⟨hs.records.2.1.trans hp.1, hs.countInv (hp.1 ▸ hk) hp.2⟩
  · refine ⟨rfl, ?_, ?_⟩ <;> intro x hx <;> simp [LRUKReplacer.new] at hx

/-- A frame of the cache queue stays there, and out of the history queue, over
every transition that neither removes nor evicts it. -/
theorem Step.inCache {r t : LRUKReplacer} {c : Call} {v : Ret} (hs : Step r c v t)
    (h : r.WF) (f : Int) (hf : f ∈ r.cache_map_) (hc : c ≠ Call.Remove f)
    (hv : v ≠ Ret.victim (some f)) : f ∈ t.cache_map_ ∧ f ∉ t.history_map_ := by
  have hnh : f ∉ r.history_map_ := fun hh => h.not_both f hh hf
  cases hs with
  | accessUnseen g hcap hh hc2 =>
    clear hcap
    refine ⟨hf, ?_⟩
    have hne : f ≠ g := fun e => hc2 (e ▸ hf)
    simp [Finset.mem_insert, hne, hnh]
  | accessStay pre post x hl hcap hk => exact ⟨hf, hnh⟩
  | accessPromote pre post x hl hcap hk =>
    exact ⟨Finset.mem_insert_of_mem hf, fun hm => hnh (Finset.mem_of_mem_erase hm)⟩
  | accessCache pre post x hl hcap => exact ⟨hf, hnh⟩
  | setUntracked g b hh hc2 => exact ⟨hf, hnh⟩
  | setHistory pre post x b hl => exact ⟨hf, hnh⟩
  | setCache pre post x b hl => exact ⟨hf, hnh⟩
  | evictHistory pre post x hl hpre hx =>
    exact ⟨hf, fun hm => hnh (Finset.mem_of_mem_erase hm)⟩
  | evictCache pre post x hh hl hpre hx =>
    have hne : f ≠ x.GetId := fun e => hv (by rw [e])
    exact ⟨Finset.mem_erase.2 ⟨hne, hf⟩, hnh⟩
  | evictNone hh hc2 => exact ⟨hf, hnh⟩
  | removeUntracked g hh hc2 => exact ⟨hf, hnh⟩
  | removeHistory pre post x hl hx =>
    exact ⟨hf, fun hm => hnh (Finset.mem_of_mem_erase hm)⟩
  | removeCache pre post x hl hx =>
    have hne : f ≠ x.GetId := fun e => hc (by rw [e])
    exact ⟨Finset.mem_erase.2 ⟨hne, hf⟩, hnh⟩
  | size => exact ⟨hf, hnh⟩

/-- A frame of the cache queue stays there over every completed run of calls
that neither removes nor evicts it. -/
theorem inCache_run (f : Int) (cs : List Call) : ∀ (r s : LRUKReplacer) (vs : List Ret),
    r.WF → f ∈ r.cache_map_ → (∀ c ∈ cs, c ≠ Call.Remove f) →
    run r cs = some (vs, s) → Ret.victim (some f) ∉ vs →
    f ∈ s.cache_map_ ∧ f ∉ s.history_map_ := by
  induction cs with
  | nil =>
    intro r s vs h hf _ hrun _
    simp only [run, Option.some.injEq, Prod.mk.injEq] at hrun
    rw [← hrun.2]
    exact ⟨hf, fun hh => h.not_both f hh hf⟩
  | cons c cs ih =>
    intro r s vs h hf hcs hrun hvs
    obtain ⟨v, t, ws, hcall, hrest, hvs2⟩ := run_cons r s c cs vs hrun
    rw [hvs2] at hvs
    have hv : v ≠ Ret.victim (some f) := fun e => hvs (by simp [e])
    have hws : Ret.victim (some f) ∉ ws := fun e => hvs (by simp [e])
    have hstep := (call_step r t c v h hcall).inCache h f hf (hcs c (by simp)) hv
    exact ih t s ws (WF_call r t c v h hcall) hstep.1
      (fun d hd => hcs d (by simp [hd])) hrest hws

/-- After a transition that evicts frame `f`, or removes the tracked frame `f`,
the frame is in neither index. -/
theorem Step.gone {r t : LRUKReplacer} {c : Call} {v : Ret} (hs : Step r c v t)
    (h : r.WF) (f : Int)
    (hf : v = Ret.victim (some f) ∨
      (c = Call.Remove f ∧ (f ∈ r.history_map_ ∨ f ∈ r.cache_map_))) :
    f ∉ t.history_map_ ∧ f ∉ t.cache_map_ := by
  cases hs with
  | accessUnseen g hcap hh hc => clear hcap; simp at hf
  | accessStay pre post x hl hcap hk => clear hcap; simp at hf
  | accessPromote pre post x hl hcap hk => clear hcap; simp at hf
  | accessCache pre post x hl hcap => clear hcap; simp at hf
  | setUntracked g b hh hc => simp at hf
  | setHistory pre post x b hl => simp at hf
  | setCache pre post x b hl => simp at hf
  | evictHistory pre post x hl hpre hx =>
    have e : x.GetId = f := by simpa using hf
    subst e
    exact ⟨Finset.not_mem_erase _ _, (h.history_split hl).2.1⟩
  | evictCache pre post x hh hl hpre hx =>
    have e : x.GetId = f := by simpa using hf
    subst e
    exact ⟨(h.cache_split hl).2.1, Finset.not_mem_erase _ _⟩
  | evictNone hh hc => simp at hf
  | removeUntracked g hh hc =>
    have e : g = f ∧ (f ∈ r.history_map_ ∨ f ∈ r.cache_map_) := by simpa using hf
    obtain ⟨rfl, htr⟩ := e
    rcases htr with htr | htr
    · exact absurd htr hh
    · exact absurd htr hc
  | removeHistory pre post x hl hx =>
    have e : x.GetId = f := by
      have := hf
      simp only [false_or, Call.Remove.injEq, reduceCtorEq] at this
      exact this.1
    subst e
    exact ⟨Finset.not_mem_erase _ _, (h.history_split hl).2.1⟩
  | removeCache pre post x hl hx =>
    have e : x.GetId = f := by
      have := hf
      simp only [false_or, Call.Remove.injEq, reduceCtorEq] at this
      exact this.1
    subst e
    exact ⟨(h.cache_split hl).2.1, Finset.not_mem_erase _ _⟩
  | size => simp at hf

/-! ## Further facts: repeated `SetEvictable`, `Size` under access, draining -/

theorem updateNode_idem (f : Int) (g : FrameInfo → FrameInfo) (l : List FrameInfo)
    (hid : ∀ x, (g x).GetId = x.GetId) (hg : ∀ x, g (g x) = g x) :
    updateNode f g (updateNode f g l) = updateNode f g l := by
  induction l with
  | nil => rfl
  | cons x xs ih =>
    by_cases hx : x.GetId = f
    · simp [updateNode, hx, hid, hg]
    · simp [updateNode, hx, ih]

theorem SetEvictable_idem (r : LRUKReplacer) (f : Int) (b : Bool) :
    (r.SetEvictable f b).SetEvictable f b = r.SetEvictable f b := by
  have hid : ∀ x : FrameInfo, (x.SetEvictable b).GetId = x.GetId := fun _ => rfl
  have hg : ∀ x : FrameInfo, (x.SetEvictable b).SetEvictable b = x.SetEvictable b :=
    fun _ => rfl
  by_cases hh : f ∈ r.history_map_
  · simp [LRUKReplacer.SetEvictable, hh, updateNode_idem f _ _ hid hg]
  · by_cases hc : f ∈ r.cache_map_
    · simp [LRUKReplacer.SetEvictable, hh, hc, updateNode_idem f _ _ hid hg]
    · simp [LRUKReplacer.SetEvictable, hh, hc]

/-- An access of a tracked frame leaves `Size`. -/
theorem Size_RecordAccess_tracked (r s : LRUKReplacer) (f : Int) (h : r.WF)
    (hf : f ∈ r.history_map_ ∨ f ∈ r.cache_map_)
    (hs : r.RecordAccess f = Outcome.ok s) : s.Size = r.Size := by
  by_cases hcap : f ≤ toInt r.replacer_size_
  · by_cases hc : f ∈ r.cache_map_
    · obtain ⟨pre, x, post, hl, rfl⟩ := h.split_cache hc
      rw [RecordAccess_cache r pre post x h hcap hl] at hs
      have e := Outcome.ok.inj hs
      clear hs hcap
      subst e
      simp only [Size_eq, hl, List.countP_append, List.countP_cons, List.countP_nil]
      omega
    · have hh : f ∈ r.history_map_ := hf.resolve_right hc
      obtain ⟨pre, x, post, hl, rfl⟩ := h.split_history hh
      by_cases hk : x.times_ + 1 < r.k_
      · rw [RecordAccess_history_stay r pre post x h hcap hl hk] at hs
        have e := Outcome.ok.inj hs
        clear hs hcap
        subst e
        simp only [Size_eq, hl, List.countP_append, List.countP_cons,
          FrameInfo.IncreaseTimes, FrameInfo.IsEvictable]
      · rw [RecordAccess_history_promote r pre post x h hcap hl (by omega)] at hs
        have e := Outcome.ok.inj hs
        clear hs hcap
        subst e
        simp only [Size_eq, hl, List.countP_append, List.countP_cons, List.countP_nil,
          FrameInfo.IncreaseTimes, FrameInfo.IsEvictable]
        omega
  · rw [RecordAccess_fatal r f hcap] at hs
    exact Outcome.noConfusion hs

namespace LRUKReplacer

theorem WF_evictN (n : Nat) : ∀ r : LRUKReplacer, r.WF → (evictN r n).2.WF := by
  induction n with
  | zero => intro r h; exact h
  | succ n ih => intro r h; exact ih r.Evict.2 (WF_Evict r h)

theorem filter_evictable_none (l : List FrameInfo) (h : ∀ y ∈ l, y.IsEvictable = false) :
    l.filter FrameInfo.IsEvictable = [] ∧ l.filter (fun y => !y.IsEvictable) = l := by
  refine ⟨List.filter_eq_nil_iff.2 (fun y hy => by simp [h y hy]),
    List.filter_eq_self.2 (fun y hy => by simp [h y hy])⟩

/-- Draining: as many `Evict` calls as `Size` counts return the evictable frames
in scan order and leave the records that are not evictable, each queue in its
order. -/
theorem evictN_drain (n : Nat) : ∀ r : LRUKReplacer, r.Size = n →
    (evictN r n).1 =
      ((r.history_list_ ++ r.cache_list_).filter FrameInfo.IsEvictable).map
        (fun x => some x.GetId) ∧
    (evictN r n).2.history_list_ = r.history_list_.filter (fun y => !y.IsEvictable) ∧
    (evictN r n).2.cache_list_ = r.cache_list_.filter (fun y => !y.IsEvictable) := by
  induction n with
  | zero =>
    intro r h0
    obtain ⟨hh, hc⟩ := (Size_zero_iff r).1 h0
    simp [evictN, List.filter_append, (filter_evictable_none _ hh).1,
      (filter_evictable_none _ hh).2, (filter_evictable_none _ hc).1,
      (filter_evictable_none _ hc).2]
  | succ n ih =>
    intro r hn
    rcases first_evictable r.history_list_ with hh | ⟨pre, x, post, hl, hpre, hx⟩
    · rcases first_evictable r.cache_list_ with hc | ⟨pre, x, post, hl, hpre, hx⟩
      · have := (Size_zero_iff r).2 ⟨hh, hc⟩
        omega
      · have hev := Evict_cache r pre post x hh hl hpre hx
        have hsz := Size_Evict r x.GetId (by rw [hev])
        obtain ⟨i1, i2, i3⟩ := ih r.Evict.2 (by omega)
        rw [hev] at i1 i2 i3
        simp only [evictN, hev]
        refine ⟨?_, ?_, ?_⟩
        · rw [i1]
          simp [hl, List.filter_append, List.filter_cons, hx,
            (filter_evictable_none _ hh).1, (filter_evictable_none _ hpre).1]
        · rw [i2]
        · rw [i3]
          simp [hl, List.filter_append, List.filter_cons, hx]
    · have hev := Evict_history r pre post x hl hpre hx
      have hsz := Size_Evict r x.GetId (by rw [hev])
      obtain ⟨i1, i2, i3⟩ := ih r.Evict.2 (by omega)
      rw [hev] at i1 i2 i3
      simp only [evictN, hev]
      refine ⟨?_, ?_, ?_⟩
      · rw [i1]
        simp [hl, List.filter_append, List.filter_cons, hx,
          (filter_evictable_none _ hpre).1]
      · rw [i2]
        simp [hl, List.filter_append, List.filter_cons, hx]
      · rw [i3]

end LRUKReplacer

/-- In a well-formed state a frame of the cache index alone has its record in
the cache queue and none in the history queue. -/
theorem LRUKReplacer.WF.cache_only {r : LRUKReplacer} (h : r.WF) {f : Int}
    (hf : f ∈ r.cache_map_ ∧ f ∉ r.history_map_) :
    (∃ x ∈ r.cache_list_, x.GetId = f) ∧ ∀ x ∈ r.history_list_, x.GetId ≠ f :=
  ⟨(h.mem_cache f).1 hf.1, fun x hx e => hf.2 ((h.mem_history f).2 ⟨x, hx, e⟩)⟩

/-- A list of distinct integers between 0 and `n` has at most `n + 1`
entries. -/
theorem length_le_of_nodup_bounded (L : List Int) (n : Nat) (hn : L.Nodup)
    (hb : ∀ a ∈ L, 0 ≤ a ∧ a ≤ (n : Int)) : L.length ≤ n + 1 := by
  have hsub : L.toFinset ⊆ Finset.Icc (0 : Int) n := by
    intro a ha
    rw [List.mem_toFinset] at ha
    exact Finset.mem_Icc.2 (hb a ha)
  have hcard := Finset.card_le_card hsub
  rw [List.toFinset_card_of_nodup hn, Int.card_Icc] at hcard
  omega

/-- The states reached from a fresh replacer keep the capacity they were
constructed with. -/
theorem size_run (n k : Nat) (cs : List Call) (vs : List Ret) (s : LRUKReplacer)
    (hrun : run (LRUKReplacer.new n k) cs = some (vs, s)) : s.replacer_size_ = n :=
  run_invariant (fun r => r.replacer_size_ = n)
    (fun _ _ _ _ _ hp hs => hs.records.1.trans hp) cs _ s vs (WF_new n k) rfl hrun

/-! ## Order of ids in a queue -/

theorem Before.append {a b : Int} {L : List Int} (h : Before a b L) (M : List Int) :
    Before a b (L ++ M) := by
  obtain ⟨l1, l2, hL, hb⟩ := h
  exact ⟨l1, l2 ++ M, by simp [hL], List.mem_append_left _ hb⟩

theorem Before.snoc {a : Int} {L : List Int} (ha : a ∈ L) (b : Int) :
    Before a b (L ++ [b]) := by
  obtain ⟨l1, l2, hL⟩ := List.append_of_mem ha
  exact ⟨l1, l2 ++ [b], by simp [hL], by simp⟩

theorem Before.filter {a b : Int} {L : List Int} (h : Before a b L) (p : Int → Bool)
    (pa : p a = true) (pb : p b = true) : Before a b (L.filter p) := by
  obtain ⟨l1, l2, hL, hb⟩ := h
  refine ⟨l1.filter p, l2.filter p, ?_, List.mem_filter.2 ⟨hb, pb⟩⟩
  rw [hL, List.filter_append, List.filter_cons, if_pos pa]

/-- Taking an id out of a list without repetitions is filtering it out. -/
theorem erase_mid_eq_filter (p q : List Int) (c : Int) (hn : (p ++ c :: q).Nodup) :
    p ++ q = (p ++ c :: q).filter (fun x => decide (x ≠ c)) := by
  have h2 := List.nodup_cons.1 (List.nodup_middle.1 hn)
  have hp : ∀ x ∈ p, x ≠ c := fun x hx e => h2.1 (e ▸ List.mem_append_left _ hx)
  have hq : ∀ x ∈ q, x ≠ c := fun x hx e => h2.1 (e ▸ List.mem_append_right _ hx)
  rw [List.filter_append, List.filter_cons]
  simp only [ne_eq, not_true_eq_false, decide_False, Bool.false_eq_true, ↓reduceIte]
  rw [List.filter_eq_self.2 (fun x hx => by simpa using hp x hx),
    List.filter_eq_self.2 (fun x hx => by simpa using hq x hx)]

theorem Before.erase_mid {a b c : Int} {p q : List Int} (h : Before a b (p ++ c :: q))
    (hn : (p ++ c :: q).Nodup) (hca : c ≠ a) (hcb : c ≠ b) : Before a b (p ++ q) := by
  rw [erase_mid_eq_filter p q c hn]
  exact h.filter _ (by simpa using hca.symm) (by simpa using hcb.symm)

theorem Before.move_back {a b c : Int} {p q : List Int} (h : Before a b (p ++ c :: q))
    (hn : (p ++ c :: q).Nodup) (hca : c ≠ a) (hcb : c ≠ b) :
    Before a b (p ++ q ++ [c]) :=
  (h.erase_mid hn hca hcb).append [c]

theorem Before.mem_left {a b : Int} {L : List Int} (h : Before a b L) : a ∈ L := by
  obtain ⟨l1, l2, hL, _⟩ := h
  simp [hL]

theorem Before.mem_right {a b : Int} {L : List Int} (h : Before a b L) : b ∈ L := by
  obtain ⟨l1, l2, hL, hb⟩ := h
  simp [hL, hb]

/-- The records behind an order of ids: the queue splits at the record of `a`,
and no record up to and including it carries the id `b`. -/
theorem Before.split {a b : Int} {l : List FrameInfo}
    (h : Before a b (l.map FrameInfo.GetId)) (hn : (l.map FrameInfo.GetId).Nodup) :
    ∃ l1 x rest, l = l1 ++ x :: rest ∧ x.GetId = a ∧ x.GetId ≠ b ∧
      ∀ y ∈ l1, y.GetId ≠ b := by
  obtain ⟨i1, i2, hL, hb⟩ := h
  obtain ⟨l1, l2, hl, h1, h2⟩ := List.map_eq_append_iff.1 hL
  obtain ⟨x, rest, hl2, hx, hrest⟩ := List.map_eq_cons_iff.1 h2
  rw [hL] at hn
  have hn2 := List.nodup_append.1 hn
  have hab : a ≠ b := fun e => (List.nodup_cons.1 hn2.2.1).1 (e ▸ hb)
  refine ⟨l1, x, rest, by rw [hl, hl2], hx, hx ▸ hab, ?_⟩
  intro y hy e
  have hy1 : b ∈ i1 := by
    rw [← h1, ← e]
    exact List.mem_map_of_mem _ hy
  exact hn2.2.2 hy1 (List.mem_cons_of_mem _ hb)

/-! ## What a transition does to the two lists of ids -/

theorem LRUKReplacer.WF.mem_hids {r : LRUKReplacer} (h : r.WF) (f : Int) :
    f ∈ r.history_map_ ↔ f ∈ hids r := by
  rw [h.2.1]; simp [hids]

theorem LRUKReplacer.WF.mem_cids {r : LRUKReplacer} (h : r.WF) (f : Int) :
    f ∈ r.cache_map_ ↔ f ∈ cids r := by
  rw [h.2.2]; simp [cids]

/-- The effect of a transition on the ids of the two queues: nothing, a new id
at the back of the history queue, an id moved from the history queue to the
back of the cache queue, an id moved to the back of the cache queue, or an id
taken out of one queue by `Evict` or `Remove`. -/
theorem Step.ids {r t : LRUKReplacer} {c : Call} {v : Ret} (hs : Step r c v t)
    (h : r.WF) :
    ((∀ g, c ≠ Call.RecordAccess g) ∧ hids t = hids r ∧ cids t = cids r) ∨
    (∃ g, c = Call.RecordAccess g ∧ g ∈ hids r ∧ hids t = hids r ∧ cids t = cids r) ∨
    (∃ g, c = Call.RecordAccess g ∧ g ∉ hids r ∧ g ∉ cids r ∧
      hids t = hids r ++ [g] ∧ cids t = cids r) ∨
    (∃ g p q, c = Call.RecordAccess g ∧ hids r = p ++ g :: q ∧
      hids t = p ++ q ∧ cids t = cids r ++ [g]) ∨
    (∃ g p q, c = Call.RecordAccess g ∧ cids r = p ++ g :: q ∧
      hids t = hids r ∧ cids t = p ++ q ++ [g]) ∨
    (∃ g p q, ((c = Call.Evict ∧ v = Ret.victim (some g)) ∨ c = Call.Remove g) ∧
      hids r = p ++ g :: q ∧ hids t = p ++ q ∧ cids t = cids r) ∨
    (∃ g p q, ((c = Call.Evict ∧ v = Ret.victim (some g)) ∨ c = Call.Remove g) ∧
      cids r = p ++ g :: q ∧ hids t = hids r ∧ cids t = p ++ q) := by
  cases hs with
  | accessUnseen f hcap hh hc =>
    clear hcap
    refine Or.inr (Or.inr (Or.inl ⟨f, rfl, fun e => hh ((h.mem_hids f).2 e),
      fun e => hc ((h.mem_cids f).2 e), ?_, rfl⟩))
    simp [hids, FrameInfo.GetId]
  | accessStay pre post x hl hcap hk =>
    clear hcap
    refine Or.inr (Or.inl ⟨x.GetId, rfl, ?_, ?_, rfl⟩)
    · simp [hids, hl]
    · simp [hids, hl, FrameInfo.GetId, FrameInfo.IncreaseTimes]
  | accessPromote pre post x hl hcap hk =>
    clear hcap
    refine Or.inr (Or.inr (Or.inr (Or.inl ⟨x.GetId, pre.map FrameInfo.GetId,
      post.map FrameInfo.GetId, rfl, ?_, ?_, ?_⟩)))
    · simp [hids, hl]
    · simp [hids]
    · simp [cids, FrameInfo.GetId, FrameInfo.IncreaseTimes]
  | accessCache pre post x hl hcap =>
    clear hcap
    refine Or.inr (Or.inr (Or.inr (Or.inr (Or.inl ⟨x.GetId, pre.map FrameInfo.GetId,
      post.map FrameInfo.GetId, rfl, ?_, rfl, ?_⟩))))
    · simp [cids, hl]
    · simp [cids]
  | setUntracked f b hh hc => exact Or.inl ⟨fun g e => Call.noConfusion e, rfl, rfl⟩
  | setHistory pre post x b hl =>
    refine Or.inl ⟨fun g e => Call.noConfusion e, ?_, rfl⟩
    simp [hids, hl, FrameInfo.GetId, FrameInfo.SetEvictable]
  | setCache pre post x b hl =>
    refine Or.inl ⟨fun g e => Call.noConfusion e, rfl, ?_⟩
    simp [cids, hl, FrameInfo.GetId, FrameInfo.SetEvictable]
  | evictHistory pre post x hl hpre hx =>
    refine Or.inr (Or.inr (Or.inr (Or.inr (Or.inr (Or.inl ⟨x.GetId,
      pre.map FrameInfo.GetId, post.map FrameInfo.GetId, Or.inl ⟨rfl, rfl⟩, ?_, ?_, rfl⟩)))))
    · simp [hids, hl]
    · simp [hids]
  | evictCache pre post x hh hl hpre hx =>
    refine Or.inr (Or.inr (Or.inr (Or.inr (Or.inr (Or.inr ⟨x.GetId,
      pre.map FrameInfo.GetId, post.map FrameInfo.GetId, Or.inl ⟨rfl, rfl⟩, ?_, rfl, ?_⟩)))))
    · simp [cids, hl]
    · simp [cids]
  | evictNone hh hc => exact Or.inl ⟨fun g e => Call.noConfusion e, rfl, rfl⟩
  | removeUntracked f hh hc => exact Or.inl ⟨fun g e => Call.noConfusion e, rfl, rfl⟩
  | removeHistory pre post x hl hx =>
    refine Or.inr (Or.inr (Or.inr (Or.inr (Or.inr (Or.inl ⟨x.GetId,
      pre.map FrameInfo.GetId, post.map FrameInfo.GetId, Or.inr rfl, ?_, ?_, rfl⟩)))))
    · simp [hids, hl]
    · simp [hids]
  | removeCache pre post x hl hx =>
    refine Or.inr (Or.inr (Or.inr (Or.inr (Or.inr (Or.inr ⟨x.GetId,
      pre.map FrameInfo.GetId, post.map FrameInfo.GetId, Or.inr rfl, ?_, rfl, ?_⟩)))))
    · simp [cids, hl]
    · simp [cids]
  | size => exact Or.inl ⟨fun g e => Call.noConfusion e, rfl, rfl⟩

theorem mem_drop_mid {x g : Int} {p q : List Int} (hx : x ∈ p ++ g :: q) (hne : x ≠ g) :
    x ∈ p ++ q := by
  simp only [List.mem_append, List.mem_cons] at hx ⊢
  tauto

theorem mem_of_drop_mid {x : Int} (g : Int) {p q : List Int} (hx : x ∈ p ++ q) :
    x ∈ p ++ g :: q := by
  simp only [List.mem_append, List.mem_cons] at hx ⊢
  tauto

theorem mem_move_back (x g : Int) (p q : List Int) :
    x ∈ p ++ q ++ [g] ↔ x ∈ p ++ g :: q := by
  simp only [List.mem_append, List.mem_cons, List.mem_singleton, List.not_mem_nil,
    or_false]
  tauto

/-- The frame met by an eviction or removal that spares `a` is not `a`. -/
theorem spared {c : Call} {v : Ret} {g a : Int}
    (hwhy : (c = Call.Evict ∧ v = Ret.victim (some g)) ∨ c = Call.Remove g)
    (hc : c ≠ Call.Remove a) (hv : v ≠ Ret.victim (some a)) : g ≠ a := by
  rintro rfl
  rcases hwhy with ⟨_, e⟩ | e
  · exact hv e
  · exact hc e

/-- The order of first recording is kept by every transition that neither
removes nor evicts one of the two frames. -/
theorem Fifo.fifo_step {a b : Int} {r t : LRUKReplacer} {c : Call} {v : Ret}
    (hinv : Fifo a b r) (hs : Step r c v t) (h : r.WF)
    (hca : c ≠ Call.Remove a) (hcb : c ≠ Call.Remove b)
    (hva : v ≠ Ret.victim (some a)) (hvb : v ≠ Ret.victim (some b)) : Fifo a b t := by
  have hn : (hids r ++ cids r).Nodup := h.1
  have hnH : (hids r).Nodup := (List.nodup_append.1 hn).1
  unfold Fifo at hinv ⊢
  rcases hs.ids h with ⟨_, eH, eC⟩ | ⟨g, _, _, eH, eC⟩ | ⟨g, _, gH, gC, eH, eC⟩ |
    ⟨g, p, q, _, hH, eH, eC⟩ | ⟨g, p, q, _, hC, eH, eC⟩ | ⟨g, p, q, hwhy, hH, eH, eC⟩ |
    ⟨g, p, q, hwhy, hC, eH, eC⟩
  · rw [eH, eC]; exact hinv
  · rw [eH, eC]; exact hinv
  · rw [eH, eC]
    rcases hinv with ha | ⟨ha, hb⟩
    · exact Or.inl ha
    · refine Or.inr ⟨List.mem_append_left _ ha, ?_⟩
      rcases hb with ⟨b1, b2⟩ | hb | hb
      · by_cases e : g = b
        · subst e
          exact Or.inr (Or.inr (Before.snoc ha g))
        · refine Or.inl ⟨?_, b2⟩
          simp only [List.mem_append, List.mem_singleton, not_or]
          exact ⟨b1, fun e2 => e e2.symm⟩
      · exact Or.inr (Or.inl hb)
      · exact Or.inr (Or.inr (hb.append _))
  · rw [eH, eC]
    rw [hH] at hinv hnH
    rcases hinv with ha | ⟨ha, hb⟩
    · exact Or.inl (List.mem_append_left _ ha)
    · by_cases e : g = a
      · exact Or.inl (by simp [e])
      · refine Or.inr ⟨mem_drop_mid ha (fun e2 => e e2.symm), ?_⟩
        rcases hb with ⟨b1, b2⟩ | hb | hb
        · refine Or.inl ⟨fun hm => b1 (mem_of_drop_mid g hm), ?_⟩
          simp only [List.mem_append, List.mem_singleton, not_or]
          refine ⟨b2, fun e2 => b1 ?_⟩
          rw [e2]; simp
        · exact Or.inr (Or.inl (List.mem_append_left _ hb))
        · by_cases e2 : g = b
          · exact Or.inr (Or.inl (by simp [e2]))
          · exact Or.inr (Or.inr (hb.erase_mid hnH e e2))
  · rw [eH, eC]
    rw [hC] at hinv
    simp only [mem_move_back]
    exact hinv
  · rw [eH, eC]
    rw [hH] at hinv hnH
    have hga := spared hwhy hca hva
    have hgb := spared hwhy hcb hvb
    rcases hinv with ha | ⟨ha, hb⟩
    · exact Or.inl ha
    · refine Or.inr ⟨mem_drop_mid ha (fun e2 => hga e2.symm), ?_⟩
      rcases hb with ⟨b1, b2⟩ | hb | hb
      · exact Or.inl ⟨fun hm => b1 (mem_of_drop_mid g hm), b2⟩
      · exact Or.inr (Or.inl hb)
      · exact Or.inr (Or.inr (hb.erase_mid hnH hga hgb))
  · rw [eH, eC]
    rw [hC] at hinv
    have hga := spared hwhy hca hva
    have hgb := spared hwhy hcb hvb
    rcases hinv with ha | ⟨ha, hb⟩
    · exact Or.inl (mem_drop_mid ha (fun e2 => hga e2.symm))
    · refine Or.inr ⟨ha, ?_⟩
      rcases hb with ⟨b1, b2⟩ | hb | hb
      · exact Or.inl ⟨b1, fun hm => b2 (mem_of_drop_mid g hm)⟩
      · exact Or.inr (Or.inl (mem_drop_mid hb (fun e2 => hgb e2.symm)))
      · exact Or.inr (Or.inr hb)

/-- The order of first recording is kept by every completed run of calls that
neither removes nor evicts one of the two frames. -/
theorem Fifo.fifo_run {a b : Int} (cs : List Call) : ∀ (r s : LRUKReplacer) (vs : List Ret),
    r.WF → Fifo a b r → (∀ c ∈ cs, c ≠ Call.Remove a ∧ c ≠ Call.Remove b) →
    run r cs = some (vs, s) → Ret.victim (some a) ∉ vs → Ret.victim (some b) ∉ vs →
    Fifo a b s := by
  induction cs with
  | nil =>
    intro r s vs _ hinv _ hrun _ _
    simp only [bustub.run, Option.some.injEq, Prod.mk.injEq] at hrun
    rw [← hrun.2]
    exact hinv
  | cons c cs ih =>
    intro r s vs h hinv hcs hrun hva hvb
    obtain ⟨v, t, ws, hcall, hrest, hvs⟩ := run_cons r s c cs vs hrun
    rw [hvs] at hva hvb
    have hstep := hinv.fifo_step (call_step r t c v h hcall) h (hcs c (by simp)).1
      (hcs c (by simp)).2 (fun e => hva (by simp [e])) (fun e => hvb (by simp [e]))
    exact ih t s ws (WF_call r t c v h hcall) hstep (fun d hd => hcs d (by simp [hd]))
      hrest (fun e => hva (by simp [e])) (fun e => hvb (by simp [e]))

/-- An access of `d` puts it behind every frame of the cache queue, at once or
when it reaches the cache queue. -/
theorem Lru.lru_first {c d : Int} {r t : LRUKReplacer} {v : Ret}
    (hs : Step r (Call.RecordAccess d) v t) (h : r.WF) (hc : c ∈ cids r) (hcd : c ≠ d) :
    Lru c d t := by
  unfold Lru
  rcases hs.ids h with ⟨hno, _, _⟩ | ⟨g, eg, gH, eH, eC⟩ | ⟨g, eg, _, _, eH, eC⟩ |
    ⟨g, p, q, eg, hH, eH, eC⟩ | ⟨g, p, q, eg, hC, eH, eC⟩ | ⟨g, p, q, hwhy, _, _, _⟩ |
    ⟨g, p, q, hwhy, _, _, _⟩
  · exact absurd rfl (hno d)
  · have e : d = g := Call.RecordAccess.inj eg
    subst e
    rw [eH, eC]
    exact ⟨hc, Or.inl gH⟩
  · have e : d = g := Call.RecordAccess.inj eg
    subst e
    rw [eH, eC]
    exact ⟨hc, Or.inl (by simp)⟩
  · have e : d = g := Call.RecordAccess.inj eg
    subst e
    rw [eH, eC]
    exact ⟨List.mem_append_left _ hc, Or.inr (Before.snoc hc d)⟩
  · have e : d = g := Call.RecordAccess.inj eg
    subst e
    rw [eH, eC]
    rw [hC] at hc
    have hc2 : c ∈ p ++ q := mem_drop_mid hc hcd
    exact ⟨List.mem_append_left _ hc2, Or.inr (Before.snoc hc2 d)⟩
  · rcases hwhy with ⟨e, _⟩ | e
    · exact Call.noConfusion e
    · exact Call.noConfusion e
  · rcases hwhy with ⟨e, _⟩ | e
    · exact Call.noConfusion e
    · exact Call.noConfusion e

/-- The order of the latest access is kept by every transition that does not
access `c` and neither removes nor evicts one of the two frames. -/
theorem Lru.lru_step {c d : Int} {r t : LRUKReplacer} {k : Call} {v : Ret}
    (hinv : Lru c d r) (hs : Step r k v t) (h : r.WF)
    (hkc : k ≠ Call.RecordAccess c)
    (hrc : k ≠ Call.Remove c) (hrd : k ≠ Call.Remove d)
    (hvc : v ≠ Ret.victim (some c)) (hvd : v ≠ Ret.victim (some d)) : Lru c d t := by
  have hn : (hids r ++ cids r).Nodup := h.1
  have hnC : (cids r).Nodup := (List.nodup_append.1 hn).2.1
  unfold Lru at hinv ⊢
  obtain ⟨hc, hd⟩ := hinv
  rcases hs.ids h with ⟨_, eH, eC⟩ | ⟨g, _, _, eH, eC⟩ | ⟨g, _, _, _, eH, eC⟩ |
    ⟨g, p, q, _, hH, eH, eC⟩ | ⟨g, p, q, eg, hC, eH, eC⟩ | ⟨g, p, q, hwhy, hH, eH, eC⟩ |
    ⟨g, p, q, hwhy, hC, eH, eC⟩
  · rw [eH, eC]; exact ⟨hc, hd⟩
  · rw [eH, eC]; exact ⟨hc, hd⟩
  · rw [eH, eC]
    rcases hd with hd | hd
    · exact ⟨hc, Or.inl (List.mem_append_left _ hd)⟩
    · exact ⟨hc, Or.inr hd⟩
  · rw [eH, eC]
    refine ⟨List.mem_append_left _ hc, ?_⟩
    rcases hd with hd | hd
    · by_cases e : g = d
      · subst e
        exact Or.inr (Before.snoc hc g)
      · rw [hH] at hd
        exact Or.inl (mem_drop_mid hd (fun e2 => e e2.symm))
    · exact Or.inr (hd.append _)
  · rw [eH, eC]
    have hgc : g ≠ c := fun e => hkc (by rw [eg, e])
    rw [hC] at hc hd hnC
    have hc2 : c ∈ p ++ q := mem_drop_mid hc (fun e => hgc e.symm)
    refine ⟨List.mem_append_left _ hc2, ?_⟩
    rcases hd with hd | hd
    · exact Or.inl hd
    · by_cases e : g = d
      · subst e
        exact Or.inr (Before.snoc hc2 g)
      · exact Or.inr (hd.move_back hnC hgc e)
  · rw [eH, eC]
    have hgd := spared hwhy hrd hvd
    refine ⟨hc, ?_⟩
    rcases hd with hd | hd
    · rw [hH] at hd
      exact Or.inl (mem_drop_mid hd (fun e2 => hgd e2.symm))
    · exact Or.inr hd
  · rw [eH, eC]
    have hgc := spared hwhy hrc hvc
    have hgd := spared hwhy hrd hvd
    rw [hC] at hc hd hnC
    refine ⟨mem_drop_mid hc (fun e2 => hgc e2.symm), ?_⟩
    rcases hd with hd | hd
    · exact Or.inl hd
    · exact Or.inr (hd.erase_mid hnC hgc hgd)

/-- The order of the latest access is kept by every completed run of calls that
does not access `c` and neither removes nor evicts one of the two frames. -/
theorem Lru.lru_run {c d : Int} (cs : List Call) : ∀ (r s : LRUKReplacer) (vs : List Ret),
    r.WF → Lru c d r →
    (∀ k ∈ cs, k ≠ Call.RecordAccess c ∧ k ≠ Call.Remove c ∧ k ≠ Call.Remove d) →
    run r cs = some (vs, s) → Ret.victim (some c) ∉ vs → Ret.victim (some d) ∉ vs →
    Lru c d s := by
  induction cs with
  | nil =>
    intro r s vs _ hinv _ hrun _ _
    simp only [bustub.run, Option.some.injEq, Prod.mk.injEq] at hrun
    rw [← hrun.2]
    exact hinv
  | cons k cs ih =>
    intro r s vs h hinv hcs hrun hvc hvd
    obtain ⟨v, t, ws, hcall, hrest, hvs⟩ := run_cons r s k cs vs hrun
    rw [hvs] at hvc hvd
    have hk := hcs k (by simp)
    have hstep := hinv.lru_step (call_step r t k v h hcall) h hk.1 hk.2.1 hk.2.2
      (fun e => hvc (by simp [e])) (fun e => hvd (by simp [e]))
    exact ih t s ws (WF_call r t k v h hcall) hstep (fun d hd => hcs d (by simp [hd]))
      hrest (fun e => hvc (by simp [e])) (fun e => hvd (by simp [e]))

/-- An evictable record that stands before the id `b` in the scan order is
evicted before `b`: the link from the order of ids to the order of eviction,
for the history queue. -/
theorem evict_order_history {a b : Int} (s : LRUKReplacer) (h : s.WF)
    (hbef : Before a b (hids s))
    (hev : ∀ x ∈ s.history_list_, x.GetId = a → x.IsEvictable = true) (n j : Nat)
    (hj : (evictN s n).1[j]? = some (some b)) :
    ∃ i : Nat, i < j ∧ (evictN s n).1[i]? = some (some a) := by
  obtain ⟨l1, x, rest, hl, hxa, hxb, hl1⟩ := hbef.split h.nodup_history
  have hl2 : s.history_list_ ++ s.cache_list_ = l1 ++ x :: (rest ++ s.cache_list_) := by
    simp [hl]
  have hxe := hev x (by simp [hl]) hxa
  have := LRUKReplacer.evictN_before n s l1 _ x b hl2 hxe hl1 hxb j hj
  rwa [hxa] at this

/-- The same link for the cache queue. -/
theorem evict_order_cache {c d : Int} (s : LRUKReplacer) (h : s.WF)
    (hbef : Before c d (cids s))
    (hev : ∀ x ∈ s.cache_list_, x.GetId = c → x.IsEvictable = true) (n j : Nat)
    (hj : (evictN s n).1[j]? = some (some d)) :
    ∃ i : Nat, i < j ∧ (evictN s n).1[i]? = some (some c) := by
  obtain ⟨l1, x, rest, hl, hxc, hxd, hl1⟩ := hbef.split h.nodup_cache
  have hl2 : s.history_list_ ++ s.cache_list_ = (s.history_list_ ++ l1) ++ x :: rest := by
    simp [hl]
  have hxe := hev x (by simp [hl]) hxc
  have hd : d ∈ cids s := hbef.mem_right
  obtain ⟨y0, hy0, hy0d⟩ := List.mem_map.1 hd
  have hpre : ∀ y ∈ s.history_list_ ++ l1, y.GetId ≠ d := by
    intro y hy
    rcases List.mem_append.1 hy with hy | hy
    · rw [← hy0d]
      exact h.disjoint hy hy0
    · exact hl1 y hy
  have := LRUKReplacer.evictN_before n s _ _ x d hl2 hxe hpre hxd j hj
  rwa [hxc] at this

/-- First recorded first evicted.  Let `a` be in the history queue of a
well-formed state and `b` be untracked.  After a completed run of calls that
neither removes nor evicts one of them and leaves both in the history queue,
`a` stands before `b` there; if the record of `a` is evictable, every run of
`Evict` calls that returns `b` has returned `a` before, and the next `Evict`
does not return `b`. -/
theorem fifo_recorded (r s : LRUKReplacer) (h : r.WF) (a b : Int) (cs : List Call)
    (vs : List Ret) (ha : a ∈ r.history_map_) (hb1 : b ∉ r.history_map_)
    (hb2 : b ∉ r.cache_map_) (hrun : run r cs = some (vs, s))
    (hcs : ∀ c ∈ cs, c ≠ Call.Remove a ∧ c ≠ Call.Remove b)
    (hva : Ret.victim (some a) ∉ vs) (hvb : Ret.victim (some b) ∉ vs)
    (hsa : a ∈ s.history_map_) (hsb : b ∈ s.history_map_)
    (hev : ∀ x ∈ s.history_list_, x.GetId = a → x.IsEvictable = true) :
    Before a b (hids s) ∧
    (∀ n j : Nat, (evictN s n).1[j]? = some (some b) →
      ∃ i : Nat, i < j ∧ (evictN s n).1[i]? = some (some a)) ∧
    s.Evict.1 ≠ some b := by
  have hws : s.WF := WF_run cs r s vs h hrun
  have h0 : Fifo a b r :=
    Or.inr ⟨(h.mem_hids a).1 ha,
      Or.inl ⟨fun e => hb1 ((h.mem_hids b).2 e), fun e => hb2 ((h.mem_cids b).2 e)⟩⟩
  have hfin := Fifo.fifo_run cs r s vs h h0 hcs hrun hva hvb
  have hbef : Before a b (hids s) := by
    rcases hfin with hc | ⟨_, hb | hb | hb⟩
    · exact absurd ((hws.mem_cids a).2 hc) (hws.not_both a hsa)
    · exact absurd ((hws.mem_hids b).1 hsb) hb.1
    · exact absurd ((hws.mem_cids b).2 hb) (hws.not_both b hsb)
    · exact hb
  have hord := evict_order_history s hws hbef hev
  refine ⟨hbef, hord, ?_⟩
  intro he
  obtain ⟨i, hi, _⟩ := hord 1 0 (by simp [evictN, he])
  omega

/-- Least recently accessed first evicted.  Let `c` be in the cache queue of a
well-formed state and let `d` be accessed.  After a completed run of further
calls that does not access `c` again, neither removes nor evicts one of them,
and leaves `d` in the cache queue, `c` stands before `d` there; if the record of
`c` is evictable, every run of `Evict` calls that returns `d` has returned `c`
before, and the next `Evict` does not return `d`. -/
theorem lru_accessed (r s : LRUKReplacer) (h : r.WF) (c d : Int) (cs : List Call)
    (vs : List Ret) (hc : c ∈ r.cache_map_) (hcd : c ≠ d)
    (hrun : run r (Call.RecordAccess d :: cs) = some (vs, s))
    (hcs : ∀ k ∈ cs, k ≠ Call.RecordAccess c ∧ k ≠ Call.Remove c ∧ k ≠ Call.Remove d)
    (hvc : Ret.victim (some c) ∉ vs) (hvd : Ret.victim (some d) ∉ vs)
    (hsd : d ∈ s.cache_map_)
    (hev : ∀ x ∈ s.cache_list_, x.GetId = c → x.IsEvictable = true) :
    Before c d (cids s) ∧
    (∀ n j : Nat, (evictN s n).1[j]? = some (some d) →
      ∃ i : Nat, i < j ∧ (evictN s n).1[i]? = some (some c)) ∧
    s.Evict.1 ≠ some d := by
  obtain ⟨v, t, ws, hcall, hrest, hvs⟩ := run_cons r s _ cs vs hrun
  rw [hvs] at hvc hvd
  have hwt : t.WF := WF_call r t _ v h hcall
  have hws : s.WF := WF_run cs t s ws hwt hrest
  have h0 : Lru c d t := Lru.lru_first (call_step r t _ v h hcall) h ((h.mem_cids c).1 hc) hcd
  have hfin := Lru.lru_run cs t s ws hwt h0 hcs hrest (fun e => hvc (by simp [e]))
    (fun e => hvd (by simp [e]))
  have hbef : Before c d (cids s) := by
    rcases hfin.2 with hd | hd
    · exact absurd hsd (hws.not_both d ((hws.mem_hids d).2 hd))
    · exact hd
  have hord := evict_order_cache s hws hbef hev
  refine ⟨hbef, hord, ?_⟩
  intro he
  obtain ⟨i, hi, _⟩ := hord 1 0 (by simp [evictN, he])
  omega

/-! ## The access counter along transitions -/

theorem list_mem_swap {α : Type} {x z : α} (w : α) {pre post : List α}
    (hx : x ∈ pre ++ z :: post) (hne : x ≠ z) : x ∈ pre ++ w :: post := by
  simp only [List.mem_append, List.mem_cons] at hx ⊢
  tauto

theorem list_mem_drop {α : Type} {x z : α} {pre post : List α}
    (hx : x ∈ pre ++ z :: post) (hne : x ≠ z) : x ∈ pre ++ post := by
  simp only [List.mem_append, List.mem_cons] at hx ⊢
  tauto

theorem list_mem_back {α : Type} {x z : α} {pre post : List α}
    (hx : x ∈ pre ++ z :: post) : x ∈ pre ++ post ++ [z] := by
  simp only [List.mem_append, List.mem_cons, List.mem_singleton, List.not_mem_nil,
    or_false] at hx ⊢
  tauto

/-- A transition leaves the record of every frame it is not about where it is
and as it is. -/
theorem Step.keeps {r t : LRUKReplacer} {c : Call} {v : Ret} (hs : Step r c v t)
    (x : FrameInfo) (h1 : c ≠ Call.RecordAccess x.GetId)
    (h2 : ∀ b, c ≠ Call.SetEvictable x.GetId b) (h3 : c ≠ Call.Remove x.GetId)
    (h4 : v ≠ Ret.victim (some x.GetId)) :
    (x ∈ r.history_list_ → x ∈ t.history_list_) ∧
    (x ∈ r.cache_list_ → x ∈ t.cache_list_) := by
  cases hs with
  | accessUnseen f hcap hh hc =>
    exact ⟨fun hx => List.mem_append_left _ hx, fun hx => hx⟩
  | accessStay pre post z hl hcap hk =>
    clear hcap
    have hne : x ≠ z := fun e => h1 (by rw [e])
    exact ⟨fun hx => list_mem_swap _ (hl ▸ hx) hne, fun hx => hx⟩
  | accessPromote pre post z hl hcap hk =>
    clear hcap
    have hne : x ≠ z := fun e => h1 (by rw [e])
    exact ⟨fun hx => list_mem_drop (hl ▸ hx) hne, fun hx => List.mem_append_left _ hx⟩
  | accessCache pre post z hl hcap =>
    clear hcap
    exact ⟨fun hx => hx, fun hx => list_mem_back (hl ▸ hx)⟩
  | setUntracked f b hh hc => exact ⟨fun hx => hx, fun hx => hx⟩
  | setHistory pre post z b hl =>
    have hne : x ≠ z := fun e => h2 b (by rw [e])
    exact ⟨fun hx => list_mem_swap _ (hl ▸ hx) hne, fun hx => hx⟩
  | setCache pre post z b hl =>
    have hne : x ≠ z := fun e => h2 b (by rw [e])
    exact ⟨fun hx => hx, fun hx => list_mem_swap _ (hl ▸ hx) hne⟩
  | evictHistory pre post z hl hpre hz =>
    have hne : x ≠ z := fun e => h4 (by rw [e])
    exact ⟨fun hx => list_mem_drop (hl ▸ hx) hne, fun hx => hx⟩
  | evictCache pre post z hh hl hpre hz =>
    have hne : x ≠ z := fun e => h4 (by rw [e])
    exact ⟨fun hx => hx, fun hx => list_mem_drop (hl ▸ hx) hne⟩
  | evictNone hh hc => exact ⟨fun hx => hx, fun hx => hx⟩
  | removeUntracked f hh hc => exact ⟨fun hx => hx, fun hx => hx⟩
  | removeHistory pre post z hl hz =>
    have hne : x ≠ z := fun e => h3 (by rw [e])
    exact ⟨fun hx => list_mem_drop (hl ▸ hx) hne, fun hx => hx⟩
  | removeCache pre post z hl hz =>
    have hne : x ≠ z := fun e => h3 (by rw [e])
    exact ⟨fun hx => hx, fun hx => list_mem_drop (hl ▸ hx) hne⟩
  | size => exact ⟨fun hx => hx, fun hx => hx⟩

/-- `SetEvictable` leaves the counter of its frame and the queue it is in. -/
theorem Step.set_times {r t : LRUKReplacer} {c : Call} {v : Ret} (hs : Step r c v t)
    (x : FrameInfo) (b : Bool) (hc : c = Call.SetEvictable x.GetId b) :
    (x ∈ r.history_list_ →
      ∃ y ∈ t.history_list_, y.GetId = x.GetId ∧ y.times_ = x.times_) ∧
    (x ∈ r.cache_list_ →
      ∃ y ∈ t.cache_list_, y.GetId = x.GetId ∧ y.times_ = x.times_) := by
  cases hs with
  | accessUnseen f hcap hh hc2 => exact Call.noConfusion hc
  | accessStay pre post z hl hcap hk => exact Call.noConfusion hc
  | accessPromote pre post z hl hcap hk => exact Call.noConfusion hc
  | accessCache pre post z hl hcap => exact Call.noConfusion hc
  | setUntracked f b2 hh hc2 =>
    exact ⟨fun hx => ⟨x, hx, rfl, rfl⟩, fun hx => ⟨x, hx, rfl, rfl⟩⟩
  | setHistory pre post z b2 hl =>
    refine ⟨fun hx => ?_, fun hx => ⟨x, hx, rfl, rfl⟩⟩
    by_cases e : x = z
    · subst e
      exact ⟨x.SetEvictable b2, by simp, rfl, rfl⟩
    · exact ⟨x, list_mem_swap _ (hl ▸ hx) e, rfl, rfl⟩
  | setCache pre post z b2 hl =>
    refine ⟨fun hx => ⟨x, hx, rfl, rfl⟩, fun hx => ?_⟩
    by_cases e : x = z
    · subst e
      exact ⟨x.SetEvictable b2, by simp, rfl, rfl⟩
    · exact ⟨x, list_mem_swap _ (hl ▸ hx) e, rfl, rfl⟩
  | evictHistory pre post z hl hpre hz => exact Call.noConfusion hc
  | evictCache pre post z hh hl hpre hz => exact Call.noConfusion hc
  | evictNone hh hc2 => exact Call.noConfusion hc
  | removeUntracked f hh hc2 => exact Call.noConfusion hc
  | removeHistory pre post z hl hz => exact Call.noConfusion hc
  | removeCache pre post z hl hz => exact Call.noConfusion hc
  | size => exact Call.noConfusion hc

/-- `RecordAccess(f)` on a well-formed state: an untracked frame gets a record
with counter 1 in the history queue; the counter of a frame of the history
queue grows by one, and the record stays there below K and moves to the cache
queue otherwise; the record of a frame of the cache queue stays as it is. -/
theorem Step.access_times {r t : LRUKReplacer} {c : Call} {v : Ret} (hs : Step r c v t)
    (h : r.WF) (f : Int) (hc : c = Call.RecordAccess f) :
    (f ∉ r.history_map_ → f ∉ r.cache_map_ →
      ∃ y ∈ t.history_list_, y.GetId = f ∧ y.times_ = 1) ∧
    (∀ x ∈ r.history_list_, x.GetId = f →
      ∃ y : FrameInfo, y.GetId = f ∧ y.times_ = x.times_ + 1 ∧
        ((x.times_ + 1 < r.k_ ∧ y ∈ t.history_list_) ∨
         (r.k_ ≤ x.times_ + 1 ∧ y ∈ t.cache_list_))) ∧
    (∀ x ∈ r.cache_list_, x.GetId = f → x ∈ t.cache_list_) := by
  cases hs with
  | accessUnseen g hcap hh hc2 =>
    clear hcap
    have e : g = f := Call.RecordAccess.inj hc
    subst e
    refine ⟨fun _ _ => ⟨{ frame_id_ := g, times_ := 1, evictable_ := true }, by simp,
      rfl, rfl⟩, ?_, fun x hx _ => hx⟩
    intro x hx hxg
    exact absurd ((h.mem_history g).2 ⟨x, hx, hxg⟩) hh
  | accessStay pre post z hl hcap hk =>
    clear hcap
    have e : z.GetId = f := Call.RecordAccess.inj hc
    subst e
    refine ⟨fun hh _ => absurd (h.history_split hl).1 hh, ?_, fun x hx _ => hx⟩
    intro x hx hxz
    have exz : x = z := h.record_unique (List.mem_append_left _ hx)
      (List.mem_append_left _ (by simp [hl])) hxz
    subst exz
    exact ⟨x.IncreaseTimes, rfl, rfl, Or.inl ⟨hk, by simp⟩⟩
  | accessPromote pre post z hl hcap hk =>
    clear hcap
    have e : z.GetId = f := Call.RecordAccess.inj hc
    subst e
    refine ⟨fun hh _ => absurd (h.history_split hl).1 hh, ?_,
      fun x hx _ => List.mem_append_left _ hx⟩
    intro x hx hxz
    have exz : x = z := h.record_unique (List.mem_append_left _ hx)
      (List.mem_append_left _ (by simp [hl])) hxz
    subst exz
    exact ⟨x.IncreaseTimes, rfl, rfl, Or.inr ⟨hk, by simp⟩⟩
  | accessCache pre post z hl hcap =>
    clear hcap
    have e : z.GetId = f := Call.RecordAccess.inj hc
    subst e
    refine ⟨fun _ hcm => absurd (h.cache_split hl).1 hcm, ?_,
      fun x hx _ => list_mem_back (hl ▸ hx)⟩
    intro x hx hxz
    exact absurd hxz (h.disjoint hx (by simp [hl]))
  | setUntracked g b hh hc2 => exact Call.noConfusion hc
  | setHistory pre post z b hl => exact Call.noConfusion hc
  | setCache pre post z b hl => exact Call.noConfusion hc
  | evictHistory pre post z hl hpre hz => exact Call.noConfusion hc
  | evictCache pre post z hh hl hpre hz => exact Call.noConfusion hc
  | evictNone hh hc2 => exact Call.noConfusion hc
  | removeUntracked g hh hc2 => exact Call.noConfusion hc
  | removeHistory pre post z hl hz => exact Call.noConfusion hc
  | removeCache pre post z hl hz => exact Call.noConfusion hc
  | size => exact Call.noConfusion hc

/-- One transition that neither removes nor evicts `f` moves the count of
accesses on by one when it is an access of `f`, and leaves it otherwise. -/
theorem CountIs.count_step {f : Int} {m : Nat} {r t : LRUKReplacer} {c : Call} {v : Ret}
    (hinv : CountIs f m r) (hs : Step r c v t) (h : r.WF) (ht : t.WF)
    (hr : c ≠ Call.Remove f) (hv : v ≠ Ret.victim (some f)) :
    CountIs f (m + (if c = Call.RecordAccess f then 1 else 0)) t := by
  have hk : t.k_ = r.k_ := hs.records.2.1
  unfold CountIs at hinv ⊢
  rw [hk]
  by_cases hc : c = Call.RecordAccess f
  · rw [if_pos hc]
    obtain ⟨a1, a2, a3⟩ := hs.access_times h f hc
    rcases hinv with ⟨m0, hh, hcm⟩ | ⟨m1, x, hxf, hxt, hloc⟩
    · obtain ⟨y, hy, hyf, hyt⟩ := a1 hh hcm
      refine Or.inr ⟨by omega, y, hyf, ?_, Or.inl ⟨by omega, hy⟩⟩
      rw [hyt]; omega
    · rcases hloc with ⟨hlt, hx⟩ | ⟨hge, hx⟩
      · obtain ⟨y, hyf, hyt, hy⟩ := a2 x hx hxf
        refine Or.inr ⟨by omega, y, hyf, by rw [hyt, hxt]; omega, ?_⟩
        rcases hy with ⟨hy1, hy2⟩ | ⟨hy1, hy2⟩
        · exact Or.inl ⟨by omega, hy2⟩
        · exact Or.inr ⟨by omega, hy2⟩
      · exact Or.inr ⟨by omega, x, hxf, by rw [hxt]; omega,
          Or.inr ⟨by omega, a3 x hx hxf⟩⟩
  · rw [if_neg hc, Nat.add_zero]
    rcases hinv with ⟨m0, hh, hcm⟩ | ⟨m1, x, hxf, hxt, hloc⟩
    · refine Or.inl ⟨m0, ?_, ?_⟩
      · intro hm
        obtain ⟨y, hy, hyf⟩ := (ht.mem_history f).1 hm
        rcases hs.records.2.2 y (List.mem_append_left _ hy) with ⟨x, hx, hxy⟩ | ⟨hcy, _⟩
        · rcases List.mem_append.1 hx with hx | hx
          · exact hh ((h.mem_history f).2 ⟨x, hx, hxy.trans hyf⟩)
          · exact hcm ((h.mem_cache f).2 ⟨x, hx, hxy.trans hyf⟩)
        · exact hc (by rw [hcy, hyf])
      · intro hm
        obtain ⟨y, hy, hyf⟩ := (ht.mem_cache f).1 hm
        rcases hs.records.2.2 y (List.mem_append_right _ hy) with ⟨x, hx, hxy⟩ | ⟨hcy, _⟩
        · rcases List.mem_append.1 hx with hx | hx
          · exact hh ((h.mem_history f).2 ⟨x, hx, hxy.trans hyf⟩)
          · exact hcm ((h.mem_cache f).2 ⟨x, hx, hxy.trans hyf⟩)
        · exact hc (by rw [hcy, hyf])
    · subst hxf
      by_cases hset : ∃ b, c = Call.SetEvictable x.GetId b
      · obtain ⟨b, hb⟩ := hset
        obtain ⟨s1, s2⟩ := hs.set_times x b hb
        rcases hloc with ⟨hlt, hx⟩ | ⟨hge, hx⟩
        · obtain ⟨y, hy, hyf, hyt⟩ := s1 hx
          exact Or.inr ⟨m1, y, hyf, hyt.trans hxt, Or.inl ⟨hlt, hy⟩⟩
        · obtain ⟨y, hy, hyf, hyt⟩ := s2 hx
          exact Or.inr ⟨m1, y, hyf, hyt.trans hxt, Or.inr ⟨hge, hy⟩⟩
      · obtain ⟨k1, k2⟩ := hs.keeps x hc (fun b e => hset ⟨b, e⟩) hr hv
        rcases hloc with ⟨hlt, hx⟩ | ⟨hge, hx⟩
        · exact Or.inr ⟨m1, x, rfl, hxt, Or.inl ⟨hlt, k1 hx⟩⟩
        · exact Or.inr ⟨m1, x, rfl, hxt, Or.inr ⟨hge, k2 hx⟩⟩

/-- Over a completed run of calls that neither removes nor evicts `f` the count
moves on by the number of accesses of `f` in the run. -/
theorem CountIs.count_run {f : Int} (cs : List Call) :
    ∀ (r s : LRUKReplacer) (vs : List Ret) (m : Nat),
    r.WF → CountIs f m r → (∀ c ∈ cs, c ≠ Call.Remove f) →
    run r cs = some (vs, s) → Ret.victim (some f) ∉ vs →
    CountIs f (m + cs.count (Call.RecordAccess f)) s := by
  induction cs with
  | nil =>
    intro r s vs m _ hinv _ hrun _
    simp only [bustub.run, Option.some.injEq, Prod.mk.injEq] at hrun
    rw [← hrun.2]
    simpa using hinv
  | cons c cs ih =>
    intro r s vs m h hinv hcs hrun hvs
    obtain ⟨v, t, ws, hcall, hrest, hvs2⟩ := run_cons r s c cs vs hrun
    rw [hvs2] at hvs
    have hwt : t.WF := WF_call r t c v h hcall
    have hstep := hinv.count_step (call_step r t c v h hcall) h hwt (hcs c (by simp))
      (fun e => hvs (by simp [e]))
    have hfin := ih t s ws _ hwt hstep (fun d hd => hcs d (by simp [hd])) hrest
      (fun e => hvs (by simp [e]))
    have hcount : m + (c :: cs).count (Call.RecordAccess f) =
        m + (if c = Call.RecordAccess f then 1 else 0) + cs.count (Call.RecordAccess f) := by
      rw [List.count_cons]
      by_cases e : c = Call.RecordAccess f
      · simp [e]; omega
      · simp [e]
    rw [hcount]
    exact hfin

/-! ## The claims -/

namespace LRUKReplacer

/-- C1. `Evict` takes the first evictable record of the history queue, scanned
from the front, when there is one; otherwise the first evictable record of the
cache queue; otherwise it reports no victim and leaves the state as it was.  On
success the chosen record alone leaves its queue, its id leaves that queue's
index, and nothing else changes.  The three cases are exhaustive and exclude
each other, so a cache record is never returned while the history queue has an
evictable record. -/
theorem C1_Evict_order (r : LRUKReplacer) :
    (∃ pre x post, r.history_list_ = pre ++ x :: post ∧
        (∀ y ∈ pre, y.IsEvictable = false) ∧ x.IsEvictable = true ∧
        r.Evict = (some x.GetId, { r with history_list_ := pre ++ post,
                                          history_map_ := r.history_map_.erase x.GetId })) ∨
    ((∀ y ∈ r.history_list_, y.IsEvictable = false) ∧
      ∃ pre x post, r.cache_list_ = pre ++ x :: post ∧
        (∀ y ∈ pre, y.IsEvictable = false) ∧ x.IsEvictable = true ∧
        r.Evict = (some x.GetId, { r with cache_list_ := pre ++ post,
                                          cache_map_ := r.cache_map_.erase x.GetId })) ∨
    ((∀ y ∈ r.history_list_, y.IsEvictable = false) ∧
      (∀ y ∈ r.cache_list_, y.IsEvictable = false) ∧ r.Evict = (none, r)) := by
  rcases first_evictable r.history_list_ with hh | ⟨pre, x, post, hl, hpre, hx⟩
  · rcases first_evictable r.cache_list_ with hc | ⟨pre, x, post, hl, hpre, hx⟩
    · exact Or.inr (Or.inr ⟨hh, hc, Evict_none r hh hc⟩)
    · exact Or.inr (Or.inl ⟨hh, pre, x, post, hl, hpre, hx,
        Evict_cache r pre post x hh hl hpre hx⟩)
  · exact Or.inl ⟨pre, x, post, hl, hpre, hx, Evict_history r pre post x hl hpre hx⟩

end LRUKReplacer

/-- C2 as stated is false: in the scenario with K = 2 and capacity 5 the `Size`
call that follows the first `Evict` does not return 2. -/
theorem C2_scenario_as_stated_fails :
    (run (LRUKReplacer.new 5 2)
      [Call.RecordAccess 1, Call.RecordAccess 2, Call.RecordAccess 3, Call.RecordAccess 1,
       Call.Size, Call.SetEvictable 2 false, Call.Evict, Call.Size, Call.Evict,
       Call.Evict]).map Prod.fst
      ≠ some [Ret.done, Ret.done, Ret.done, Ret.done, Ret.size 3, Ret.done,
              Ret.victim (some 3), Ret.size 2, Ret.victim (some 1), Ret.victim none] := by
  decide

/-- C2, amended. The end-to-end scenario with K = 2 and capacity 5: after the
accesses 1, 2, 3, 1 `Size` gives 3; after frame 2 is made non-evictable `Evict`
gives 3, the `Size` called next gives 1, the next `Evict` gives 1 and the last
`Evict` finds no victim.  (The value 2 is what `Size` gives between
`SetEvictable(2, false)` and the first `Evict`.) -/
theorem C2_scenario :
    (run (LRUKReplacer.new 5 2)
      [Call.RecordAccess 1, Call.RecordAccess 2, Call.RecordAccess 3, Call.RecordAccess 1,
       Call.Size, Call.SetEvictable 2 false, Call.Evict, Call.Size, Call.Evict,
       Call.Evict]).map Prod.fst
      = some [Ret.done, Ret.done, Ret.done, Ret.done, Ret.size 3, Ret.done,
              Ret.victim (some 3), Ret.size 1, Ret.victim (some 1), Ret.victim none] ∧
    (run (LRUKReplacer.new 5 2)
      [Call.RecordAccess 1, Call.RecordAccess 2, Call.RecordAccess 3, Call.RecordAccess 1,
       Call.SetEvictable 2 false, Call.Size]).map Prod.fst
      = some [Ret.done, Ret.done, Ret.done, Ret.done, Ret.done, Ret.size 2] := by
  decide

/-- C3 at K = 1. On a fresh replacer with K = 1 and capacity 5 the first access
of frame 0 leaves its record in the history queue with counter 1 and the cache
queue empty; the record reaches the cache queue on the second access. -/
theorem C3_threshold_K1 :
    accessN (LRUKReplacer.new 5 1) 0 1 =
      Outcome.ok { replacer_size_ := 5, k_ := 1,
                   history_list_ := [{ frame_id_ := 0, times_ := 1, evictable_ := true }],
                   cache_list_ := [], history_map_ := {0}, cache_map_ := ∅ } ∧
    accessN (LRUKReplacer.new 5 1) 0 2 =
      Outcome.ok { replacer_size_ := 5, k_ := 1, history_list_ := [],
                   cache_list_ := [{ frame_id_ := 0, times_ := 2, evictable_ := true }],
                   history_map_ := ∅, cache_map_ := {0} } := by
  decide

namespace LRUKReplacer

/-- C4. History FIFO.  In a well-formed state, `RecordAccess` on a frame of the
history queue whose counter stays below K changes nothing but that counter,
which grows by one: the order of the history queue, the cache queue and both
indices stay.  Consequently first recorded is first evicted: if `a` is in the
history queue when `b` is still untracked, then after every completed run of
calls that neither removes nor evicts one of them and leaves both in the
history queue, `a` stands before `b` in the history queue, and when the record
of `a` is evictable any run of `Evict` calls that returns `b` has returned `a`
before, so the next `Evict` does not return `b`.  In terms of positions: of two
records of the history queue, the one nearer to the front being evictable, any
run of `Evict` calls that returns the later one has returned the earlier one
before. -/
theorem C4_history_fifo (r : LRUKReplacer) (h : WF r) :
    (∀ pre x post, r.history_list_ = pre ++ x :: post →
      x.GetId ≤ toInt r.replacer_size_ → x.times_ + 1 < r.k_ →
      r.RecordAccess x.GetId =
        Outcome.ok { r with history_list_ := pre ++ { x with times_ := x.times_ + 1 } :: post }) ∧
    (∀ l1 a l2 b l3, r.history_list_ = l1 ++ a :: l2 ++ b :: l3 →
      a.IsEvictable = true → b.IsEvictable = true →
      ∀ n j : Nat, (evictN r n).1[j]? = some (some b.GetId) →
        ∃ i : Nat, i < j ∧ (evictN r n).1[i]? = some (some a.GetId)) ∧
    (∀ (a b : Int) (cs : List Call) (vs : List Ret) (s : LRUKReplacer),
      a ∈ r.history_map_ → b ∉ r.history_map_ → b ∉ r.cache_map_ →
      run r cs = some (vs, s) →
      (∀ c ∈ cs, c ≠ Call.Remove a ∧ c ≠ Call.Remove b) →
      Ret.victim (some a) ∉ vs → Ret.victim (some b) ∉ vs →
      a ∈ s.history_map_ → b ∈ s.history_map_ →
      (∀ x ∈ s.history_list_, x.GetId = a → x.IsEvictable = true) →
      (∀ x ∈ s.history_list_, x.GetId = b → x.IsEvictable = true) →
      Before a b (hids s) ∧
      (∀ n j : Nat, (evictN s n).1[j]? = some (some b) →
        ∃ i : Nat, i < j ∧ (evictN s n).1[i]? = some (some a)) ∧
      s.Evict.1 ≠ some b) := by
  refine ⟨?_, ?_, ?_⟩
  · intro pre x post hl hcap hk
    exact RecordAccess_history_stay r pre post x h hcap hl hk
  · intro l1 a l2 b l3 hl ha _ n j hj
    have hn := h.nodup_history
    rw [hl] at hn
    have hne := ids_before_ne (l1 ++ a :: l2) l3 b hn
    have hl2 : r.history_list_ ++ r.cache_list_
        = l1 ++ a :: (l2 ++ b :: l3 ++ r.cache_list_) := by simp [hl]
    exact evictN_before n r l1 _ a b.GetId hl2 ha
      (fun y hy => hne y (by simp [hy])) (hne a (by simp)) j hj
  · intro a b cs vs s ha hb1 hb2 hrun hcs hva hvb hsa hsb hea _
    exact fifo_recorded r s h a b cs vs ha hb1 hb2 hrun hcs hva hvb hsa hsb hea

/-- C4 on sample states: frame 1 is accessed in place; two `Evict` calls on the
sample state return frame 1 before frame 3; and on `fifoStart`, where frame 1 is
recorded and frame 2 is not, the run `fifoCalls` records frame 2, accesses
frame 1 again and moves frame 3 through the history queue into the cache queue,
after which frame 1 still stands before frame 2 and is evicted first. -/
theorem C4_history_fifo_witness :
    WF sampleState ∧
    sampleState.RecordAccess 1 =
      Outcome.ok { sampleState with
        history_list_ := [{ frame_id_ := 1, times_ := 2, evictable_ := true },
                          { frame_id_ := 2, times_ := 2, evictable_ := false },
                          { frame_id_ := 3, times_ := 1, evictable_ := true }] } ∧
    (evictN sampleState 2).1[1]? = some (some 3) ∧
    (∃ i : Nat, i < 1 ∧ (evictN sampleState 2).1[i]? = some (some 1)) ∧
    WF fifoStart ∧
    run fifoStart fifoCalls =
      some ([Ret.done, Ret.done, Ret.done, Ret.done, Ret.done, Ret.done], fifoEnd) ∧
    (evictN fifoEnd 2).1 = [some 1, some 2] ∧
    (Before 1 2 (hids fifoEnd) ∧
      (∀ n j : Nat, (evictN fifoEnd n).1[j]? = some (some 2) →
        ∃ i : Nat, i < j ∧ (evictN fifoEnd n).1[i]? = some (some 1)) ∧
      fifoEnd.Evict.1 ≠ some 2) :=
  ⟨by decide,
   (C4_history_fifo sampleState (by decide)).1 []
     { frame_id_ := 1, times_ := 1, evictable_ := true }
     [{ frame_id_ := 2, times_ := 2, evictable_ := false },
      { frame_id_ := 3, times_ := 1, evictable_ := true }] rfl (by decide) (by decide),
   by decide,
   (C4_history_fifo sampleState (by decide)).2.1 []
     { frame_id_ := 1, times_ := 1, evictable_ := true }
     [{ frame_id_ := 2, times_ := 2, evictable_ := false }]
     { frame_id_ := 3, times_ := 1, evictable_ := true } [] rfl rfl rfl 2 1 (by decide),
   by decide, by decide, by decide,
   (C4_history_fifo fifoStart (by decide)).2.2 1 2 fifoCalls
     [Ret.done, Ret.done, Ret.done, Ret.done, Ret.done, Ret.done] fifoEnd
     (by decide) (by decide) (by decide) (by decide) (by decide) (by decide) (by decide)
     (by decide) (by decide) (by decide) (by decide)⟩

/-- C5. Cache LRU.  In a well-formed state, `RecordAccess` on a frame of the
cache queue moves its record to the back of the cache queue; the other cache
records keep their order, and the history queue and both indices stay.  When
the history queue has no evictable record, `Evict` returns the evictable record
nearest to the front of the cache queue.  That record is the one accessed least
recently: if `c` is in the cache queue when `d` is accessed, then after every
completed run of further calls that does not access `c` again, neither removes
nor evicts one of them and leaves `d` in the cache queue, `c` stands before `d`
in the cache queue, and when the record of `c` is evictable any run of `Evict`
calls that returns `d` has returned `c` before, so the next `Evict` does not
return `d`.  In terms of positions: of two records of the cache queue, the one
nearer to the front being evictable, any run of `Evict` calls that returns the
later one has returned the earlier one before. -/
theorem C5_cache_lru (r : LRUKReplacer) (h : WF r) :
    (∀ pre x post, r.cache_list_ = pre ++ x :: post →
      x.GetId ≤ toInt r.replacer_size_ →
      r.RecordAccess x.GetId = Outcome.ok { r with cache_list_ := pre ++ post ++ [x] }) ∧
    ((∀ y ∈ r.history_list_, y.IsEvictable = false) →
      ∀ pre x post, r.cache_list_ = pre ++ x :: post →
        (∀ y ∈ pre, y.IsEvictable = false) → x.IsEvictable = true →
        r.Evict = (some x.GetId, { r with cache_list_ := pre ++ post,
                                          cache_map_ := r.cache_map_.erase x.GetId })) ∧
    (∀ l1 c l2 d l3, r.cache_list_ = l1 ++ c :: l2 ++ d :: l3 →
      c.IsEvictable = true → d.IsEvictable = true →
      ∀ n j : Nat, (evictN r n).1[j]? = some (some d.GetId) →
        ∃ i : Nat, i < j ∧ (evictN r n).1[i]? = some (some c.GetId)) ∧
    (∀ (c d : Int) (cs : List Call) (vs : List Ret) (s : LRUKReplacer),
      c ∈ r.cache_map_ → c ≠ d →
      run r (Call.RecordAccess d :: cs) = some (vs, s) →
      (∀ k ∈ cs, k ≠ Call.RecordAccess c ∧ k ≠ Call.Remove c ∧ k ≠ Call.Remove d) →
      Ret.victim (some c) ∉ vs → Ret.victim (some d) ∉ vs →
      d ∈ s.cache_map_ →
      (∀ x ∈ s.cache_list_, x.GetId = c → x.IsEvictable = true) →
      (∀ x ∈ s.cache_list_, x.GetId = d → x.IsEvictable = true) →
      Before c d (cids s) ∧
      (∀ n j : Nat, (evictN s n).1[j]? = some (some d) →
        ∃ i : Nat, i < j ∧ (evictN s n).1[i]? = some (some c)) ∧
      s.Evict.1 ≠ some d) := by
  refine ⟨?_, ?_, ?_, ?_⟩
  · intro pre x post hl hcap
    exact RecordAccess_cache r pre post x h hcap hl
  · intro hh pre x post hl hpre hx
    exact Evict_cache r pre post x hh hl hpre hx
  · intro l1 c l2 d l3 hl hc _ n j hj
    have hn := h.nodup_cache
    rw [hl] at hn
    have hne := ids_before_ne (l1 ++ c :: l2) l3 d hn
    have hl2 : r.history_list_ ++ r.cache_list_
        = (r.history_list_ ++ l1) ++ c :: (l2 ++ d :: l3) := by simp [hl]
    refine evictN_before n r _ _ c d.GetId hl2 hc ?_ (hne c (by simp)) j hj
    intro y hy
    rcases List.mem_append.1 hy with hy | hy
    · exact h.disjoint hy (by simp [hl])
    · exact hne y (by simp [hy])
  · intro c d cs vs s hc hcd hrun hcs hvc hvd hsd hec _
    exact lru_accessed r s h c d cs vs hc hcd hrun hcs hvc hvd hsd hec

/-- C5 on the sample state whose history queue is pinned: frame 4 moves to the
back of the cache queue when accessed, `Evict` takes frame 4, and two `Evict`
calls return frame 4 before frame 6.  And when frame 6 is accessed and the run
`lruCalls` follows, in which frame 5 is accessed and frame 2 moves to the cache
queue while frame 4 is not accessed, frame 4 stands before frame 6 and is
evicted first. -/
theorem C5_cache_lru_witness :
    WF warmState ∧
    warmState.RecordAccess 4 =
      Outcome.ok { warmState with
        cache_list_ := [{ frame_id_ := 5, times_ := 3, evictable_ := false },
                        { frame_id_ := 6, times_ := 2, evictable_ := true },
                        { frame_id_ := 4, times_ := 2, evictable_ := true }] } ∧
    warmState.Evict =
      (some 4, { warmState with
        cache_list_ := [{ frame_id_ := 5, times_ := 3, evictable_ := false },
                        { frame_id_ := 6, times_ := 2, evictable_ := true }],
        cache_map_ := warmState.cache_map_.erase 4 }) ∧
    (evictN warmState 2).1[1]? = some (some 6) ∧
    (∃ i : Nat, i < 1 ∧ (evictN warmState 2).1[i]? = some (some 4)) ∧
    run warmState (Call.RecordAccess 6 :: lruCalls) =
      some ([Ret.done, Ret.done, Ret.done, Ret.done], lruEnd) ∧
    (evictN lruEnd 2).1 = [some 4, some 6] ∧
    (Before 4 6 (cids lruEnd) ∧
      (∀ n j : Nat, (evictN lruEnd n).1[j]? = some (some 6) →
        ∃ i : Nat, i < j ∧ (evictN lruEnd n).1[i]? = some (some 4)) ∧
      lruEnd.Evict.1 ≠ some 6) :=
  ⟨by decide,
   (C5_cache_lru warmState (by decide)).1 []
     { frame_id_ := 4, times_ := 2, evictable_ := true }
     [{ frame_id_ := 5, times_ := 3, evictable_ := false },
      { frame_id_ := 6, times_ := 2, evictable_ := true }] rfl (by decide),
   (C5_cache_lru warmState (by decide)).2.1 (by decide) []
     { frame_id_ := 4, times_ := 2, evictable_ := true }
     [{ frame_id_ := 5, times_ := 3, evictable_ := false },
      { frame_id_ := 6, times_ := 2, evictable_ := true }] rfl (by decide) rfl,
   by decide,
   (C5_cache_lru warmState (by decide)).2.2.1 []
     { frame_id_ := 4, times_ := 2, evictable_ := true }
     [{ frame_id_ := 5, times_ := 3, evictable_ := false }]
     { frame_id_ := 6, times_ := 2, evictable_ := true } [] rfl rfl rfl 2 1 (by decide),
   by decide, by decide,
   (C5_cache_lru warmState (by decide)).2.2.2 4 6 lruCalls
     [Ret.done, Ret.done, Ret.done, Ret.done] lruEnd
     (by decide) (by decide) (by decide) (by decide) (by decide) (by decide) (by decide)
     (by decide) (by decide)⟩

end LRUKReplacer

/-- C6. Evictability gating over traces.  Let `f` be tracked in a well-formed
state and let `SetEvictable(f, false)` be applied.  After any run of calls that
completes and contains neither `SetEvictable(f, true)` nor `Remove(f)` (so any
`RecordAccess`, `Evict`, `Size`, and `SetEvictable` or `Remove` of other
frames), no `Evict` of the run has returned `f`, `f` is still tracked, its record
is still not evictable, and `Size` is the number of evictable records of the
other frames. -/
theorem C6_pinned_over_traces (r : LRUKReplacer) (f : Int) (h : WF r)
    (hf : f ∈ r.history_map_ ∨ f ∈ r.cache_map_)
    (cs : List Call) (hcs : ∀ c ∈ cs, keepsPinned f c = true)
    (vs : List Ret) (s : LRUKReplacer)
    (hrun : run (r.SetEvictable f false) cs = some (vs, s)) :
    Ret.victim (some f) ∉ vs ∧
    (f ∈ s.history_map_ ∨ f ∈ s.cache_map_) ∧
    (∃ x ∈ s.history_list_ ++ s.cache_list_, x.GetId = f ∧ x.IsEvictable = false) ∧
    (∀ y ∈ s.history_list_ ++ s.cache_list_, y.GetId = f → y.IsEvictable = false) ∧
    s.Size = ((s.history_list_ ++ s.cache_list_).filter
                (fun y => decide (y.GetId ≠ f))).countP FrameInfo.IsEvictable := by
  have h0 : Pinned f (r.SetEvictable f false) :=
    ⟨WF_SetEvictable r f false h, SetEvictable_self r f false h hf⟩
  obtain ⟨hp, hv⟩ := Pinned.run cs _ s vs h0 hcs hrun
  refine ⟨hv, hp.tracked, hp.2, hp.all_false, ?_⟩
  rw [Size_eq]
  exact countP_skip f _ hp.all_false

/-- C6 on the sample state with frame 3: the run `pinnedCalls` completes, moves
frame 3 from the history queue to the cache queue, evicts frames 1, 4 and 6, and
leaves frame 3 tracked and uncounted. -/
theorem C6_pinned_over_traces_witness :
    run (sampleState.SetEvictable 3 false) pinnedCalls =
      some ([Ret.done, Ret.done, Ret.victim (some 1), Ret.victim (some 4), Ret.done,
             Ret.victim (some 6), Ret.size 0], pinnedEnd) ∧
    Ret.victim (some 3) ∉
      [Ret.done, Ret.done, Ret.victim (some 1), Ret.victim (some 4), Ret.done,
       Ret.victim (some 6), Ret.size 0] ∧
    ((3 : Int) ∈ pinnedEnd.history_map_ ∨ (3 : Int) ∈ pinnedEnd.cache_map_) ∧
    pinnedEnd.Size = 0 :=
  have hw := C6_pinned_over_traces sampleState 3 (by decide) (by decide) pinnedCalls
    (by decide) [Ret.done, Ret.done, Ret.victim (some 1), Ret.victim (some 4), Ret.done,
      Ret.victim (some 6), Ret.size 0] pinnedEnd (by decide)
  ⟨by decide, hw.1, hw.2.1, hw.2.2.2.2⟩

namespace LRUKReplacer

/-- C7. Size consistency.  In every state `Size` is the number of evictable
records of the two queues together, and the call of `Size` hands the state back
as it was.  An `Evict` that returns a victim lowers `Size` by one; in a
well-formed state a completed `Remove` of a tracked frame lowers it by one, and
`SetEvictable` on the frame of a tracked record raises it by one when the flag
goes from false to true, lowers it by one when the flag goes from true to false
and leaves it when the flag stays; `SetEvictable` on an untracked frame leaves
it. -/
theorem C7_size_consistency (r : LRUKReplacer) :
    r.Size = (r.history_list_ ++ r.cache_list_).countP FrameInfo.IsEvictable ∧
    call r Call.Size = some (Ret.size r.Size, r) ∧
    (∀ v, r.Evict.1 = some v → r.Evict.2.Size + 1 = r.Size) ∧
    (WF r → ∀ f s, (f ∈ r.history_map_ ∨ f ∈ r.cache_map_) →
      r.Remove f = Outcome.ok s → s.Size + 1 = r.Size) ∧
    (WF r → ∀ x ∈ r.history_list_ ++ r.cache_list_, ∀ b : Bool,
      (x.IsEvictable = false → b = true → (r.SetEvictable x.GetId b).Size = r.Size + 1) ∧
      (x.IsEvictable = true → b = false → (r.SetEvictable x.GetId b).Size + 1 = r.Size) ∧
      (x.IsEvictable = b → (r.SetEvictable x.GetId b).Size = r.Size)) ∧
    (∀ (f : Int) (b : Bool), f ∉ r.history_map_ → f ∉ r.cache_map_ →
      (r.SetEvictable f b).Size = r.Size) := by
  refine ⟨Size_eq r, rfl, Size_Evict r, ?_, ?_, ?_⟩
  · intro h f s hf hs
    exact Size_Remove r s f h hf hs
  · intro h x hx b
    have key := Size_SetEvictable r b x h hx
    refine ⟨?_, ?_, ?_⟩
    · intro hxe hb
      subst hb
      rw [hxe] at key
      simpa using key
    · intro hxe hb
      subst hb
      rw [hxe] at key
      simpa using key
    · intro hxb
      rw [hxb] at key
      exact Nat.add_right_cancel key
  · intro f b hh hc
    rw [SetEvictable_untracked r f b hh hc]

/-- C7 on the sample state: evicting or removing frame 1 lowers `Size` by one,
unpinning frame 2 raises it by one, pinning frame 1 lowers it by one, setting
frame 1 evictable again or touching the untracked frame 9 leaves it. -/
theorem C7_size_consistency_witness :
    WF sampleState ∧
    sampleState.Evict.2.Size + 1 = sampleState.Size ∧
    sampleState.Remove 1 = Outcome.ok sampleState.Evict.2 ∧
    sampleState.Evict.2.Size + 1 = sampleState.Size ∧
    (sampleState.SetEvictable 2 true).Size = sampleState.Size + 1 ∧
    (sampleState.SetEvictable 1 false).Size + 1 = sampleState.Size ∧
    (sampleState.SetEvictable 1 true).Size = sampleState.Size ∧
    (sampleState.SetEvictable 9 false).Size = sampleState.Size :=
  ⟨by decide,
   (C7_size_consistency sampleState).2.2.1 1 (by decide),
   by decide,
   (C7_size_consistency sampleState).2.2.2.1 (by decide) 1 sampleState.Evict.2
     (by decide) (by decide),
   ((C7_size_consistency sampleState).2.2.2.2.1 (by decide)
     { frame_id_ := 2, times_ := 2, evictable_ := false } (by decide) true).1 rfl rfl,
   ((C7_size_consistency sampleState).2.2.2.2.1 (by decide)
     { frame_id_ := 1, times_ := 1, evictable_ := true } (by decide) false).2.1 rfl rfl,
   ((C7_size_consistency sampleState).2.2.2.2.1 (by decide)
     { frame_id_ := 1, times_ := 1, evictable_ := true } (by decide) true).2.2 rfl,
   (C7_size_consistency sampleState).2.2.2.2.2 9 false (by decide) (by decide)⟩

/-- C8. No-victim case.  `Evict` reports no victim exactly when `Size` is 0, and
then the state after the call is the state before it. -/
theorem C8_no_victim (r : LRUKReplacer) :
    (r.Evict.1 = none ↔ r.Size = 0) ∧ (r.Size = 0 → r.Evict = (none, r)) := by
  have hz := Size_zero_iff r
  refine ⟨⟨?_, ?_⟩, ?_⟩
  · intro hnone
    rcases first_evictable r.history_list_ with hh | ⟨pre, x, post, hl, hpre, hx⟩
    · rcases first_evictable r.cache_list_ with hc | ⟨pre, x, post, hl, hpre, hx⟩
      · exact hz.2 ⟨hh, hc⟩
      · rw [Evict_cache r pre post x hh hl hpre hx] at hnone
        cases hnone
    · rw [Evict_history r pre post x hl hpre hx] at hnone
      cases hnone
  · intro h0
    rw [Evict_none r (hz.1 h0).1 (hz.1 h0).2]
  · intro h0
    exact Evict_none r (hz.1 h0).1 (hz.1 h0).2

/-- C8 on the empty replacer and on a replacer all of whose frames are
pinned. -/
theorem C8_no_victim_witness :
    (LRUKReplacer.new 5 2).Size = 0 ∧
    (LRUKReplacer.new 5 2).Evict = (none, LRUKReplacer.new 5 2) ∧
    pinnedEnd.Size = 0 ∧ pinnedEnd.Evict = (none, pinnedEnd) :=
  ⟨by decide, (C8_no_victim (LRUKReplacer.new 5 2)).2 (by decide),
   by decide, (C8_no_victim pinnedEnd).2 (by decide)⟩

/-- C9. `Remove` in a well-formed state.  The call is fatal exactly when the
frame is tracked and its record is not evictable, and the state at the fatal
signal is the state before the call.  On an untracked frame the call completes
and changes nothing.  On a tracked evictable frame the call completes, the
record leaves the queue that holds it, the id leaves that queue's index, and
nothing else changes. -/
theorem C9_remove (r : LRUKReplacer) (h : WF r) (f : Int) :
    ((∃ s, r.Remove f = Outcome.fatal s) ↔
      ((f ∈ r.history_map_ ∨ f ∈ r.cache_map_) ∧
        ∃ x ∈ r.history_list_ ++ r.cache_list_, x.GetId = f ∧ x.IsEvictable = false)) ∧
    (∀ s, r.Remove f = Outcome.fatal s → s = r) ∧
    (f ∉ r.history_map_ → f ∉ r.cache_map_ → r.Remove f = Outcome.ok r) ∧
    (∀ pre x post, r.history_list_ = pre ++ x :: post → x.GetId = f →
      x.IsEvictable = true →
      r.Remove f = Outcome.ok { r with history_list_ := pre ++ post,
                                       history_map_ := r.history_map_.erase f }) ∧
    (∀ pre x post, r.cache_list_ = pre ++ x :: post → x.GetId = f →
      x.IsEvictable = true →
      r.Remove f = Outcome.ok { r with cache_list_ := pre ++ post,
                                       cache_map_ := r.cache_map_.erase f }) := by
  refine ⟨⟨?_, ?_⟩, fun s hs => Remove_fatal_state r s f hs, Remove_untracked r f, ?_, ?_⟩
  · rintro ⟨s, hs⟩
    by_cases hh : f ∈ r.history_map_
    · obtain ⟨pre, x, post, hl, rfl⟩ := h.split_history hh
      rw [Remove_history r pre post x h hl] at hs
      by_cases hx : x.IsEvictable = true
      · rw [if_pos hx] at hs
        exact Outcome.noConfusion hs
      · exact ⟨Or.inl hh, x, by simp [hl], rfl, by simpa using hx⟩
    · by_cases hc : f ∈ r.cache_map_
      · obtain ⟨pre, x, post, hl, rfl⟩ := h.split_cache hc
        rw [Remove_cache r pre post x h hl] at hs
        by_cases hx : x.IsEvictable = true
        · rw [if_pos hx] at hs
          exact Outcome.noConfusion hs
        · exact ⟨Or.inr hc, x, by simp [hl], rfl, by simpa using hx⟩
      · rw [Remove_untracked r f hh hc] at hs
        exact Outcome.noConfusion hs
  · rintro ⟨_, x, hx, rfl, hxe⟩
    refine ⟨r, ?_⟩
    rcases List.mem_append.1 hx with hx | hx
    · obtain ⟨pre, post, hl⟩ := List.append_of_mem hx
      rw [Remove_history r pre post x h hl, hxe]
      rfl
    · obtain ⟨pre, post, hl⟩ := List.append_of_mem hx
      rw [Remove_cache r pre post x h hl, hxe]
      rfl
  · rintro pre x post hl rfl hx
    rw [Remove_history r pre post x h hl, if_pos hx]
  · rintro pre x post hl rfl hx
    rw [Remove_cache r pre post x h hl, if_pos hx]

/-- C9 on the sample state: removing the pinned frame 2 is fatal and leaves the
state, removing the untracked frame 9 does nothing, removing frame 3 takes it
out of the history queue and removing frame 4 takes it out of the cache
queue. -/
theorem C9_remove_witness :
    WF sampleState ∧
    (∃ s, sampleState.Remove 2 = Outcome.fatal s) ∧
    (∀ s, sampleState.Remove 2 = Outcome.fatal s → s = sampleState) ∧
    sampleState.Remove 9 = Outcome.ok sampleState ∧
    sampleState.Remove 3 =
      Outcome.ok { sampleState with
        history_list_ := [{ frame_id_ := 1, times_ := 1, evictable_ := true },
                          { frame_id_ := 2, times_ := 2, evictable_ := false }] ++ [],
        history_map_ := sampleState.history_map_.erase 3 } ∧
    sampleState.Remove 4 =
      Outcome.ok { sampleState with
        cache_list_ := [] ++ [{ frame_id_ := 5, times_ := 4, evictable_ := false },
                              { frame_id_ := 6, times_ := 3, evictable_ := true }],
        cache_map_ := sampleState.cache_map_.erase 4 } :=
  ⟨by decide,
   (C9_remove sampleState (by decide) 2).1.2
     ⟨by decide, { frame_id_ := 2, times_ := 2, evictable_ := false }, by decide, rfl, rfl⟩,
   (C9_remove sampleState (by decide) 2).2.1,
   (C9_remove sampleState (by decide) 9).2.2.1 (by decide) (by decide),
   (C9_remove sampleState (by decide) 3).2.2.2.1
     [{ frame_id_ := 1, times_ := 1, evictable_ := true },
      { frame_id_ := 2, times_ := 2, evictable_ := false }]
     { frame_id_ := 3, times_ := 1, evictable_ := true } [] rfl rfl rfl,
   (C9_remove sampleState (by decide) 4).2.2.2.2 []
     { frame_id_ := 4, times_ := 3, evictable_ := true }
     [{ frame_id_ := 5, times_ := 4, evictable_ := false },
      { frame_id_ := 6, times_ := 3, evictable_ := true }] rfl rfl rfl⟩

/-- C10 as stated is false: on a replacer of capacity 2147483648 the access of
frame 0 is fatal although 0 does not exceed the capacity. -/
theorem C10_as_stated_fails :
    (LRUKReplacer.new 2147483648 2).RecordAccess 0
      = Outcome.fatal (LRUKReplacer.new 2147483648 2) ∧
    ¬ ((0 : Int) > ((2147483648 : Nat) : Int)) := by
  decide

/-- C10, amended. `RecordAccess(frame_id)` is fatal exactly when `frame_id`
exceeds `(int)n`, the capacity converted to a 32-bit signed integer, and the
state at the fatal signal is the state before the call; for every other
`frame_id` the call completes.  For a capacity below 2147483648 the converted
capacity is the capacity itself, so the call is then fatal exactly when
`frame_id > n`. -/
theorem C10_record_access_bound (r : LRUKReplacer) (f : Int) :
    ((∃ s, r.RecordAccess f = Outcome.fatal s) ↔ toInt r.replacer_size_ < f) ∧
    (∀ s, r.RecordAccess f = Outcome.fatal s → s = r) ∧
    (¬ toInt r.replacer_size_ < f → ∃ s, r.RecordAccess f = Outcome.ok s) ∧
    (r.replacer_size_ < 2147483648 →
      ((∃ s, r.RecordAccess f = Outcome.fatal s) ↔ (r.replacer_size_ : Int) < f)) := by
  have hiff : (∃ s, r.RecordAccess f = Outcome.fatal s) ↔ toInt r.replacer_size_ < f := by
    constructor
    · rintro ⟨s, hs⟩
      by_contra hlt
      obtain ⟨t, ht⟩ := RecordAccess_completes r f (not_lt.1 hlt)
      rw [ht] at hs
      exact Outcome.noConfusion hs
    · intro hlt
      exact ⟨r, RecordAccess_fatal r f (not_le.2 hlt)⟩
  refine ⟨hiff, ?_, ?_, ?_⟩
  · intro s hs
    have hlt := hiff.1 ⟨s, hs⟩
    rw [RecordAccess_fatal r f (not_le.2 hlt)] at hs
    exact (Outcome.fatal.inj hs).symm
  · intro hlt
    exact RecordAccess_completes r f (not_lt.1 hlt)
  · intro hn
    rw [hiff, toInt_small _ hn]

/-- C10 on the sample state of capacity 7: frame 8 is rejected with the state
untouched, frame 7 and frame -1 are accepted. -/
theorem C10_record_access_bound_witness :
    (∃ s, sampleState.RecordAccess 8 = Outcome.fatal s) ∧
    (∀ s, sampleState.RecordAccess 8 = Outcome.fatal s → s = sampleState) ∧
    (∃ s, sampleState.RecordAccess 7 = Outcome.ok s) ∧
    (∃ s, sampleState.RecordAccess (-1) = Outcome.ok s) :=
  ⟨((C10_record_access_bound sampleState 8).2.2.2 (by decide)).2 (by decide),
   (C10_record_access_bound sampleState 8).2.1,
   (C10_record_access_bound sampleState 7).2.2.1 (by decide),
   (C10_record_access_bound sampleState (-1)).2.2.1 (by decide)⟩

end LRUKReplacer

namespace LRUKReplacer

/-- C11. `SetEvictable(f, flag)` never fails.  On an untracked frame it leaves
the state.  On a tracked frame of a well-formed state the only change is that
the evictable field of the record of `f` becomes `flag`: both queues keep their
order, every counter and every other flag stays, and so do both indices.
Applying the call twice gives the state that applying it once gives. -/
theorem C11_SetEvictable_frame (r : LRUKReplacer) (f : Int) (b : Bool) :
    call r (Call.SetEvictable f b) = some (Ret.done, r.SetEvictable f b) ∧
    (f ∉ r.history_map_ → f ∉ r.cache_map_ → r.SetEvictable f b = r) ∧
    (r.WF → ∀ pre x post, r.history_list_ = pre ++ x :: post → x.GetId = f →
      r.SetEvictable f b =
        { r with history_list_ := pre ++ { x with evictable_ := b } :: post }) ∧
    (r.WF → ∀ pre x post, r.cache_list_ = pre ++ x :: post → x.GetId = f →
      r.SetEvictable f b =
        { r with cache_list_ := pre ++ { x with evictable_ := b } :: post }) ∧
    (r.SetEvictable f b).SetEvictable f b = r.SetEvictable f b := by
  refine ⟨rfl, SetEvictable_untracked r f b, ?_, ?_, SetEvictable_idem r f b⟩
  · rintro h pre x post hl rfl
    exact SetEvictable_history r pre post x b h hl
  · rintro h pre x post hl rfl
    exact SetEvictable_cache r pre post x b h hl

/-- C11 on the sample state: the untracked frame 9 changes nothing, frame 2 of
the history queue and frame 4 of the cache queue get their flag set in place. -/
theorem C11_SetEvictable_frame_witness :
    sampleState.WF ∧
    sampleState.SetEvictable 9 true = sampleState ∧
    sampleState.SetEvictable 2 true =
      { sampleState with
        history_list_ := [{ frame_id_ := 1, times_ := 1, evictable_ := true }] ++
          { frame_id_ := 2, times_ := 2, evictable_ := true } ::
          [{ frame_id_ := 3, times_ := 1, evictable_ := true }] } ∧
    sampleState.SetEvictable 4 false =
      { sampleState with
        cache_list_ := [] ++ { frame_id_ := 4, times_ := 3, evictable_ := false } ::
          [{ frame_id_ := 5, times_ := 4, evictable_ := false },
           { frame_id_ := 6, times_ := 3, evictable_ := true }] } :=
  ⟨by decide,
   (C11_SetEvictable_frame sampleState 9 true).2.1 (by decide) (by decide),
   (C11_SetEvictable_frame sampleState 2 true).2.2.1 (by decide)
     [{ frame_id_ := 1, times_ := 1, evictable_ := true }]
     { frame_id_ := 2, times_ := 2, evictable_ := false }
     [{ frame_id_ := 3, times_ := 1, evictable_ := true }] rfl rfl,
   (C11_SetEvictable_frame sampleState 4 false).2.2.2.1 (by decide) []
     { frame_id_ := 4, times_ := 3, evictable_ := true }
     [{ frame_id_ := 5, times_ := 4, evictable_ := false },
      { frame_id_ := 6, times_ := 3, evictable_ := true }] rfl rfl⟩

end LRUKReplacer

/-- C12. Structural invariant.  In every state reached from a fresh replacer by
a completed run of calls, no frame id occurs twice in the two queues together
(so none is in both queues and none is twice in one queue), a tracked frame id
occurs exactly once, and each index holds exactly the ids of the records of its
own queue. -/
theorem C12_structural_invariant (n k : Nat) (cs : List Call) (vs : List Ret)
    (s : LRUKReplacer) (hrun : run (LRUKReplacer.new n k) cs = some (vs, s)) :
    (s.history_list_.map FrameInfo.GetId ++ s.cache_list_.map FrameInfo.GetId).Nodup ∧
    (∀ f, f ∈ s.history_map_ ↔ f ∈ s.history_list_.map FrameInfo.GetId) ∧
    (∀ f, f ∈ s.cache_map_ ↔ f ∈ s.cache_list_.map FrameInfo.GetId) ∧
    (∀ f, f ∈ s.history_map_ → f ∉ s.cache_map_) ∧
    (∀ f, f ∈ s.history_map_ ∨ f ∈ s.cache_map_ →
      (s.history_list_.map FrameInfo.GetId ++ s.cache_list_.map FrameInfo.GetId).count f
        = 1) := by
  have h : s.WF := WF_run cs _ s vs (WF_new n k) hrun
  have hm1 : ∀ f, f ∈ s.history_map_ ↔ f ∈ s.history_list_.map FrameInfo.GetId := by
    intro f; rw [h.2.1]; simp
  have hm2 : ∀ f, f ∈ s.cache_map_ ↔ f ∈ s.cache_list_.map FrameInfo.GetId := by
    intro f; rw [h.2.2]; simp
  refine ⟨h.1, hm1, hm2, fun f hf => h.not_both f hf, ?_⟩
  intro f hf
  refine List.count_eq_one_of_mem h.1 ?_
  rcases hf with hf | hf
  · exact List.mem_append_left _ ((hm1 f).1 hf)
  · exact List.mem_append_right _ ((hm2 f).1 hf)

/-- C12 on the run `reachedCalls`: it completes, and its final state has the
ids 2 and 1 once each, 2 in the history index and 1 in the cache index. -/
theorem C12_structural_invariant_witness :
    run (LRUKReplacer.new 5 2) reachedCalls =
      some ([Ret.done, Ret.done, Ret.done, Ret.done, Ret.done, Ret.victim (some 3)],
            reachedState) ∧
    (reachedState.history_list_.map FrameInfo.GetId ++
      reachedState.cache_list_.map FrameInfo.GetId).Nodup ∧
    ((2 : Int) ∈ reachedState.history_map_ → (2 : Int) ∉ reachedState.cache_map_) :=
  have hw := C12_structural_invariant 5 2 reachedCalls
    [Ret.done, Ret.done, Ret.done, Ret.done, Ret.done, Ret.victim (some 3)]
    reachedState (by decide)
  ⟨by decide, hw.1, hw.2.2.2.1 2⟩

/-- C13 at K = 1. On a fresh replacer with K = 1 and capacity 5 the call
`RecordAccess(0)` completes and leaves a record with counter 1 in the history
queue, which is not below K. -/
theorem C13_count_partition_K1 :
    run (LRUKReplacer.new 5 1) [Call.RecordAccess 0] =
      some ([Ret.done],
            { replacer_size_ := 5, k_ := 1,
              history_list_ := [{ frame_id_ := 0, times_ := 1, evictable_ := true }],
              cache_list_ := [], history_map_ := {0}, cache_map_ := ∅ }) ∧
    ¬ CountInv { replacer_size_ := 5, k_ := 1,
                 history_list_ := [{ frame_id_ := 0, times_ := 1, evictable_ := true }],
                 cache_list_ := [], history_map_ := {0}, cache_map_ := ∅ } := by
  refine ⟨by decide, ?_⟩
  intro h
  have := h.1 { frame_id_ := 0, times_ := 1, evictable_ := true } (by simp)
  simp at this

/-- C15. No transition back.  Let `f` be in the cache queue of a well-formed
state.  After any single completed call other than `Remove(f)` that does not
return `f` as victim, and likewise after any completed run of such calls, `f` is
in the cache index and not in the history index, its record is in the cache
queue, and the history queue holds no record of `f`. -/
theorem C15_no_transition_back (r : LRUKReplacer) (h : r.WF) (f : Int)
    (hf : f ∈ r.cache_map_) :
    (∀ c v t, call r c = some (v, t) → c ≠ Call.Remove f → v ≠ Ret.victim (some f) →
      f ∈ t.cache_map_ ∧ f ∉ t.history_map_ ∧
      (∃ x ∈ t.cache_list_, x.GetId = f) ∧ ∀ x ∈ t.history_list_, x.GetId ≠ f) ∧
    (∀ cs vs s, run r cs = some (vs, s) → (∀ c ∈ cs, c ≠ Call.Remove f) →
      Ret.victim (some f) ∉ vs →
      f ∈ s.cache_map_ ∧ f ∉ s.history_map_ ∧
      (∃ x ∈ s.cache_list_, x.GetId = f) ∧ ∀ x ∈ s.history_list_, x.GetId ≠ f) := by
  refine ⟨?_, ?_⟩
  · intro c v t hcall hc hv
    have hm := (call_step r t c v h hcall).inCache h f hf hc hv
    have hl := (WF_call r t c v h hcall).cache_only hm
    exact ⟨hm.1, hm.2, hl.1, hl.2⟩
  · intro cs vs s hrun hcs hvs
    have hm := inCache_run f cs r s vs h hf hcs hrun hvs
    have hl := (WF_run cs r s vs h hrun).cache_only hm
    exact ⟨hm.1, hm.2, hl.1, hl.2⟩

/-- C15 on `reachedState` with frame 1: it stays in the cache queue over the
access that promotes frame 2 and over the run `movedCalls`. -/
theorem C15_no_transition_back_witness :
    reachedState.WF ∧ (1 : Int) ∈ reachedState.cache_map_ ∧
    run reachedState movedCalls =
      some ([Ret.done, Ret.done, Ret.victim none, Ret.done, Ret.done], movedState) ∧
    ((1 : Int) ∈ movedState.cache_map_ ∧ (1 : Int) ∉ movedState.history_map_ ∧
      (∃ x ∈ movedState.cache_list_, x.GetId = 1) ∧
      ∀ x ∈ movedState.history_list_, x.GetId ≠ 1) ∧
    ((1 : Int) ∈ (reachedState.SetEvictable 2 true).cache_map_ ∧
      (1 : Int) ∉ (reachedState.SetEvictable 2 true).history_map_ ∧
      (∃ x ∈ (reachedState.SetEvictable 2 true).cache_list_, x.GetId = 1) ∧
      ∀ x ∈ (reachedState.SetEvictable 2 true).history_list_, x.GetId ≠ 1) :=
  ⟨by decide, by decide, by decide,
   (C15_no_transition_back reachedState (by decide) 1 (by decide)).2 movedCalls
     [Ret.done, Ret.done, Ret.victim none, Ret.done, Ret.done] movedState
     (by decide) (by decide) (by decide),
   (C15_no_transition_back reachedState (by decide) 1 (by decide)).1
     (Call.SetEvictable 2 true) Ret.done (reachedState.SetEvictable 2 true) rfl
     (by decide) (by decide)⟩

namespace LRUKReplacer

/-- C16. `RecordAccess` on an unseen frame.  In every state, for every K and
every accepted frame id that is in neither index, the call completes, appends
the record with counter 1 and evictable flag true at the back of the history
queue, adds the id to the history index, changes nothing else, and `Size` grows
by one.  In a well-formed state the access of a tracked frame completes and
leaves `Size`. -/
theorem C16_access_unseen (r : LRUKReplacer) (f : Int)
    (hcap : f ≤ toInt r.replacer_size_) :
    (f ∉ r.history_map_ → f ∉ r.cache_map_ →
      r.RecordAccess f =
        Outcome.ok { r with history_list_ := r.history_list_ ++
                              [{ frame_id_ := f, times_ := 1, evictable_ := true }],
                            history_map_ := insert f r.history_map_ } ∧
      Size { r with history_list_ := r.history_list_ ++
                      [{ frame_id_ := f, times_ := 1, evictable_ := true }],
                    history_map_ := insert f r.history_map_ } = r.Size + 1) ∧
    (r.WF → (f ∈ r.history_map_ ∨ f ∈ r.cache_map_) →
      ∃ s, r.RecordAccess f = Outcome.ok s ∧ s.Size = r.Size) := by
  refine ⟨?_, ?_⟩
  · intro hh hc
    refine ⟨RecordAccess_unseen r f hcap hh hc, ?_⟩
    simp only [Size_eq, List.countP_append, List.countP_cons, List.countP_nil,
      FrameInfo.IsEvictable]
    simp; omega
  · intro h hf
    obtain ⟨s, hs⟩ := RecordAccess_completes r f hcap
    exact ⟨s, hs, Size_RecordAccess_tracked r s f h hf hs⟩

/-- C16 on `reachedState`: the unseen frame 4 enters at the back of the history
queue and `Size` grows from 1 to 2; the access of the tracked frame 2 completes
and leaves `Size`. -/
theorem C16_access_unseen_witness :
    reachedState.WF ∧
    (reachedState.RecordAccess 4 =
      Outcome.ok { reachedState with
        history_list_ := reachedState.history_list_ ++
          [{ frame_id_ := 4, times_ := 1, evictable_ := true }],
        history_map_ := insert 4 reachedState.history_map_ } ∧
     Size { reachedState with
        history_list_ := reachedState.history_list_ ++
          [{ frame_id_ := 4, times_ := 1, evictable_ := true }],
        history_map_ := insert 4 reachedState.history_map_ } = reachedState.Size + 1) ∧
    (∃ s, reachedState.RecordAccess 2 = Outcome.ok s ∧ s.Size = reachedState.Size) :=
  ⟨by decide,
   (C16_access_unseen reachedState 4 (by decide)).1 (by decide) (by decide),
   (C16_access_unseen reachedState 2 (by decide)).2 (by decide) (by decide)⟩

/-- C17 as stated is false: on a fresh replacer with K = 2 and capacity 5 the
second access of frame 1 moves it to the cache queue with counter 2, and the
third access leaves the counter at 2 instead of raising it to 3. -/
theorem C17_cache_access_not_counted :
    accessN (LRUKReplacer.new 5 2) 1 2 =
      Outcome.ok { replacer_size_ := 5, k_ := 2, history_list_ := [],
                   cache_list_ := [{ frame_id_ := 1, times_ := 2, evictable_ := true }],
                   history_map_ := ∅, cache_map_ := {1} } ∧
    accessN (LRUKReplacer.new 5 2) 1 3 =
      Outcome.ok { replacer_size_ := 5, k_ := 2, history_list_ := [],
                   cache_list_ := [{ frame_id_ := 1, times_ := 2, evictable_ := true }],
                   history_map_ := ∅, cache_map_ := {1} } := by
  decide

/-- C17, amended. Access counting in a well-formed state.  A completed
`RecordAccess(f)` gives an untracked `f` a record with counter 1, raises the
counter of `f` by exactly one when `f` is in the history queue, also on the
access that moves it to the cache queue, and leaves the counter when `f` is
already in the cache queue.  Every other completed call that neither removes nor
evicts `f` leaves its counter.  So, for K ≥ 2, after a completed run of calls
that starts with `f` untracked, accesses `f` at least once and neither removes
nor evicts it, the counter of `f` is the number of its accesses in the run,
capped at K, the value with which it entered the cache queue. -/
theorem C17_access_counting (r : LRUKReplacer) (h : r.WF) (f : Int) :
    (∀ v t, call r (Call.RecordAccess f) = some (v, t) →
      (f ∉ r.history_map_ → f ∉ r.cache_map_ →
        ∃ y ∈ t.history_list_ ++ t.cache_list_, y.GetId = f ∧ y.times_ = 1) ∧
      (∀ x ∈ r.history_list_, x.GetId = f →
        ∃ y ∈ t.history_list_ ++ t.cache_list_, y.GetId = f ∧ y.times_ = x.times_ + 1) ∧
      (∀ x ∈ r.cache_list_, x.GetId = f →
        ∃ y ∈ t.cache_list_, y.GetId = f ∧ y.times_ = x.times_)) ∧
    (∀ c v t, call r c = some (v, t) → c ≠ Call.RecordAccess f → c ≠ Call.Remove f →
      v ≠ Ret.victim (some f) →
      ∀ x ∈ r.history_list_ ++ r.cache_list_, x.GetId = f →
        ∃ y ∈ t.history_list_ ++ t.cache_list_, y.GetId = f ∧ y.times_ = x.times_) ∧
    (2 ≤ r.k_ → ∀ cs vs s, f ∉ r.history_map_ → f ∉ r.cache_map_ →
      run r cs = some (vs, s) →
      (∀ c ∈ cs, c ≠ Call.Remove f) → Ret.victim (some f) ∉ vs →
      1 ≤ cs.count (Call.RecordAccess f) →
      ∃ y ∈ s.history_list_ ++ s.cache_list_, y.GetId = f ∧
        y.times_ = min (cs.count (Call.RecordAccess f)) r.k_) := by
  refine ⟨?_, ?_, ?_⟩
  · intro v t hcall
    obtain ⟨a1, a2, a3⟩ := (call_step r t _ v h hcall).access_times h f rfl
    refine ⟨?_, ?_, fun x hx hxf => ⟨x, a3 x hx hxf, hxf, rfl⟩⟩
    · intro hh hc
      obtain ⟨y, hy, hyf, hyt⟩ := a1 hh hc
      exact ⟨y, List.mem_append_left _ hy, hyf, hyt⟩
    intro x hx hxf
    obtain ⟨y, hyf, hyt, hy⟩ := a2 x hx hxf
    rcases hy with ⟨_, hy⟩ | ⟨_, hy⟩
    · exact ⟨y, List.mem_append_left _ hy, hyf, hyt⟩
    · exact ⟨y, List.mem_append_right _ hy, hyf, hyt⟩
  · intro c v t hcall hc hr hv x hx hxf
    have hs := call_step r t c v h hcall
    subst hxf
    by_cases hset : ∃ b, c = Call.SetEvictable x.GetId b
    · obtain ⟨b, hb⟩ := hset
      obtain ⟨s1, s2⟩ := hs.set_times x b hb
      rcases List.mem_append.1 hx with hx | hx
      · obtain ⟨y, hy, hyf, hyt⟩ := s1 hx
        exact ⟨y, List.mem_append_left _ hy, hyf, hyt⟩
      · obtain ⟨y, hy, hyf, hyt⟩ := s2 hx
        exact ⟨y, List.mem_append_right _ hy, hyf, hyt⟩
    · obtain ⟨k1, k2⟩ := hs.keeps x hc (fun b e => hset ⟨b, e⟩) hr hv
      rcases List.mem_append.1 hx with hx | hx
      · exact ⟨x, List.mem_append_left _ (k1 hx), rfl, rfl⟩
      · exact ⟨x, List.mem_append_right _ (k2 hx), rfl, rfl⟩
  · intro hk2 cs vs s hh hc hrun hcs hvs hone
    have h0 : CountIs f 0 r := Or.inl ⟨rfl, hh, hc⟩
    have hfin := CountIs.count_run cs r s vs 0 h h0 hcs hrun hvs
    have hk : s.k_ = r.k_ :=
      run_invariant (fun u => u.k_ = r.k_) (fun _ _ _ _ _ hp hs => hs.records.2.1.trans hp)
        cs r s vs h rfl hrun
    rw [Nat.zero_add] at hfin
    rcases hfin with ⟨h1, _⟩ | ⟨_, y, hyf, hyt, hloc⟩
    · omega
    · rw [hk, Nat.max_eq_left hk2] at hyt
      rcases hloc with ⟨_, hy⟩ | ⟨_, hy⟩
      · exact ⟨y, List.mem_append_left _ hy, hyf, hyt⟩
      · exact ⟨y, List.mem_append_right _ hy, hyf, hyt⟩

/-- C17 on sample runs.  On `reachedState`, where frame 2 is in the history
queue with counter 1 and frame 1 in the cache queue with counter 2: the access
of frame 2 gives it counter 2, the access of frame 1 leaves its counter at 2,
and `SetEvictable(2, true)` leaves the counter of frame 2 at 1.  After the run
`countedCalls` from a fresh replacer with K = 2, in which frame 1 is accessed
three times, its counter is 2. -/
theorem C17_access_counting_witness :
    reachedState.WF ∧
    call reachedState (Call.RecordAccess 2) = some (Ret.done, promotedState) ∧
    (∃ y ∈ promotedState.history_list_ ++ promotedState.cache_list_,
      y.GetId = 2 ∧ y.times_ = 1 + 1) ∧
    call reachedState (Call.RecordAccess 1) = some (Ret.done, reachedState) ∧
    (∃ y ∈ reachedState.cache_list_, y.GetId = 1 ∧ y.times_ = 2) ∧
    (∃ y ∈ (reachedState.SetEvictable 2 true).history_list_ ++
        (reachedState.SetEvictable 2 true).cache_list_, y.GetId = 2 ∧ y.times_ = 1) ∧
    run (LRUKReplacer.new 5 2) countedCalls =
      some ([Ret.done, Ret.done, Ret.done, Ret.done], countedEnd) ∧
    (∃ y ∈ countedEnd.history_list_ ++ countedEnd.cache_list_, y.GetId = 1 ∧
      y.times_ = min (countedCalls.count (Call.RecordAccess 1))
        (LRUKReplacer.new 5 2).k_) ∧
    min (countedCalls.count (Call.RecordAccess 1)) (LRUKReplacer.new 5 2).k_ = 2 :=
  ⟨by decide, by decide,
   ((C17_access_counting reachedState (by decide) 2).1 Ret.done promotedState
     (by decide)).2.1 { frame_id_ := 2, times_ := 1, evictable_ := false } (by decide) rfl,
   by decide,
   ((C17_access_counting reachedState (by decide) 1).1 Ret.done reachedState
     (by decide)).2.2 { frame_id_ := 1, times_ := 2, evictable_ := true } (by decide) rfl,
   (C17_access_counting reachedState (by decide) 2).2.1 (Call.SetEvictable 2 true)
     Ret.done (reachedState.SetEvictable 2 true) rfl (by decide) (by decide) (by decide)
     { frame_id_ := 2, times_ := 1, evictable_ := false } (by decide) rfl,
   by decide,
   (C17_access_counting (LRUKReplacer.new 5 2) (by decide) 1).2.2 (by decide)
     countedCalls
     [Ret.done, Ret.done, Ret.done, Ret.done] countedEnd (by decide) (by decide)
     (by decide) (by decide) (by decide) (by decide),
   by decide⟩

end LRUKReplacer

/-- C18 as stated is false: on a replacer of capacity 1 the accesses of frames 0
and 1 both complete and leave two tracked frames; and the accesses of frames -1,
-2 and -3 all complete and leave three. -/
theorem C18_as_stated_fails :
    (run (LRUKReplacer.new 1 2) [Call.RecordAccess 0, Call.RecordAccess 1]).map
        (fun p => (p.2.history_list_ ++ p.2.cache_list_).map FrameInfo.GetId)
      = some [0, 1] ∧
    ¬ ([(0 : Int), 1].length ≤ 1) ∧
    (run (LRUKReplacer.new 1 2)
        [Call.RecordAccess (-1), Call.RecordAccess (-2), Call.RecordAccess (-3)]).map
        (fun p => (p.2.history_list_ ++ p.2.cache_list_).map FrameInfo.GetId)
      = some [-1, -2, -3] := by
  decide

/-- C18, amended. In every state reached from a fresh replacer of capacity `n`
by a completed run of calls, every tracked frame id is at most `(int)n`, the
bound that `RecordAccess` asserts; hence, for `n` below 2147483648, the number
of tracked frames with a non-negative id is at most `n + 1`. -/
theorem C18_capacity_bound (n k : Nat) (cs : List Call) (vs : List Ret)
    (s : LRUKReplacer) (hrun : run (LRUKReplacer.new n k) cs = some (vs, s)) :
    s.replacer_size_ = n ∧
    (∀ x ∈ s.history_list_ ++ s.cache_list_, x.GetId ≤ toInt n) ∧
    (n < 2147483648 →
      ((s.history_list_ ++ s.cache_list_).filter
        (fun x => decide (0 ≤ x.GetId))).length ≤ n + 1) := by
  have hsize := size_run n k cs vs s hrun
  have hb := Bounded_run n k cs vs s hrun
  have hwf : s.WF := WF_run cs _ s vs (WF_new n k) hrun
  rw [Bounded, hsize] at hb
  refine ⟨hsize, hb, ?_⟩
  intro hn
  have hnd : ((s.history_list_ ++ s.cache_list_).map FrameInfo.GetId).Nodup := by
    simpa using hwf.1
  have hnd2 : (((s.history_list_ ++ s.cache_list_).filter
      (fun x => decide (0 ≤ x.GetId))).map FrameInfo.GetId).Nodup :=
    hnd.sublist ((List.filter_sublist _).map _)
  have hlen := length_le_of_nodup_bounded _ n hnd2 (by
    intro a ha
    obtain ⟨x, hx, rfl⟩ := List.mem_map.1 ha
    obtain ⟨hx1, hx2⟩ := List.mem_filter.1 hx
    refine ⟨by simpa using hx2, ?_⟩
    have := hb x hx1
    rwa [toInt_small n hn] at this)
  simpa using hlen

/-- C18 on the run `reachedCalls` of a replacer of capacity 5: its two tracked
frames have ids at most 5 and are no more than 6. -/
theorem C18_capacity_bound_witness :
    run (LRUKReplacer.new 5 2) reachedCalls =
      some ([Ret.done, Ret.done, Ret.done, Ret.done, Ret.done, Ret.victim (some 3)],
            reachedState) ∧
    (∀ x ∈ reachedState.history_list_ ++ reachedState.cache_list_, x.GetId ≤ toInt 5) ∧
    ((reachedState.history_list_ ++ reachedState.cache_list_).filter
        (fun x => decide (0 ≤ x.GetId))).length ≤ 5 + 1 :=
  have hw := C18_capacity_bound 5 2 reachedCalls
    [Ret.done, Ret.done, Ret.done, Ret.done, Ret.done, Ret.victim (some 3)]
    reachedState (by decide)
  ⟨by decide, hw.2.1, hw.2.2 (by decide)⟩

/-- C19. History is forgotten.  Let `r` be well formed with every tracked id
within the asserted bound, as in every reachable state, and let `t` be the state
after `Evict` returned `f` or after a completed `Remove(f)` of the tracked frame
`f`.  Then `f` is in neither index and neither queue of `t`, `SetEvictable(f, _)`
and `Remove(f)` leave `t`, and `RecordAccess(f)` completes and appends the
record with counter 1 and evictable flag true at the back of the history
queue. -/
theorem C19_history_forgotten (r t : LRUKReplacer) (f : Int) (h : r.WF) (hb : Bounded r)
    (ht : r.Evict = (some f, t) ∨
      ((f ∈ r.history_map_ ∨ f ∈ r.cache_map_) ∧ r.Remove f = Outcome.ok t)) :
    f ∉ t.history_map_ ∧ f ∉ t.cache_map_ ∧
    (∀ x ∈ t.history_list_ ++ t.cache_list_, x.GetId ≠ f) ∧
    (∀ b, t.SetEvictable f b = t) ∧
    t.Remove f = Outcome.ok t ∧
    t.RecordAccess f =
      Outcome.ok { t with history_list_ := t.history_list_ ++
                            [{ frame_id_ := f, times_ := 1, evictable_ := true }],
                          history_map_ := insert f t.history_map_ } := by
  have key : ∃ c v, call r c = some (v, t) ∧
      (v = Ret.victim (some f) ∨
        (c = Call.Remove f ∧ (f ∈ r.history_map_ ∨ f ∈ r.cache_map_))) ∧
      ∃ x ∈ r.history_list_ ++ r.cache_list_, x.GetId = f := by
    rcases ht with he | ⟨htr, hrem⟩
    · refine ⟨Call.Evict, Ret.victim (some f), ?_, Or.inl rfl, ?_⟩
      · rw [call_Evict, he]
      · obtain ⟨x, hx, hxf, _⟩ := (Evict_facts r).1 f (by rw [he])
        exact ⟨x, hx, hxf⟩
    · refine ⟨Call.Remove f, Ret.done, ?_, Or.inr ⟨rfl, htr⟩, ?_⟩
      · rw [call_Remove, hrem]
        rfl
      · rcases htr with htr | htr
        · obtain ⟨x, hx, hxf⟩ := (h.mem_history f).1 htr
          exact ⟨x, List.mem_append_left _ hx, hxf⟩
        · obtain ⟨x, hx, hxf⟩ := (h.mem_cache f).1 htr
          exact ⟨x, List.mem_append_right _ hx, hxf⟩
  obtain ⟨c, v, hcall, hwhy, x, hx, hxf⟩ := key
  have hstep := call_step r t c v h hcall
  have hwt : t.WF := WF_call r t c v h hcall
  obtain ⟨hgh, hgc⟩ := hstep.gone h f hwhy
  have hcap : f ≤ toInt t.replacer_size_ := by
    rw [hstep.records.1, ← hxf]
    exact hb x hx
  refine ⟨hgh, hgc, ?_, fun b => SetEvictable_untracked t f b hgh hgc,
    Remove_untracked t f hgh hgc, RecordAccess_unseen t f hcap hgh hgc⟩
  intro y hy e
  rcases List.mem_append.1 hy with hy | hy
  · exact hgh ((hwt.mem_history f).2 ⟨y, hy, e⟩)
  · exact hgc ((hwt.mem_cache f).2 ⟨y, hy, e⟩)

/-- C19 on the sample state: after `Evict` returned frame 1, and after
`Remove(4)`, the frame is in neither index and its next access appends a fresh
record with counter 1 at the back of the history queue. -/
theorem C19_history_forgotten_witness :
    sampleState.WF ∧ Bounded sampleState ∧
    sampleState.Evict = (some 1, sampleState.Evict.2) ∧
    ((1 : Int) ∉ sampleState.Evict.2.history_map_ ∧
      sampleState.Evict.2.RecordAccess 1 =
        Outcome.ok { sampleState.Evict.2 with
          history_list_ := sampleState.Evict.2.history_list_ ++
            [{ frame_id_ := 1, times_ := 1, evictable_ := true }],
          history_map_ := insert 1 sampleState.Evict.2.history_map_ }) ∧
    sampleState.Remove 4 =
      Outcome.ok { sampleState with
        cache_list_ := [{ frame_id_ := 5, times_ := 4, evictable_ := false },
                        { frame_id_ := 6, times_ := 3, evictable_ := true }],
        cache_map_ := sampleState.cache_map_.erase 4 } ∧
    ((4 : Int) ∉ ({ sampleState with
        cache_list_ := [{ frame_id_ := 5, times_ := 4, evictable_ := false },
                        { frame_id_ := 6, times_ := 3, evictable_ := true }],
        cache_map_ := sampleState.cache_map_.erase 4 } : LRUKReplacer).cache_map_) :=
  have hw1 := C19_history_forgotten sampleState sampleState.Evict.2 1 (by decide)
    (by unfold Bounded; decide) (Or.inl (by decide))
  have hw2 := C19_history_forgotten sampleState
    { sampleState with
        cache_list_ := [{ frame_id_ := 5, times_ := 4, evictable_ := false },
                        { frame_id_ := 6, times_ := 3, evictable_ := true }],
        cache_map_ := sampleState.cache_map_.erase 4 } 4 (by decide)
    (by unfold Bounded; decide) (Or.inr ⟨by decide, by decide⟩)
  ⟨by decide, by unfold Bounded; decide, by decide, ⟨hw1.1, hw1.2.2.2.2.2⟩, by decide,
   hw2.2.1⟩

namespace LRUKReplacer

/-- C20. Drain.  In a well-formed state with `Size() = n`, the `n` calls of
`Evict` that follow each other all return a victim; the victims are the frames
that were evictable at the start, each once, in the order history queue then
cache queue, so they are pairwise distinct.  Afterwards `Size` is 0, the next
`Evict` finds no victim and leaves the state, each queue holds its records that
were not evictable at the start in their order, and their ids are in the index
of their queue. -/
theorem C20_drain (r : LRUKReplacer) (h : r.WF) :
    (evictN r r.Size).1 =
      ((r.history_list_ ++ r.cache_list_).filter FrameInfo.IsEvictable).map
        (fun x => some x.GetId) ∧
    (evictN r r.Size).1.length = r.Size ∧
    (∀ v ∈ (evictN r r.Size).1, v ≠ none) ∧
    (evictN r r.Size).1.Nodup ∧
    (∀ f : Int, some f ∈ (evictN r r.Size).1 ↔
      ∃ x ∈ r.history_list_ ++ r.cache_list_, x.GetId = f ∧ x.IsEvictable = true) ∧
    (evictN r r.Size).2.Size = 0 ∧
    (evictN r r.Size).2.Evict = (none, (evictN r r.Size).2) ∧
    (evictN r r.Size).2.history_list_ = r.history_list_.filter (fun y => !y.IsEvictable) ∧
    (evictN r r.Size).2.cache_list_ = r.cache_list_.filter (fun y => !y.IsEvictable) ∧
    (∀ x ∈ r.history_list_, x.IsEvictable = false →
      x.GetId ∈ (evictN r r.Size).2.history_map_) ∧
    (∀ x ∈ r.cache_list_, x.IsEvictable = false →
      x.GetId ∈ (evictN r r.Size).2.cache_map_) := by
  obtain ⟨hres, hhist, hcache⟩ := evictN_drain r.Size r rfl
  have hwf := WF_evictN r.Size r h
  have hnd : ((r.history_list_ ++ r.cache_list_).map FrameInfo.GetId).Nodup := by
    simpa using h.1
  have hzero : (evictN r r.Size).2.Size = 0 := by
    rw [Size_zero_iff, hhist, hcache]
    constructor <;> intro y hy <;> simpa using (List.mem_filter.1 hy).2
  refine ⟨hres, ?_, ?_, ?_, ?_, hzero, ?_, hhist, hcache, ?_, ?_⟩
  · rw [hres, List.length_map, Size_eq, List.countP_eq_length_filter]
  · intro v hv
    rw [hres] at hv
    obtain ⟨x, _, rfl⟩ := List.mem_map.1 hv
    simp
  · rw [hres]
    have hsub : (((r.history_list_ ++ r.cache_list_).filter FrameInfo.IsEvictable).map
        FrameInfo.GetId).Nodup := hnd.sublist ((List.filter_sublist _).map _)
    have := hsub.map (Option.some_injective Int)
    simpa [List.map_map] using this
  · intro f
    rw [hres]
    simp only [List.mem_map, List.mem_filter, Option.some.injEq]
    constructor
    · rintro ⟨x, ⟨hx, hxe⟩, hxf⟩
      exact ⟨x, hx, hxf, hxe⟩
    · rintro ⟨x, hx, hxf, hxe⟩
      exact ⟨x, ⟨hx, hxe⟩, hxf⟩
  · exact Evict_none _ ((Size_zero_iff _).1 hzero).1 ((Size_zero_iff _).1 hzero).2
  · intro x hx hxe
    refine (hwf.mem_history _).2 ⟨x, ?_, rfl⟩
    rw [hhist]
    exact List.mem_filter.2 ⟨hx, by simp [hxe]⟩
  · intro x hx hxe
    refine (hwf.mem_cache _).2 ⟨x, ?_, rfl⟩
    rw [hcache]
    exact List.mem_filter.2 ⟨hx, by simp [hxe]⟩

/-- C20 on the sample state, whose `Size` is 4: four `Evict` calls return the
frames 1, 3, 4, 6 and leave frame 2 in the history queue and frame 5 in the cache
queue. -/
theorem C20_drain_witness :
    sampleState.WF ∧ sampleState.Size = 4 ∧
    (evictN sampleState sampleState.Size).1 = [some 1, some 3, some 4, some 6] ∧
    (evictN sampleState sampleState.Size).1.Nodup ∧
    (evictN sampleState sampleState.Size).2.Size = 0 ∧
    (evictN sampleState sampleState.Size).2.Evict =
      (none, (evictN sampleState sampleState.Size).2) ∧
    (evictN sampleState sampleState.Size).2.history_list_ =
      [{ frame_id_ := 2, times_ := 2, evictable_ := false }] ∧
    (evictN sampleState sampleState.Size).2.cache_list_ =
      [{ frame_id_ := 5, times_ := 4, evictable_ := false }] :=
  have hw := C20_drain sampleState (by decide)
  ⟨by decide, by decide, hw.1, hw.2.2.2.1, hw.2.2.2.2.2.1, hw.2.2.2.2.2.2.1,
   hw.2.2.2.2.2.2.2.1, hw.2.2.2.2.2.2.2.2.1⟩

end LRUKReplacer

end bustub
